import Mathlib

/-!
# Verification of the tile-tree engine (`src/tiles.rs`)

This file shallowly embeds the tile arena of the repository and proves
properties of its operations: `insert` (re-parenting with wrap-in-place),
`gc_root`/`gc_tile_id` (reachability garbage collection), `layout_tile`,
`tile_ui`, `simplify` and `make_all_panes_children_of_tabs`.

Modelling conventions:
* `TileId` is `Nat`; the Rust code uses random nonzero 64-bit ids, here
  modelled by a fresh-id counter threaded through the operations that
  allocate (`insert_tile`).  All that the algorithms rely on is freshness.
* `HashMap<TileId, Tile>` is modelled by an association list kept strictly
  sorted by key (`Smap`), so that map equality coincides with list equality.
* The opaque `Pane` payload is modelled by `Nat`; the algorithms are
  parametric in it.  `Behavior::retain_pane` becomes a function
  `retain : Nat → Bool`.
* Rust's `debug_assert!` is a diagnostic (a no-op in release builds), like
  the `log::warn!`/`log::debug!` calls; both are dropped in the embedding.
-/

namespace TileTree

/-- An association list from `Nat` keys to `α`, used with keys strictly
sorted so that equal maps are equal lists. -/
abbrev Smap (α : Type) : Type := List (Nat × α)

namespace Smap

variable {α : Type}

/-- The list of keys. -/
def keys (s : Smap α) : List Nat := List.map Prod.fst s

/-- The well-formedness invariant: keys strictly increasing. -/
def Sorted (s : Smap α) : Prop := List.Pairwise (· < ·) (keys s)

instance : DecidablePred (Sorted (α := α)) := fun s =>
  inferInstanceAs (Decidable (List.Pairwise _ _))

/-- Map lookup (first matching key). -/
def find? : Smap α → Nat → Option α
  | [], _ => none
  | (k, a) :: t, q => if q = k then some a else find? t q

/-- Remove the first binding of a key, if present. -/
def erase : Nat → Smap α → Smap α
  | _, [] => []
  | k, (k', a) :: t => if k = k' then t else (k', a) :: erase k t

/-- Insert (or replace) a binding, keeping the keys sorted. -/
def insert : Nat → α → Smap α → Smap α
  | k, a, [] => [(k, a)]
  | k, a, (k', b) :: t =>
    if k < k' then (k, a) :: (k', b) :: t
    else if k = k' then (k, a) :: t
    else (k', b) :: insert k a t

/-- Number of bindings. -/
def size (s : Smap α) : Nat := List.length s

@[simp] theorem find?_nil (q : Nat) : find? ([] : Smap α) q = none := rfl

@[simp] theorem find?_cons (k : Nat) (a : α) (t : Smap α) (q : Nat) :
    find? ((k, a) :: t) q = if q = k then some a else find? t q := rfl

@[simp] theorem keys_nil : keys ([] : Smap α) = [] := rfl

@[simp] theorem keys_cons (k : Nat) (a : α) (t : Smap α) :
    keys ((k, a) :: t) = k :: keys t := rfl

theorem sorted_nil : Sorted ([] : Smap α) := List.Pairwise.nil

theorem sorted_cons {k : Nat} {a : α} {t : Smap α} :
    Sorted ((k, a) :: t) ↔ (∀ q ∈ keys t, k < q) ∧ Sorted t :=
  List.pairwise_cons

theorem Sorted.tail {k : Nat} {a : α} {t : Smap α}
    (h : Sorted ((k, a) :: t)) : Sorted t :=
  (sorted_cons.mp h).2

theorem Sorted.head_lt {k : Nat} {a : α} {t : Smap α}
    (h : Sorted ((k, a) :: t)) {q : Nat} (hq : q ∈ keys t) : k < q :=
  (sorted_cons.mp h).1 q hq

theorem mem_keys_of_find? {s : Smap α} {q : Nat} {a : α}
    (h : find? s q = some a) : q ∈ keys s := by
  induction s with
  | nil => simp [find?] at h
  | cons p t ih =>
    obtain ⟨k, b⟩ := p
    by_cases hq : q = k
    · simp [keys, hq]
    · simp only [find?_cons, if_neg hq] at h
      exact List.mem_cons_of_mem _ (ih h)

theorem find?_isSome_of_mem_keys {s : Smap α} {q : Nat}
    (h : q ∈ keys s) : ∃ a, find? s q = some a := by
  induction s with
  | nil => simp [keys] at h
  | cons p t ih =>
    obtain ⟨k, b⟩ := p
    by_cases hq : q = k
    · exact ⟨b, by simp [hq]⟩
    · rcases List.mem_cons.mp h with h' | h'
      · exact absurd h' hq
      · simpa [find?, hq] using ih h'

/-- `find?` after `insert`. -/
theorem find?_insert (k : Nat) (a : α) (s : Smap α) (q : Nat) :
    find? (insert k a s) q = if q = k then some a else find? s q := by
  induction s with
  | nil => by_cases hq : q = k <;> simp [insert, find?, hq]
  | cons p t ih =>
    obtain ⟨k', b⟩ := p
    by_cases h1 : k < k'
    · by_cases hq : q = k <;> simp [insert, h1, find?, hq]
    · by_cases h2 : k = k'
      · subst h2
        by_cases hq : q = k <;> simp [insert, h1, find?, hq]
      · by_cases hq : q = k
        · subst hq
          have : ¬ q = k' := h2
          simp [insert, h1, h2, find?, this, ih]
        · by_cases hq' : q = k'
          · subst hq'
            simp [insert, h1, h2, find?, hq]
          · simp [insert, h1, h2, find?, hq, hq', ih]

/-- `find?` after `erase`, at a different key. -/
theorem find?_erase_ne (k : Nat) (s : Smap α) (q : Nat) (hq : q ≠ k) :
    find? (erase k s) q = find? s q := by
  induction s with
  | nil => simp [erase]
  | cons p t ih =>
    obtain ⟨k', b⟩ := p
    by_cases h1 : k = k'
    · subst h1
      simp [erase, find?, hq]
    · by_cases hq' : q = k' <;> simp [erase, h1, find?, hq', ih]

/-- Erasing a key that is absent is a no-op. -/
theorem erase_of_find?_eq_none {k : Nat} {s : Smap α}
    (h : find? s k = none) : erase k s = s := by
  induction s with
  | nil => rfl
  | cons p t ih =>
    obtain ⟨k', b⟩ := p
    by_cases h1 : k = k'
    · simp [find?, h1] at h
    · simp only [find?_cons, if_neg h1] at h
      simp [erase, h1, ih h]

/-- On a sorted map, `find?` after `erase` at the erased key is `none`. -/
theorem find?_erase_self {k : Nat} {s : Smap α} (hs : Sorted s) :
    find? (erase k s) k = none := by
  induction s with
  | nil => rfl
  | cons p t ih =>
    obtain ⟨k', b⟩ := p
    by_cases h1 : k = k'
    · subst h1
      simp only [erase, if_pos rfl]
      cases hf : find? t k with
      | none => exact hf
      | some c =>
        exact absurd (hs.head_lt (mem_keys_of_find? hf)) (lt_irrefl _)
    · simp [erase, h1, find?, ih hs.tail]

theorem keys_erase_sublist (k : Nat) (s : Smap α) :
    (keys (erase k s)).Sublist (keys s) := by
  induction s with
  | nil => simp [erase]
  | cons p t ih =>
    obtain ⟨k', b⟩ := p
    by_cases h1 : k = k'
    · simp only [erase, if_pos h1, keys_cons]
      exact (List.Sublist.refl _).cons _
    · simp only [erase, if_neg h1, keys_cons]
      exact ih.cons₂ _

theorem Sorted.erase {k : Nat} {s : Smap α} (hs : Sorted s) :
    Sorted (Smap.erase k s) :=
  hs.sublist (keys_erase_sublist k s)

/-- The keys of `insert k a s` are among `k` and the keys of `s`. -/
theorem mem_keys_insert {k : Nat} {a : α} {s : Smap α} {q : Nat}
    (hq : q ∈ keys (insert k a s)) : q = k ∨ q ∈ keys s := by
  induction s with
  | nil => simpa [insert, keys] using hq
  | cons p t ih =>
    obtain ⟨k'', c⟩ := p
    by_cases g1 : k < k''
    · simpa [insert, g1, keys, List.mem_cons, or_assoc] using hq
    · by_cases g2 : k = k''
      · subst g2
        simpa [insert, g1, keys] using hq
      · simp only [insert, if_neg g1, if_neg g2, keys_cons, List.mem_cons] at hq
        rcases hq with hq | hq
        · exact Or.inr (List.mem_cons.mpr (Or.inl hq))
        · rcases ih hq with h | h
          · exact Or.inl h
          · exact Or.inr (List.mem_cons_of_mem _ h)

theorem Sorted.insert {k : Nat} {a : α} {s : Smap α} (hs : Sorted s) :
    Sorted (Smap.insert k a s) := by
  induction s with
  | nil => simp [Smap.insert, Sorted, keys]
  | cons p t ih =>
    obtain ⟨k', b⟩ := p
    by_cases h1 : k < k'
    · simp only [Smap.insert, if_pos h1]
      refine sorted_cons.mpr ⟨?_, hs⟩
      intro q hq
      rcases List.mem_cons.mp hq with hq | hq
      · exact hq ▸ h1
      · exact h1.trans (hs.head_lt hq)
    · by_cases h2 : k = k'
      · subst h2
        simp only [Smap.insert, if_neg h1, if_pos rfl]
        exact sorted_cons.mpr ⟨fun q hq => hs.head_lt hq, hs.tail⟩
      · have hk : k' < k := by omega
        simp only [Smap.insert, if_neg h1, if_neg h2]
        refine sorted_cons.mpr ⟨?_, ih hs.tail⟩
        intro q hq
        rcases mem_keys_insert hq with h | h
        · exact h ▸ hk
        · exact hs.head_lt h

theorem size_erase_of_find? {k : Nat} {s : Smap α} {a : α}
    (h : find? s k = some a) : size (erase k s) + 1 = size s := by
  induction s with
  | nil => simp [find?] at h
  | cons p t ih =>
    obtain ⟨k', b⟩ := p
    by_cases h1 : k = k'
    · simp [erase, h1, size]
    · simp only [find?_cons, if_neg h1] at h
      simp only [erase, if_neg h1, size, List.length_cons]
      have := ih h
      simp [size] at this
      omega

theorem size_erase_le (k : Nat) (s : Smap α) : size (erase k s) ≤ size s := by
  have := (keys_erase_sublist k s).length_le
  simpa [size, keys] using this

theorem size_insert_le (k : Nat) (a : α) (s : Smap α) :
    size (insert k a s) ≤ size s + 1 := by
  induction s with
  | nil => simp [insert, size]
  | cons p t ih =>
    obtain ⟨k', b⟩ := p
    by_cases h1 : k < k'
    · simp [insert, h1, size]
    · by_cases h2 : k = k'
      · simp [insert, h1, h2, size]
      · simp only [insert, if_neg h1, if_neg h2, size, List.length_cons]
        simp [size] at ih
        omega

/-- Reinserting the binding that was just erased restores a sorted map. -/
theorem insert_erase_self {k : Nat} {a : α} {s : Smap α} (hs : Sorted s)
    (h : find? s k = some a) : insert k a (erase k s) = s := by
  induction s with
  | nil => simp [find?] at h
  | cons p t ih =>
    obtain ⟨k', b⟩ := p
    by_cases h1 : k = k'
    · subst h1
      rw [find?_cons, if_pos rfl] at h
      obtain rfl : b = a := Option.some.injEq _ _ ▸ h
      simp only [erase, if_pos rfl]
      cases t with
      | nil => rfl
      | cons p' t' =>
        obtain ⟨k'', c⟩ := p'
        have hk : k < k'' := hs.head_lt (by simp [keys])
        simp [insert, hk]
    · simp only [find?_cons, if_neg h1] at h
      have hk : k' < k := by
        have := hs.head_lt (mem_keys_of_find? h)
        omega
      simp only [erase, if_neg h1, insert,
        if_neg (by omega : ¬ k < k'), if_neg h1]
      rw [ih hs.tail h]

end Smap

end TileTree

namespace TileTree

/-! ## Data model

`TileId` is `Nat`.  The container types (`Tabs`, `Linear`, `Grid`), the action
enums and `SimplificationOptions` are declared outside `src/` (they are
imported from `super` in `tiles.rs`); their fields and constructors are
modelled from the spec (§3 data model, §4 component design). -/

/-- Direction of a `Linear` split container. -/
inductive LinearDir
  | horizontal
  | vertical
deriving DecidableEq, Repr

/-- The layout kind of a container (`Layout` in the source). -/
inductive Layout
  | tabs
  | horizontal
  | vertical
  | grid
deriving DecidableEq, Repr

/-- Modelled from the spec: Tabs containers own "an ordered sequence of child
ids, plus one `active` child id (must be one of the children, or none if
empty)"; the reserved none id is modelled by `0`. -/
structure Tabs where
  children : List Nat
  active : Nat
deriving DecidableEq, Repr

/-- Modelled from the spec: Linear containers own "an ordered sequence of
child ids, a direction (Horizontal|Vertical), and per-child relative size
shares".  The share sizes are floating-point layout weights consumed only by
the (out-of-src) layout math and are omitted here. -/
structure Linear where
  dir : LinearDir
  children : List Nat
deriving DecidableEq, Repr

/-- Modelled from the spec: Grid containers own a set of child ids "plus a
mapping from child id to a 2D integer location (row, column)". -/
structure Grid where
  children : List Nat
  locations : Smap (Nat × Nat)
deriving DecidableEq, Repr

/-- `Container`: tagged union of the three container kinds. -/
inductive Container
  | tabs : Tabs → Container
  | linear : Linear → Container
  | grid : Grid → Container
deriving DecidableEq, Repr

/-- `Tile<Pane>`: a leaf pane (opaque payload, modelled by `Nat`) or a
container. -/
inductive Tile
  | pane : Nat → Tile
  | container : Container → Tile
deriving DecidableEq, Repr

/-- The arena mapping (`Tiles::tiles` field): id → tile. -/
abbrev Arena := Smap Tile

/-- `GcAction` (declared outside `src/`): result of visiting one tile
during garbage collection. -/
inductive GcAction
  | keep
  | remove
deriving DecidableEq, Repr

/-- `SimplifyAction` (declared outside `src/`): post-order rewrite verdict,
one of Keep, Remove, Replace(other id) (spec §4.5). -/
inductive SimplifyAction
  | keep
  | remove
  | replace : Nat → SimplifyAction
deriving DecidableEq, Repr

/-- `SimplificationOptions` (declared outside `src/`): the boolean switches
named by `Tiles::simplify` (spec §4.5). -/
structure SimplificationOptions where
  prune_empty_tabs : Bool
  prune_empty_layouts : Bool
  prune_single_child_tabs : Bool
  prune_single_child_layouts : Bool
  all_panes_must_have_tabs : Bool
deriving DecidableEq, Repr

/-- `LayoutInsertion` (declared outside `src/`): how a child lands under the
parent (spec §4.1). -/
inductive LayoutInsertion
  | tabs : Nat → LayoutInsertion
  | horizontal : Nat → LayoutInsertion
  | vertical : Nat → LayoutInsertion
  | grid : Nat × Nat → LayoutInsertion
deriving DecidableEq, Repr

/-- `InsertionPoint` (declared outside `src/`): parent id plus locator. -/
structure InsertionPoint where
  parent_id : Nat
  insertion : LayoutInsertion
deriving DecidableEq, Repr

/-- 2D point (`egui::Pos2` has f32 coordinates; the claims only involve the
exact zero point, so integer coordinates are used). -/
structure PosZ where
  x : Int
  y : Int
deriving DecidableEq, Repr

/-- Axis-aligned rectangle given by min/max corners (`egui::Rect`). -/
structure RectZ where
  min : PosZ
  max : PosZ
deriving DecidableEq, Repr

/-- `Pos2::ZERO`. -/
def PosZ.zero : PosZ := ⟨0, 0⟩

/-- `Rect::from_min_max`. -/
def RectZ.from_min_max (a b : PosZ) : RectZ := ⟨a, b⟩

/-- Modelled from the spec: `Tabs::new` wraps a child list; `active` "must be
one of the children, or none if empty" — the first child when nonempty, the
reserved none id (`0`) otherwise. -/
def Tabs.new (children : List Nat) : Tabs :=
  ⟨children, children.headD 0⟩

/-- Modelled from the spec: `Linear::new` wraps a direction and a child
list. -/
def Linear.new (dir : LinearDir) (children : List Nat) : Linear :=
  ⟨dir, children⟩

/-- Modelled from the spec: `Grid::new` wraps a child list; locations start
empty ("locations need not be contiguous", unpositioned members are
allowed). -/
def Grid.new (children : List Nat) : Grid :=
  ⟨children, []⟩

/-- `Container::new_tabs`. -/
def Container.new_tabs (children : List Nat) : Container :=
  .tabs (Tabs.new children)

/-- `Container::new_linear`. -/
def Container.new_linear (dir : LinearDir) (children : List Nat) : Container :=
  .linear (Linear.new dir children)

/-- `Container::new_grid`. -/
def Container.new_grid (children : List Nat) : Container :=
  .grid (Grid.new children)

/-- Modelled from the spec: the container capability set includes
`children()`, the ordered child id list (§9 tagged-union containers). -/
def Container.children : Container → List Nat
  | .tabs t => t.children
  | .linear l => l.children
  | .grid g => g.children

/-- Modelled from the spec: `Container::retain` / `Container::simplify_children`
"rewrite the child list in place"; this is the common child-list update, which
leaves the other per-kind fields as they are. -/
def Container.withChildren : Container → List Nat → Container
  | .tabs t, l => .tabs { t with children := l }
  | .linear li, l => .linear { li with children := l }
  | .grid g, l => .grid { g with children := l }

/-- Modelled from the spec: `Container::layout()` reports the container's
kind, with Linear split by direction. -/
def Container.layout : Container → Layout
  | .tabs _ => .tabs
  | .linear l => match l.dir with
    | .horizontal => .horizontal
    | .vertical => .vertical
  | .grid _ => .grid

/-- `Container::is_empty` (used by the pruning rules): no children. -/
def Container.isEmpty (c : Container) : Bool := c.children.isEmpty

end TileTree

namespace TileTree

/-! ## The tile arena and its operations (`impl<Pane> Tiles<Pane>`)

The operations work on the two fields of `Tiles` separately (they touch them
disjointly): `tiles : Arena` together with the fresh-id counter `n` for
operations that allocate, and `rects : Smap RectZ` for the rectangle cache.
`TileId::random()` is modelled by taking the counter value and bumping it;
the algorithms rely only on the id being fresh. -/

namespace Tiles

/-- `Tiles::try_rect`. -/
def try_rect (rects : Smap RectZ) (tile_id : Nat) : Option RectZ :=
  rects.find? tile_id

/-- `Tiles::rect`: the cached rectangle, falling back to the degenerate
rectangle from `Pos2::ZERO` to `Pos2::ZERO` when absent (the `debug_assert!`
is a release-build no-op diagnostic, like the log line). -/
def rect (rects : Smap RectZ) (tile_id : Nat) : RectZ :=
  (try_rect rects tile_id).getD (RectZ.from_min_max PosZ.zero PosZ.zero)

/-- `Tiles::get`. -/
def get (s : Arena) (tile_id : Nat) : Option Tile :=
  s.find? tile_id

/-- `Tiles::insert_tile`: allocate a fresh id and store the tile.  Returns
the fresh id together with the updated arena and counter. -/
def insert_tile (s : Arena) (n : Nat) (tile : Tile) : Nat × Arena × Nat :=
  (n, s.insert n tile, n + 1)

/-- `Tiles::insert_pane`. -/
def insert_pane (s : Arena) (n : Nat) (pane : Nat) : Nat × Arena × Nat :=
  insert_tile s n (.pane pane)

/-- `Tiles::insert`: re-parent `child_id` under `insertion_point.parent_id`.
If the parent has the matching container kind the child is spliced in at the
clamped index (Tabs also making it active; Grid evicting the occupant of the
target location from `locations` only); otherwise the old tile moves to a
fresh id and a brand-new container of the requested kind replaces the parent
id, holding the old tile and the new child. -/
def insert (s : Arena) (n : Nat) (insertion_point : InsertionPoint)
    (child_id : Nat) : Arena × Nat :=
  match Smap.find? s insertion_point.parent_id with
  | none => (s, n)
  | some tile =>
    let parent_id := insertion_point.parent_id
    let s1 := Smap.erase parent_id s
    match insertion_point.insertion with
    | .tabs index =>
      match tile with
      | .container (.tabs tabs) =>
        let index := min index tabs.children.length
        let tabs : Tabs :=
          { children := tabs.children.insertIdx index child_id
            active := child_id }
        (s1.insert parent_id (.container (.tabs tabs)), n)
      | _ =>
        let (new_tile_id, s2, n) := insert_tile s1 n tile
        let tabs := Tabs.new [new_tile_id]
        let tabs : Tabs :=
          { children := tabs.children.insertIdx (min index 1) child_id
            active := child_id }
        (s2.insert parent_id (.container (.tabs tabs)), n)
    | .horizontal index =>
      match tile with
      | .container (.linear ⟨.horizontal, children⟩) =>
        let index := min index children.length
        let linear : Linear := ⟨.horizontal, children.insertIdx index child_id⟩
        (s1.insert parent_id (.container (.linear linear)), n)
      | _ =>
        let (new_tile_id, s2, n) := insert_tile s1 n tile
        let linear := Linear.new .horizontal [new_tile_id]
        let linear : Linear :=
          { linear with children := linear.children.insertIdx (min index 1) child_id }
        (s2.insert parent_id (.container (.linear linear)), n)
    | .vertical index =>
      match tile with
      | .container (.linear ⟨.vertical, children⟩) =>
        let index := min index children.length
        let linear : Linear := ⟨.vertical, children.insertIdx index child_id⟩
        (s1.insert parent_id (.container (.linear linear)), n)
      | _ =>
        let (new_tile_id, s2, n) := insert_tile s1 n tile
        let linear := Linear.new .vertical [new_tile_id]
        let linear : Linear :=
          { linear with children := linear.children.insertIdx (min index 1) child_id }
        (s2.insert parent_id (.container (.linear linear)), n)
    | .grid insert_location =>
      match tile with
      | .container (.grid grid) =>
        let grid : Grid :=
          { children := grid.children ++ [child_id]
            locations :=
              Smap.insert child_id insert_location
                (grid.locations.filter (fun e => decide (e.2 ≠ insert_location))) }
        (s1.insert parent_id (.container (.grid grid)), n)
      | _ =>
        let (new_tile_id, s2, n) := insert_tile s1 n tile
        let grid := Grid.new [new_tile_id, child_id]
        let grid : Grid :=
          { grid with locations := Smap.insert child_id insert_location grid.locations }
        (s2.insert parent_id (.container (.grid grid)), n)

/-! ### Garbage collection

`gc_tile_id` recurses on the arena after removing the visited tile, so each
nested call sees a strictly smaller arena; the recursion is made structural
on a fuel argument, and `size s + 1` fuel is proved sufficient below.  A call
that runs out of fuel returns the input state (this branch is unreachable
with sufficient fuel). -/

/-- The per-child loop of `Container::retain` during GC (modelled from the
spec: the container "filter[s] out any child whose recursive visit returned
Remove", the visits happening in child order).  Takes the recursive visit as
a function; returns the final arena, visited set and the kept children. -/
def gcChildren (g : List Nat → Arena → Nat → Arena × List Nat × GcAction) :
    List Nat → Arena → List Nat → Arena × List Nat × List Nat
  | v, s, [] => (s, v, [])
  | v, s, c :: cs =>
    let (s1, v1, a) := g v s c
    let (s2, v2, kept) := gcChildren g v1 s1 cs
    (s2, v2, if a = .keep then c :: kept else kept)

/-- `Tiles::gc_tile_id` with explicit fuel: remove the tile (a missing id is
`Remove`); a repeated visit is `Remove` without reinsertion; a pane consults
`retain`; a container keeps the children whose visits returned `Keep` and is
reinserted. -/
def gcF (retain : Nat → Bool) :
    Nat → List Nat → Arena → Nat → Arena × List Nat × GcAction
  | 0, v, s, _ => (s, v, .remove)
  | f + 1, v, s, tile_id =>
    match Smap.find? s tile_id with
    | none => (s, v, .remove)
    | some tile =>
      let s1 := Smap.erase tile_id s
      if tile_id ∈ v then (s1, v, .remove)
      else
        let v1 := tile_id :: v
        match tile with
        | .pane p =>
          if retain p then (s1.insert tile_id (.pane p), v1, .keep)
          else (s1, v1, .remove)
        | .container c =>
          let (s2, v2, kept) := gcChildren (gcF retain f) v1 s1 c.children
          (s2.insert tile_id (.container (c.withChildren kept)), v2, .keep)

/-- `Tiles::gc_root`: walk from the root, then retain exactly the visited
ids. -/
def gc_root (retain : Nat → Bool) (s : Arena) (root_id : Nat) : Arena :=
  let (s1, visited, _) := gcF retain (s.size + 1) [] s root_id
  s1.filter (fun e => visited.contains e.1)

/-! ### Simplification -/

/-- The per-child loop of `Container::simplify_children` (modelled from the
spec: "using each child's action to rewrite the child list in place (Remove
drops the slot; Replace substitutes the returned id)", children visited in
order).  Takes the recursive simplify as a function. -/
def simpChildren (g : Arena → Nat → Arena × SimplifyAction) :
    Arena → List Nat → Arena × List Nat
  | s, [] => (s, [])
  | s, c :: cs =>
    match g s c with
    | (s1, .keep) =>
      let (s2, l) := simpChildren g s1 cs
      (s2, c :: l)
    | (s1, .remove) => simpChildren g s1 cs
    | (s1, .replace r) =>
      let (s2, l) := simpChildren g s1 cs
      (s2, r :: l)

/-- The pane test of the simplify policy:
`matches!(self.get(id), Some(Tile::Pane(_)))`. -/
def isPaneIn (s : Arena) (id : Nat) : Bool :=
  match get s id with
  | some (.pane _) => true
  | _ => false

/-- The pruning-policy if-chain of `Tiles::simplify`, applied to the
child-rewritten container `c1` once the children have been simplified (the
arena `s1` at this point has the tile `it` removed). -/
def simplifyPolicy (o : SimplificationOptions) (it : Nat) (c1 : Container)
    (s1 : Arena) : Arena × SimplifyAction :=
  if c1.layout = Layout.tabs then
    if o.prune_empty_tabs && c1.isEmpty then (s1, .remove)
    else if o.prune_single_child_tabs && (c1.children.length == 1) then
      if o.all_panes_must_have_tabs && isPaneIn s1 (c1.children.headD 0)
      then (s1.insert it (.container c1), .keep)
      else (s1, .replace (c1.children.headD 0))
    else (s1.insert it (.container c1), .keep)
  else
    if o.prune_empty_layouts && c1.isEmpty then (s1, .remove)
    else if o.prune_single_child_layouts && (c1.children.length == 1) then
      (s1, .replace (c1.children.headD 0))
    else (s1.insert it (.container c1), .keep)

/-- `Tiles::simplify` with explicit fuel: remove the tile (missing id is
`Remove`), simplify the children, then apply the pruning policy; `Keep`
reinserts the (child-rewritten) tile, `Remove` and `Replace` leave it out. -/
def simplifyF (o : SimplificationOptions) :
    Nat → Arena → Nat → Arena × SimplifyAction
  | 0, s, _ => (s, .remove)
  | f + 1, s, it =>
    match Smap.find? s it with
    | none => (s, .remove)
    | some tile =>
      let s0 := Smap.erase it s
      match tile with
      | .pane p => (s0.insert it (.pane p), .keep)
      | .container c =>
        let (s1, l) := simpChildren (simplifyF o f) s0 c.children
        simplifyPolicy o it (c.withChildren l) s1

/-- `Tiles::simplify` at its canonical sufficient fuel. -/
def simplify (o : SimplificationOptions) (s : Arena) (it : Nat) :
    Arena × SimplifyAction :=
  simplifyF o (s.size + 1) s it

/-! ### Tab normalization -/

/-- A generic in-order walk over a child list threading a state. -/
def walkChildren {σ : Type} (g : Nat → σ → σ) : List Nat → σ → σ
  | [], st => st
  | c :: cs, st => walkChildren g cs (g c st)

/-- `Tiles::make_all_panes_children_of_tabs` with explicit fuel: a pane
visited with `parent_is_tabs = false` moves to a fresh id and its original id
is overwritten with a single-child Tabs wrapper; containers recurse into
their children (with the tile held out of the arena) and are then
reinserted. -/
def makeAllF : Nat → Bool → Nat → Arena × Nat → Arena × Nat
  | 0, _, _, st => st
  | f + 1, parent_is_tabs, it, (s, n) =>
    match Smap.find? s it with
    | none => (s, n)
    | some tile =>
      let s0 := Smap.erase it s
      match tile with
      | .pane p =>
        if !parent_is_tabs then
          let new_id := n
          let s1 := s0.insert new_id (.pane p)
          (s1.insert it (.container (Container.new_tabs [new_id])), n + 1)
        else (s0.insert it (.pane p), n)
      | .container c =>
        let is_tabs := c.layout = Layout.tabs
        let st := walkChildren (fun child st => makeAllF f is_tabs child st)
          c.children (s0, n)
        (st.1.insert it (.container c), st.2)

/-- `Tiles::make_all_panes_children_of_tabs` at its canonical fuel (the
arena can grow by one entry per wrapped pane, so the sufficient fuel is the
arena size plus its pane count, bounded by twice the size). -/
def make_all_panes_children_of_tabs (parent_is_tabs : Bool) (it : Nat)
    (s : Arena) (n : Nat) : Arena × Nat :=
  makeAllF (2 * s.size + 1) parent_is_tabs it (s, n)

/-! ### Layout and ui passes -/

/-- `Tiles::layout_tile` with explicit fuel.  `Container::layout_recursive`
is not under `src/`; modelled from the spec (§4.3): it recurses into each
child "with a sub-rectangle computed by the container's own layout rule",
abstracted here as the function `childRect` (the per-kind geometry is
floating-point math irrelevant to the verified claims). -/
def layoutF (childRect : Container → RectZ → Nat → RectZ) :
    Nat → RectZ → Nat → Arena × Smap RectZ → Arena × Smap RectZ
  | 0, _, _, st => st
  | f + 1, r, tile_id, (s, rects) =>
    match Smap.find? s tile_id with
    | none => (s, rects)
    | some tile =>
      let s0 := Smap.erase tile_id s
      let rects1 := rects.insert tile_id r
      let st := match tile with
        | .container c =>
          walkChildren
            (fun child st => layoutF childRect f (childRect c r child) child st)
            c.children (s0, rects1)
        | .pane _ => (s0, rects1)
      (st.1.insert tile_id tile, st.2)

/-- `Tiles::tile_ui` recursion skeleton with explicit fuel.  The egui
plumbing (Ui construction, drop-context bookkeeping, behavior callbacks) is
external collaborator state that does not touch the arena; `Container::ui` is
not under `src/` and is modelled from the spec (§4.4): it "recurses
per-child".  A tile without a cached rectangle is skipped before the tile is
taken out, so the tile is not lost. -/
def tileUiF (rects : Smap RectZ) : Nat → Arena → Nat → Arena
  | 0, s, _ => s
  | f + 1, s, tile_id =>
    match try_rect rects tile_id with
    | none => s
    | some _ =>
      match Smap.find? s tile_id with
      | none => s
      | some tile =>
        let s0 := Smap.erase tile_id s
        let s1 := match tile with
          | .container c =>
            walkChildren (fun child s => tileUiF rects f s child) c.children s0
          | .pane _ => s0
        s1.insert tile_id tile

end Tiles

end TileTree

namespace TileTree

/-! ## Supporting lemmas for the claims -/

open Tiles

/-- A list is a sublist of itself with one element spliced in at any index. -/
theorem sublist_insertIdx (l : List Nat) (i : Nat) (c : Nat) :
    l.Sublist (l.insertIdx i c) := by
  induction l generalizing i with
  | nil =>
    cases i <;> simp [List.insertIdx_zero]
  | cons a t ih =>
    cases i with
    | zero => simpa [List.insertIdx_zero] using (List.Sublist.refl (a :: t)).cons c
    | succ j =>
      simpa [List.insertIdx_succ_cons] using (ih j).cons₂ a

/-- The element spliced in by `insertIdx` is a member when the index is within
bounds. -/
theorem mem_insertIdx_self (l : List Nat) (i : Nat) (c : Nat) (h : i ≤ l.length) :
    c ∈ l.insertIdx i c := by
  induction l generalizing i with
  | nil =>
    cases i with
    | zero => simp [List.insertIdx_zero]
    | succ j => simp at h
  | cons a t ih =>
    cases i with
    | zero => simp [List.insertIdx_zero]
    | succ j =>
      simp only [List.insertIdx_succ_cons, List.mem_cons]
      exact Or.inr (ih j (by simpa using h))

/-- Claim C9: `Tiles::rect` on a tile id with no cached rectangle returns the
degenerate zero-area rectangle from `(0,0)` to `(0,0)` (the `debug_assert!`
diagnostic aside, no undefined value is produced). -/
theorem C9_rect_missing_cache_is_zero_rect (rects : Smap RectZ) (tile_id : Nat)
    (h : Tiles.try_rect rects tile_id = none) :
    Tiles.rect rects tile_id = RectZ.from_min_max PosZ.zero PosZ.zero := by
  simp [Tiles.rect, h]

/-- Claim C9, witness: the fallback at a concrete empty cache. -/
theorem C9_rect_missing_cache_is_zero_rect_witness :
    Tiles.rect ([] : Smap RectZ) 1 = RectZ.from_min_max PosZ.zero PosZ.zero :=
  C9_rect_missing_cache_is_zero_rect [] 1 rfl

/-- Claim C10: `Tiles::insert` with a `parent_id` that is not a key of the
arena is an atomic no-op — the arena (and the id allocator) are returned
unchanged, so `child_id` is neither attached anywhere nor removed. -/
theorem C10_insert_missing_parent_noop (s : Arena) (n : Nat)
    (insertion_point : InsertionPoint) (child_id : Nat)
    (h : Smap.find? s insertion_point.parent_id = none) :
    Tiles.insert s n insertion_point child_id = (s, n) := by
  unfold Tiles.insert
  rw [h]

/-- Claim C10, witness: inserting under the absent parent id `5` of a
one-pane arena changes nothing. -/
theorem C10_insert_missing_parent_noop_witness :
    Tiles.insert [(1, .pane 0)] 2 ⟨5, .tabs 0⟩ 3 = ([(1, .pane 0)], 2) :=
  C10_insert_missing_parent_noop [(1, .pane 0)] 2 ⟨5, .tabs 0⟩ 3 rfl

end TileTree

namespace TileTree

open Tiles

/-- Claim C1, counterexample: on the arena `{1 ↦ Pane 100, 2 ↦ Pane 200}`
(fresh counter `3`), inserting child `2` at
`InsertionPoint{parent_id := 1, insertion := Tabs 0}` does NOT produce a Tabs
container whose children are `[P1, P2]` (the reinserted old pane first): no
fresh id `f` holding the old pane appears BEFORE the new child in the child
list; the actual child list is `[2, 3]` — the new child first. -/
theorem C1_counterexample :
    ¬ ∃ (f : Nat) (t : Tabs),
      Smap.find? (Tiles.insert [(1, .pane 100), (2, .pane 200)] 3
          ⟨1, .tabs 0⟩ 2).1 1 = some (.container (.tabs t)) ∧
      t.children = [f, 2] ∧
      Smap.find? (Tiles.insert [(1, .pane 100), (2, .pane 200)] 3
          ⟨1, .tabs 0⟩ 2).1 f = some (.pane 100) := by
  rintro ⟨f, t, h1, h2, h3⟩
  have ht : t = ⟨[2, 3], 2⟩ := by
    have : Smap.find? (Tiles.insert [(1, .pane 100), (2, .pane 200)] 3
        ⟨1, .tabs 0⟩ 2).1 1 = some (.container (.tabs ⟨[2, 3], 2⟩)) := by rfl
    rw [this] at h1
    cases h1
    rfl
  rw [ht] at h2
  cases h2

/-- Claim C1 as amended: inserting a fresh pane `c` with
`InsertionPoint{parent_id := r, insertion := Tabs 0}` into an arena whose `r`
maps to a Pane results in `r` mapping to a brand-new Tabs container whose
children are `[P2, P1]` — the NEW child at clamped position `min 0 1 = 0`,
the old pane reinserted under the fresh id `n` after it — with the new child
active; the old pane is at the fresh id. -/
theorem C1_amended_wrap_pane_in_tabs (s : Arena) (n : Nat) (r c p : Nat)
    (hs : s.Sorted) (hr : Smap.find? s r = some (.pane p))
    (hn : Smap.find? s n = none) :
    Smap.find? (Tiles.insert s n ⟨r, .tabs 0⟩ c).1 r
        = some (.container (.tabs ⟨[c, n], c⟩)) ∧
    Smap.find? (Tiles.insert s n ⟨r, .tabs 0⟩ c).1 n = some (.pane p) ∧
    (Tiles.insert s n ⟨r, .tabs 0⟩ c).2 = n + 1 := by
  have hnr : n ≠ r := by
    intro h
    rw [h, hr] at hn
    cases hn
  have key : Tiles.insert s n ⟨r, .tabs 0⟩ c
      = (Smap.insert r (.container (.tabs ⟨[c, n], c⟩))
          (Smap.insert n (.pane p) (Smap.erase r s)), n + 1) := by
    unfold Tiles.insert
    rw [hr]
    rfl
  rw [key]
  refine ⟨?_, ?_, rfl⟩
  · rw [Smap.find?_insert, if_pos rfl]
  · rw [Smap.find?_insert, if_neg hnr, Smap.find?_insert, if_pos rfl]

/-- Claim C1, witness: the amended behavior at the concrete two-pane arena. -/
theorem C1_amended_wrap_pane_in_tabs_witness :
    Smap.find? (Tiles.insert [(1, .pane 100), (2, .pane 200)] 3
        ⟨1, .tabs 0⟩ 2).1 1 = some (.container (.tabs ⟨[2, 3], 2⟩)) ∧
    Smap.find? (Tiles.insert [(1, .pane 100), (2, .pane 200)] 3
        ⟨1, .tabs 0⟩ 2).1 3 = some (.pane 100) ∧
    (Tiles.insert [(1, .pane 100), (2, .pane 200)] 3 ⟨1, .tabs 0⟩ 2).2 = 4 :=
  C1_amended_wrap_pane_in_tabs [(1, .pane 100), (2, .pane 200)] 3 1 2 100
    (by decide) rfl rfl

end TileTree

namespace TileTree

namespace Smap

variable {α : Type}

theorem find?_eq_none_of_not_mem_keys {s : Smap α} {q : Nat}
    (h : q ∉ keys s) : find? s q = none := by
  cases hf : find? s q with
  | none => rfl
  | some a => exact absurd (mem_keys_of_find? hf) h

/-- The one-step unfolding of `insert` on a nonempty map. -/
theorem insert_cons (k : Nat) (a : α) (k' : Nat) (b : α) (t : Smap α) :
    insert k a ((k', b) :: t)
      = if k < k' then (k, a) :: (k', b) :: t
        else if k = k' then (k, a) :: t
        else (k', b) :: insert k a t := rfl

/-- The values of `insert k a m` are among `a` and the values of `m`. -/
theorem mem_values_insert {k : Nat} {a : α} {m : Smap α} {q : α}
    (hq : q ∈ (insert k a m).map Prod.snd) :
    q = a ∨ q ∈ m.map Prod.snd := by
  induction m with
  | nil => simpa [insert] using hq
  | cons p t ih =>
    obtain ⟨k', b⟩ := p
    by_cases g1 : k < k'
    · simpa [insert_cons, g1, List.mem_cons, or_assoc] using hq
    · by_cases g2 : k = k'
      · rw [insert_cons, if_neg g1, if_pos g2] at hq
        simp only [List.map_cons, List.mem_cons] at hq
        rcases hq with hq | hq
        · exact Or.inl hq
        · exact Or.inr (List.mem_cons_of_mem _ hq)
      · rw [insert_cons, if_neg g1, if_neg g2] at hq
        simp only [List.map_cons, List.mem_cons] at hq
        rcases hq with hq | hq
        · exact Or.inr (List.mem_cons.mpr (Or.inl hq))
        · rcases ih hq with h | h
          · exact Or.inl h
          · exact Or.inr (List.mem_cons_of_mem _ h)

/-- Inserting a binding whose value is not already present preserves
duplicate-freeness of the values. -/
theorem nodup_values_insert {k : Nat} {a : α} {m : Smap α}
    (ha : a ∉ m.map Prod.snd) (hm : (m.map Prod.snd).Nodup) :
    ((insert k a m).map Prod.snd).Nodup := by
  induction m with
  | nil => simp [insert]
  | cons p t ih =>
    obtain ⟨k', b⟩ := p
    simp only [List.map_cons, List.mem_cons, not_or] at ha
    have hb : b ∉ t.map Prod.snd := (List.nodup_cons.mp hm).1
    have ht : (t.map Prod.snd).Nodup := (List.nodup_cons.mp hm).2
    by_cases g1 : k < k'
    · rw [insert_cons, if_pos g1]
      simp only [List.map_cons, List.nodup_cons, List.mem_cons, not_or]
      exact ⟨⟨ha.1, ha.2⟩, hb, ht⟩
    · by_cases g2 : k = k'
      · rw [insert_cons, if_neg g1, if_pos g2]
        simp only [List.map_cons, List.nodup_cons]
        exact ⟨ha.2, ht⟩
      · rw [insert_cons, if_neg g1, if_neg g2]
        simp only [List.map_cons, List.nodup_cons]
        refine ⟨?_, ih ha.2 ht⟩
        intro hbmem
        rcases mem_values_insert hbmem with h | h
        · exact ha.1 h.symm
        · exact hb h

/-- `find?` through `filter` on a sorted map. -/
theorem find?_filter {m : Smap α} (hm : Sorted m) (p : Nat × α → Bool)
    (q : Nat) :
    find? (m.filter p) q
      = match find? m q with
        | some a => if p (q, a) then some a else none
        | none => none := by
  induction m with
  | nil => simp [find?]
  | cons e t ih =>
    obtain ⟨k, b⟩ := e
    by_cases hq : q = k
    · subst hq
      by_cases hp : p (q, b)
      · simp [find?, hp]
      · have : find? t q = none :=
          find?_eq_none_of_not_mem_keys (fun hmem => absurd (hm.head_lt hmem) (lt_irrefl _))
        have ht := ih hm.tail
        rw [this] at ht
        by_cases hp2 : p (q, b) <;> simp [List.filter, hp, find?, ht, hp2]
    · by_cases hp : p (k, b) <;> simp [List.filter, hp, find?, hq, ih hm.tail]

/-- Filtering preserves sortedness. -/
theorem Sorted.filter {m : Smap α} (hm : Sorted m) (p : Nat × α → Bool) :
    Sorted (m.filter p) :=
  hm.sublist ((List.filter_sublist m).map Prod.fst)

end Smap

end TileTree

namespace TileTree

namespace Smap

variable {α : Type}

/-- A successful lookup is a list member. -/
theorem find?_mem {s : Smap α} {q : Nat} {a : α}
    (h : find? s q = some a) : (q, a) ∈ s := by
  induction s with
  | nil => simp [find?] at h
  | cons p t ih =>
    obtain ⟨k, b⟩ := p
    by_cases hq : q = k
    · subst hq
      rw [find?_cons, if_pos rfl] at h
      cases h
      exact List.mem_cons_self _ _
    · rw [find?_cons, if_neg hq] at h
      exact List.mem_cons_of_mem _ (ih h)

/-- Every member of `insert k a m` is the new binding or an old member. -/
theorem mem_insert_elim {k : Nat} {a : α} {m : Smap α} {e : Nat × α}
    (he : e ∈ insert k a m) : e = (k, a) ∨ e ∈ m := by
  induction m with
  | nil => simpa [insert] using he
  | cons p t ih =>
    obtain ⟨k', b⟩ := p
    by_cases g1 : k < k'
    · simpa [insert_cons, g1, List.mem_cons, or_assoc] using he
    · by_cases g2 : k = k'
      · rw [insert_cons, if_neg g1, if_pos g2] at he
        rcases List.mem_cons.mp he with h | h
        · exact Or.inl h
        · exact Or.inr (List.mem_cons_of_mem _ h)
      · rw [insert_cons, if_neg g1, if_neg g2] at he
        rcases List.mem_cons.mp he with h | h
        · exact Or.inr (List.mem_cons.mpr (Or.inl h))
        · rcases ih h with h' | h'
          · exact Or.inl h'
          · exact Or.inr (List.mem_cons_of_mem _ h')

/-- `erase` produces a sublist. -/
theorem erase_sublist (k : Nat) (s : Smap α) : (erase k s).Sublist s := by
  induction s with
  | nil => simp [erase]
  | cons p t ih =>
    obtain ⟨k', b⟩ := p
    by_cases h1 : k = k'
    · simp only [erase, if_pos h1]
      exact (List.Sublist.refl _).cons _
    · simp only [erase, if_neg h1]
      exact ih.cons₂ _

end Smap

open Tiles

/-- Well-formedness threaded through the arena operations: the map is sorted
and the fresh-id counter exceeds every key. -/
def WF (s : Arena) (n : Nat) : Prop :=
  s.Sorted ∧ ∀ k ∈ Smap.keys s, k < n

instance (s : Arena) (n : Nat) : Decidable (WF s n) :=
  inferInstanceAs (Decidable (_ ∧ _))

/-- Claim C2's per-tile condition: a Grid container's locations are sorted
and no two children share a location; all other tiles are unconstrained. -/
def gridOk : Tile → Bool
  | .container (.grid g) =>
    decide (Smap.Sorted g.locations) && decide ((g.locations.map Prod.snd).Nodup)
  | _ => true

/-- Claim C2's invariant over the whole arena: every Grid container passes
`gridOk`. -/
def GridInv (s : Arena) : Prop := ∀ e ∈ s, gridOk e.2 = true

instance (s : Arena) : Decidable (GridInv s) :=
  inferInstanceAs (Decidable (∀ e ∈ s, _))

theorem gridOk_of_find? {s : Arena} {q : Nat} {T : Tile}
    (hinv : GridInv s) (h : Smap.find? s q = some T) : gridOk T = true :=
  hinv (q, T) (Smap.find?_mem h)

/-- A sequence of `Tiles::insert` calls. -/
def insertMany (s : Arena) (n : Nat) (ops : List (InsertionPoint × Nat)) :
    Arena × Nat :=
  ops.foldl (fun st op => Tiles.insert st.1 st.2 op.1 op.2) (s, n)

end TileTree

namespace TileTree

open Tiles

/-- The two possible shapes of a successful `Tiles::insert`: either the
parent matched the requested kind and is updated in place (its child list
extended by the new child), or the old tile moved to the fresh id `n` and a
brand-new wrapper container replaced the parent id, holding `n` and the new
child. -/
theorem insert_shape (s : Arena) (n : Nat) (par : Nat) (ins : LayoutInsertion)
    (c : Nat) (T : Tile) (hfind : Smap.find? s par = some T) :
    (∃ C C', T = .container C ∧
      Tiles.insert s n ⟨par, ins⟩ c
        = (Smap.insert par (.container C') (Smap.erase par s), n) ∧
      C.children.Sublist C'.children ∧ c ∈ C'.children ∧
      (∀ g', C' = .grid g' → ∃ g loc, C = .grid g ∧ ins = .grid loc ∧
        g'.children = g.children ++ [c] ∧
        g'.locations = Smap.insert c loc
          (g.locations.filter (fun e => decide (e.2 ≠ loc))))) ∨
    (∃ C', Tiles.insert s n ⟨par, ins⟩ c
        = (Smap.insert par (.container C')
            (Smap.insert n T (Smap.erase par s)), n + 1) ∧
      n ∈ C'.children ∧ c ∈ C'.children ∧
      (∀ g', C' = .grid g' → ∃ loc, ins = .grid loc ∧
        g' = ⟨[n, c], [(c, loc)]⟩)) := by
  have memn : ∀ (i : Nat), n ∈ List.insertIdx (min i 1) c [n] := by
    intro i
    exact (sublist_insertIdx [n] (min i 1) c).mem (List.mem_singleton_self n)
  have memc : ∀ (i : Nat), c ∈ List.insertIdx (min i 1) c [n] := by
    intro i
    exact mem_insertIdx_self [n] (min i 1) c
      (by simpa using Nat.min_le_right i 1)
  cases ins with
  | tabs index =>
    cases T with
    | pane p =>
      refine Or.inr ⟨.tabs ⟨List.insertIdx (min index 1) c [n], c⟩,
        by unfold Tiles.insert; rw [hfind]; rfl,
        memn index, memc index, ?_⟩
      intro g' h
      cases h
    | container C =>
      cases C with
      | tabs t =>
        refine Or.inl ⟨.tabs t,
          .tabs ⟨List.insertIdx (min index t.children.length) c t.children, c⟩,
          rfl, by unfold Tiles.insert; rw [hfind],
          sublist_insertIdx _ _ _,
          mem_insertIdx_self _ _ _ (Nat.min_le_right _ _), ?_⟩
        intro g' h
        cases h
      | linear l =>
        obtain ⟨dir, ch⟩ := l
        cases dir with
        | horizontal =>
          refine Or.inr ⟨.tabs ⟨List.insertIdx (min index 1) c [n], c⟩,
            by unfold Tiles.insert; rw [hfind]; rfl,
            memn index, memc index, ?_⟩
          intro g' h
          cases h
        | vertical =>
          refine Or.inr ⟨.tabs ⟨List.insertIdx (min index 1) c [n], c⟩,
            by unfold Tiles.insert; rw [hfind]; rfl,
            memn index, memc index, ?_⟩
          intro g' h
          cases h
      | grid g =>
        refine Or.inr ⟨.tabs ⟨List.insertIdx (min index 1) c [n], c⟩,
          by unfold Tiles.insert; rw [hfind]; rfl,
          memn index, memc index, ?_⟩
        intro g' h
        cases h
  | horizontal index =>
    cases T with
    | pane p =>
      refine Or.inr ⟨.linear ⟨.horizontal, List.insertIdx (min index 1) c [n]⟩,
        by unfold Tiles.insert; rw [hfind]; rfl,
        memn index, memc index, ?_⟩
      intro g' h
      cases h
    | container C =>
      cases C with
      | tabs t =>
        refine Or.inr ⟨.linear ⟨.horizontal, List.insertIdx (min index 1) c [n]⟩,
          by unfold Tiles.insert; rw [hfind]; rfl,
          memn index, memc index, ?_⟩
        intro g' h
        cases h
      | linear l =>
        obtain ⟨dir, ch⟩ := l
        cases dir with
        | horizontal =>
          refine Or.inl ⟨.linear ⟨.horizontal, ch⟩,
            .linear ⟨.horizontal, List.insertIdx (min index ch.length) c ch⟩,
            rfl, by unfold Tiles.insert; rw [hfind],
            sublist_insertIdx _ _ _,
            mem_insertIdx_self _ _ _ (Nat.min_le_right _ _), ?_⟩
          intro g' h
          cases h
        | vertical =>
          refine Or.inr ⟨.linear ⟨.horizontal, List.insertIdx (min index 1) c [n]⟩,
            by unfold Tiles.insert; rw [hfind]; rfl,
            memn index, memc index, ?_⟩
          intro g' h
          cases h
      | grid g =>
        refine Or.inr ⟨.linear ⟨.horizontal, List.insertIdx (min index 1) c [n]⟩,
          by unfold Tiles.insert; rw [hfind]; rfl,
          memn index, memc index, ?_⟩
        intro g' h
        cases h
  | vertical index =>
    cases T with
    | pane p =>
      refine Or.inr ⟨.linear ⟨.vertical, List.insertIdx (min index 1) c [n]⟩,
        by unfold Tiles.insert; rw [hfind]; rfl,
        memn index, memc index, ?_⟩
      intro g' h
      cases h
    | container C =>
      cases C with
      | tabs t =>
        refine Or.inr ⟨.linear ⟨.vertical, List.insertIdx (min index 1) c [n]⟩,
          by unfold Tiles.insert; rw [hfind]; rfl,
          memn index, memc index, ?_⟩
        intro g' h
        cases h
      | linear l =>
        obtain ⟨dir, ch⟩ := l
        cases dir with
        | horizontal =>
          refine Or.inr ⟨.linear ⟨.vertical, List.insertIdx (min index 1) c [n]⟩,
            by unfold Tiles.insert; rw [hfind]; rfl,
            memn index, memc index, ?_⟩
          intro g' h
          cases h
        | vertical =>
          refine Or.inl ⟨.linear ⟨.vertical, ch⟩,
            .linear ⟨.vertical, List.insertIdx (min index ch.length) c ch⟩,
            rfl, by unfold Tiles.insert; rw [hfind],
            sublist_insertIdx _ _ _,
            mem_insertIdx_self _ _ _ (Nat.min_le_right _ _), ?_⟩
          intro g' h
          cases h
      | grid g =>
        refine Or.inr ⟨.linear ⟨.vertical, List.insertIdx (min index 1) c [n]⟩,
          by unfold Tiles.insert; rw [hfind]; rfl,
          memn index, memc index, ?_⟩
        intro g' h
        cases h
  | grid loc =>
    cases T with
    | pane p =>
      refine Or.inr ⟨.grid ⟨[n, c], [(c, loc)]⟩,
        by unfold Tiles.insert; rw [hfind]; rfl,
        by simp [Container.children], by simp [Container.children], ?_⟩
      intro g' h
      cases h
      exact ⟨loc, rfl, rfl⟩
    | container C =>
      cases C with
      | tabs t =>
        refine Or.inr ⟨.grid ⟨[n, c], [(c, loc)]⟩,
          by unfold Tiles.insert; rw [hfind]; rfl,
          by simp [Container.children], by simp [Container.children], ?_⟩
        intro g' h
        cases h
        exact ⟨loc, rfl, rfl⟩
      | linear l =>
        obtain ⟨dir, ch⟩ := l
        cases dir with
        | horizontal =>
          refine Or.inr ⟨.grid ⟨[n, c], [(c, loc)]⟩,
            by unfold Tiles.insert; rw [hfind]; rfl,
            by simp [Container.children], by simp [Container.children], ?_⟩
          intro g' h
          cases h
          exact ⟨loc, rfl, rfl⟩
        | vertical =>
          refine Or.inr ⟨.grid ⟨[n, c], [(c, loc)]⟩,
            by unfold Tiles.insert; rw [hfind]; rfl,
            by simp [Container.children], by simp [Container.children], ?_⟩
          intro g' h
          cases h
          exact ⟨loc, rfl, rfl⟩
      | grid g =>
        refine Or.inl ⟨.grid g,
          .grid ⟨g.children ++ [c],
            Smap.insert c loc
              (g.locations.filter (fun e => decide (e.2 ≠ loc)))⟩,
          rfl, by unfold Tiles.insert; rw [hfind],
          ?_, ?_, ?_⟩
        · exact List.sublist_append_left _ _
        · exact List.mem_append_right _ (List.mem_singleton_self c)
        · intro g' h
          cases h
          exact ⟨g, loc, rfl, rfl, rfl, rfl⟩

end TileTree

namespace TileTree

open Tiles

/-- The evicted location does not appear among the filtered values. -/
theorem not_mem_values_filter_ne (m : Smap (Nat × Nat)) (loc : Nat × Nat) :
    loc ∉ (m.filter (fun e => decide (e.2 ≠ loc))).map Prod.snd := by
  intro h
  obtain ⟨e, hmem, he⟩ := List.mem_map.mp h
  have hd := List.of_mem_filter hmem
  rw [decide_eq_true_iff] at hd
  exact hd he

/-- Filtering keeps the values duplicate-free. -/
theorem nodup_values_filter {m : Smap (Nat × Nat)} (p : Nat × (Nat × Nat) → Bool)
    (hm : (m.map Prod.snd).Nodup) : ((m.filter p).map Prod.snd).Nodup :=
  hm.sublist ((List.filter_sublist m).map Prod.snd)

/-- `Tiles::insert` with an absent parent id leaves the state unchanged
(internal form). -/
theorem insert_noop_of_missing (s : Arena) (n : Nat) (pt : InsertionPoint)
    (c : Nat) (h : Smap.find? s pt.parent_id = none) :
    Tiles.insert s n pt c = (s, n) := by
  unfold Tiles.insert
  rw [h]

/-- `Tiles::insert` preserves well-formedness. -/
theorem insert_WF (s : Arena) (n : Nat) (pt : InsertionPoint) (c : Nat)
    (h : WF s n) :
    WF (Tiles.insert s n pt c).1 (Tiles.insert s n pt c).2 := by
  obtain ⟨par, ins⟩ := pt
  cases hfind : Smap.find? s par with
  | none =>
    rw [insert_noop_of_missing s n ⟨par, ins⟩ c hfind]
    exact h
  | some T =>
    have hpar : par < n := h.2 par (Smap.mem_keys_of_find? hfind)
    rcases insert_shape s n par ins c T hfind with
      ⟨C, C', _, heq, _⟩ | ⟨C', heq, _⟩
    · rw [heq]
      refine ⟨(h.1.erase).insert, ?_⟩
      intro k hk
      rcases Smap.mem_keys_insert hk with rfl | hk'
      · exact hpar
      · exact h.2 k ((Smap.keys_erase_sublist par s).mem hk')
    · rw [heq]
      refine ⟨((h.1.erase).insert).insert, ?_⟩
      intro k hk
      rcases Smap.mem_keys_insert hk with rfl | hk'
      · omega
      · rcases Smap.mem_keys_insert hk' with rfl | hk''
        · omega
        · have := h.2 k ((Smap.keys_erase_sublist par s).mem hk'')
          omega

/-- `Tiles::insert` preserves the grid-location uniqueness invariant. -/
theorem insert_GridInv (s : Arena) (n : Nat) (pt : InsertionPoint) (c : Nat)
    (hinv : GridInv s) :
    GridInv (Tiles.insert s n pt c).1 := by
  obtain ⟨par, ins⟩ := pt
  cases hfind : Smap.find? s par with
  | none =>
    rw [insert_noop_of_missing s n ⟨par, ins⟩ c hfind]
    exact hinv
  | some T =>
    rcases insert_shape s n par ins c T hfind with
      ⟨C, C', hTC, heq, _, _, hgrid⟩ | ⟨C', heq, _, _, hgrid⟩
    · rw [heq]
      intro e he
      rcases Smap.mem_insert_elim he with rfl | he'
      · show gridOk (.container C') = true
        cases C' with
        | tabs t => rfl
        | linear l => rfl
        | grid g' =>
          obtain ⟨g, loc, hCg, hins, hch, hlocs⟩ := hgrid g' rfl
          have hok := gridOk_of_find? hinv (show Smap.find? s par
            = some (.container (.grid g)) from by rw [hfind, hTC, hCg])
          simp only [gridOk, Bool.and_eq_true, decide_eq_true_iff] at hok
          simp only [gridOk, Bool.and_eq_true, decide_eq_true_iff, hlocs]
          constructor
          · exact (hok.1.filter _).insert
          · exact Smap.nodup_values_insert (not_mem_values_filter_ne _ _)
              (nodup_values_filter _ hok.2)
      · exact hinv e ((Smap.erase_sublist par s).mem he')
    · rw [heq]
      intro e he
      rcases Smap.mem_insert_elim he with rfl | he'
      · show gridOk (.container C') = true
        cases C' with
        | tabs t => rfl
        | linear l => rfl
        | grid g' =>
          obtain ⟨loc, hins, hg'⟩ := hgrid g' rfl
          subst hg'
          rfl
      · rcases Smap.mem_insert_elim he' with rfl | he''
        · exact gridOk_of_find? hinv hfind
        · exact hinv e ((Smap.erase_sublist par s).mem he'')

end TileTree

namespace TileTree

open Tiles

/-- `GridInv` is preserved by any sequence of `Tiles::insert` calls. -/
theorem insertMany_GridInv (ops : List (InsertionPoint × Nat)) :
    ∀ (s : Arena) (n : Nat), GridInv s → GridInv (insertMany s n ops).1 := by
  induction ops with
  | nil => intro s n hinv; exact hinv
  | cons op rest ih =>
    intro s n hinv
    exact ih (Tiles.insert s n op.1 op.2).1 (Tiles.insert s n op.1 op.2).2
      (insert_GridInv s n op.1 op.2 hinv)

/-- Claim C2: grid insertion never assigns two children to the same location.
First, the arena-wide uniqueness invariant `GridInv` (no Grid container maps
two children to one location) is preserved by every sequence of
`Tiles::insert` calls.  Second, inserting `c` at location `loc` of a Grid
parent evicts any prior occupant of `loc` from `locations` only: the new
child maps to `loc`, every other child's mapping survives exactly when it is
not at `loc`, and the children list keeps everyone, `c` appended.  Third, the
concrete scenario: a Grid with A=10 at (0,0) and B=11 at (0,1); inserting
C=12 at (0,0) yields locations {B ↦ (0,1), C ↦ (0,0)}; A stays in `children`
but has no location; children = [A, B, C]. -/
theorem C2_grid_location_uniqueness :
    (∀ (s : Arena) (n : Nat) (ops : List (InsertionPoint × Nat)),
      GridInv s → GridInv (insertMany s n ops).1) ∧
    (∀ (s : Arena) (n par c : Nat) (loc : Nat × Nat) (g : Grid),
      GridInv s → Smap.find? s par = some (.container (.grid g)) →
      ∃ g' : Grid,
        Smap.find? (Tiles.insert s n ⟨par, .grid loc⟩ c).1 par
          = some (.container (.grid g')) ∧
        g'.children = g.children ++ [c] ∧
        Smap.find? g'.locations c = some loc ∧
        (∀ k l, k ≠ c →
          (Smap.find? g'.locations k = some l ↔
            Smap.find? g.locations k = some l ∧ l ≠ loc))) ∧
    ((Tiles.insert
        [(1, .container (.grid ⟨[10, 11], [(10, (0, 0)), (11, (0, 1))]⟩)),
         (10, .pane 0), (11, .pane 1), (12, .pane 2)] 20
        ⟨1, .grid (0, 0)⟩ 12).1
      = [(1, .container (.grid ⟨[10, 11, 12], [(11, (0, 1)), (12, (0, 0))]⟩)),
         (10, .pane 0), (11, .pane 1), (12, .pane 2)] ∧
      (10 : Nat) ∈ Container.children
        (.grid ⟨[10, 11, 12], [(11, (0, 1)), (12, (0, 0))]⟩) ∧
      Smap.find? ([(11, (0, 1)), (12, (0, 0))] : Smap (Nat × Nat)) 10 = none) := by
  refine ⟨fun s n ops hinv => insertMany_GridInv ops s n hinv, ?_, by decide⟩
  intro s n par c loc g hinv hfind
  have hok := gridOk_of_find? hinv hfind
  simp only [gridOk, Bool.and_eq_true, decide_eq_true_iff] at hok
  have key : Tiles.insert s n ⟨par, .grid loc⟩ c
      = (Smap.insert par (.container (.grid ⟨g.children ++ [c],
          Smap.insert c loc
            (g.locations.filter (fun e => decide (e.2 ≠ loc)))⟩))
          (Smap.erase par s), n) := by
    unfold Tiles.insert
    rw [hfind]
  refine ⟨⟨g.children ++ [c],
    Smap.insert c loc (g.locations.filter (fun e => decide (e.2 ≠ loc)))⟩,
    ?_, rfl, ?_, ?_⟩
  · rw [key]
    simp only
    rw [Smap.find?_insert, if_pos rfl]
  · rw [Smap.find?_insert, if_pos rfl]
  · intro k l hk
    rw [Smap.find?_insert, if_neg hk,
      Smap.find?_filter hok.1 (fun e => decide (e.2 ≠ loc)) k]
    cases hg : Smap.find? g.locations k with
    | none => simp
    | some a =>
      by_cases ha : a = loc
      · subst ha
        simp only [decide_eq_true_iff, ne_eq, Decidable.not_not]
        constructor
        · intro h
          simp at h
        · rintro ⟨h1, h2⟩
          cases h1
          exact absurd rfl h2
      · simp only [ne_eq, ha, not_false_eq_true, decide_True, if_true]
        constructor
        · intro h
          cases h
          exact ⟨rfl, ha⟩
        · rintro ⟨h1, _⟩
          exact h1

/-- Claim C2, witness: the invariant-preservation part applied to the
concrete scenario arena and one grid insertion. -/
theorem C2_grid_location_uniqueness_witness :
    GridInv (insertMany
      [(1, .container (.grid ⟨[10, 11], [(10, (0, 0)), (11, (0, 1))]⟩)),
       (10, .pane 0), (11, .pane 1), (12, .pane 2)] 20
      [(⟨1, .grid (0, 0)⟩, 12)]).1 :=
  C2_grid_location_uniqueness.1
    [(1, .container (.grid ⟨[10, 11], [(10, (0, 0)), (11, (0, 1))]⟩)),
     (10, .pane 0), (11, .pane 1), (12, .pane 2)] 20
    [(⟨1, .grid (0, 0)⟩, 12)] (by decide)

end TileTree

namespace TileTree

open Tiles

/-- Claim C7: for every `InsertionPoint` whose `parent_id` is a valid key
before the call, and every insertion kind against a parent of any kind, after
`insert` the `parent_id` is still a valid key, and the tile it mapped to
before is still present: either still at `parent_id` (the same container,
its child list a supersequence of the old one, now also holding the new
child), or unchanged under the fresh id `n`, which the new wrapper container
at `parent_id` references alongside the new child. -/
theorem C7_insert_preserves_parent_identity (s : Arena) (n : Nat)
    (pt : InsertionPoint) (c : Nat) (T : Tile) (hwf : WF s n)
    (hfind : Smap.find? s pt.parent_id = some T) :
    (∃ T', Smap.find? (Tiles.insert s n pt c).1 pt.parent_id = some T') ∧
    ((∃ C C', T = .container C ∧
        Smap.find? (Tiles.insert s n pt c).1 pt.parent_id
          = some (.container C') ∧
        C.children.Sublist C'.children ∧ c ∈ C'.children) ∨
      (Smap.find? (Tiles.insert s n pt c).1 n = some T ∧
        Smap.find? s n = none ∧
        ∃ C', Smap.find? (Tiles.insert s n pt c).1 pt.parent_id
          = some (.container C') ∧ n ∈ C'.children ∧ c ∈ C'.children)) := by
  obtain ⟨par, ins⟩ := pt
  have hparn : par < n := hwf.2 par (Smap.mem_keys_of_find? hfind)
  have hnone : Smap.find? s n = none :=
    Smap.find?_eq_none_of_not_mem_keys (fun hmem => lt_irrefl n (hwf.2 n hmem))
  rcases insert_shape s n par ins c T hfind with
    ⟨C, C', hTC, heq, hsub, hc, _⟩ | ⟨C', heq, hn, hc, _⟩
  · have hpar : Smap.find? (Tiles.insert s n ⟨par, ins⟩ c).1 par
        = some (.container C') := by
      rw [heq]
      simp only
      rw [Smap.find?_insert, if_pos rfl]
    exact ⟨⟨_, hpar⟩, Or.inl ⟨C, C', hTC, hpar, hsub, hc⟩⟩
  · have hpar : Smap.find? (Tiles.insert s n ⟨par, ins⟩ c).1 par
        = some (.container C') := by
      rw [heq]
      simp only
      rw [Smap.find?_insert, if_pos rfl]
    have hatn : Smap.find? (Tiles.insert s n ⟨par, ins⟩ c).1 n = some T := by
      rw [heq]
      simp only
      rw [Smap.find?_insert, if_neg (by omega : n ≠ par),
        Smap.find?_insert, if_pos rfl]
    exact ⟨⟨_, hpar⟩, Or.inr ⟨hatn, hnone, C', hpar, hn, hc⟩⟩

/-- Claim C7, witness: inserting child `5` with a Tabs insertion under the
pane at id `1` keeps id `1` valid (now the wrapper) and keeps the old pane,
at the fresh id `2`. -/
theorem C7_insert_preserves_parent_identity_witness :
    (∃ T', Smap.find? (Tiles.insert [(1, .pane 0)] 2 ⟨1, .tabs 0⟩ 5).1 1
      = some T') ∧
    ((∃ C C', (Tile.pane 0) = .container C ∧
        Smap.find? (Tiles.insert [(1, .pane 0)] 2 ⟨1, .tabs 0⟩ 5).1 1
          = some (.container C') ∧
        C.children.Sublist C'.children ∧ 5 ∈ C'.children) ∨
      (Smap.find? (Tiles.insert [(1, .pane 0)] 2 ⟨1, .tabs 0⟩ 5).1 2
          = some (.pane 0) ∧
        Smap.find? ([(1, .pane 0)] : Arena) 2 = none ∧
        ∃ C', Smap.find? (Tiles.insert [(1, .pane 0)] 2 ⟨1, .tabs 0⟩ 5).1 1
          = some (.container C') ∧ 2 ∈ C'.children ∧ 5 ∈ C'.children)) :=
  C7_insert_preserves_parent_identity [(1, .pane 0)] 2 ⟨1, .tabs 0⟩ 5 (.pane 0)
    (by decide) rfl

end TileTree

namespace TileTree

open Tiles


end TileTree

namespace TileTree

open Tiles

/-! ## Fuel machinery

Every recursive arena walk removes the visited tile before recursing, so each
nested call sees a strictly smaller arena (none of `gc`, `simplify`, `layout`
or the ui walk ever adds an entry).  The walks are therefore independent of
the fuel once it exceeds the arena size; `size s + 1` is the canonical
sufficient fuel. -/

end TileTree

namespace TileTree

open Tiles

/-- The gc child walk never grows the arena, given that the visit function
does not. -/
theorem gcChildren_size_le
    (g : List Nat → Arena → Nat → Arena × List Nat × GcAction)
    (hg : ∀ v s c, Smap.size (g v s c).1 ≤ Smap.size s) :
    ∀ (cs : List Nat) (v : List Nat) (s : Arena),
      Smap.size (gcChildren g v s cs).1 ≤ Smap.size s := by
  intro cs
  induction cs with
  | nil => intro v s; exact le_refl _
  | cons c cs ih =>
    intro v s
    simp only [gcChildren]
    have h1 := hg v s c
    have h2 := ih (g v s c).2.1 (g v s c).1
    exact le_trans h2 h1

/-- `gc_tile_id` never grows the arena. -/
theorem gcF_size_le (retain : Nat → Bool) :
    ∀ (f : Nat) (v : List Nat) (s : Arena) (id : Nat),
      Smap.size (gcF retain f v s id).1 ≤ Smap.size s := by
  intro f
  induction f with
  | zero => intro v s id; exact le_refl _
  | succ f ih =>
    intro v s id
    unfold gcF
    cases hf : Smap.find? s id with
    | none => exact le_refl _
    | some tile =>
      have hsz : Smap.size (Smap.erase id s) + 1 = Smap.size s :=
        Smap.size_erase_of_find? hf
      by_cases hv : id ∈ v
      · simp only [if_pos hv]
        omega
      · simp only [if_neg hv]
        cases tile with
        | pane p =>
          show Smap.size ((if retain p = true
              then (Smap.insert id (Tile.pane p) (Smap.erase id s),
                id :: v, GcAction.keep)
              else (Smap.erase id s, id :: v, GcAction.remove)).1)
            ≤ Smap.size s
          split
          · show Smap.size (Smap.insert id (Tile.pane p) (Smap.erase id s))
              ≤ Smap.size s
            have := Smap.size_insert_le id (Tile.pane p) (Smap.erase id s)
            omega
          · show Smap.size (Smap.erase id s) ≤ Smap.size s
            omega
        | container c =>
          show Smap.size (Smap.insert id
            (Tile.container (c.withChildren
              (gcChildren (gcF retain f) (id :: v) (Smap.erase id s)
                c.children).2.2))
            (gcChildren (gcF retain f) (id :: v) (Smap.erase id s)
              c.children).1) ≤ Smap.size s
          have h1 := gcChildren_size_le (gcF retain f) (fun v s c => ih v s c)
            c.children (id :: v) (Smap.erase id s)
          have h2 := Smap.size_insert_le id
            (Tile.container (c.withChildren
              (gcChildren (gcF retain f) (id :: v) (Smap.erase id s)
                c.children).2.2))
            (gcChildren (gcF retain f) (id :: v) (Smap.erase id s)
              c.children).1
          omega

/-- The gc child walk only depends on the visit function's behavior below a
size bound that the states maintain. -/
theorem gcChildren_congr
    (g1 g2 : List Nat → Arena → Nat → Arena × List Nat × GcAction) (B : Nat)
    (hsz : ∀ v s c, Smap.size (g1 v s c).1 ≤ Smap.size s)
    (hcong : ∀ v s c, Smap.size s ≤ B → g1 v s c = g2 v s c) :
    ∀ (cs : List Nat) (v : List Nat) (s : Arena), Smap.size s ≤ B →
      gcChildren g1 v s cs = gcChildren g2 v s cs := by
  intro cs
  induction cs with
  | nil => intro v s _; rfl
  | cons c cs ih =>
    intro v s hB
    simp only [gcChildren]
    rw [← hcong v s c hB]
    rw [ih (g1 v s c).2.1 (g1 v s c).1 (le_trans (hsz v s c) hB)]

/-- `gc_tile_id` is independent of the fuel once it exceeds the arena
size. -/
theorem gcF_fuel_irrelevant (retain : Nat → Bool) :
    ∀ (f g : Nat) (v : List Nat) (s : Arena) (id : Nat),
      Smap.size s < f → Smap.size s < g →
      gcF retain f v s id = gcF retain g v s id := by
  intro f
  induction f using Nat.strong_induction_on with
  | _ f ihf =>
    intro g v s id hf hg
    match f, hf with
    | f + 1, hf =>
      match g, hg with
      | g + 1, hg =>
        unfold gcF
        cases hfind : Smap.find? s id with
        | none => rfl
        | some tile =>
          by_cases hv : id ∈ v
          · simp only [if_pos hv]
          · simp only [if_neg hv]
            cases tile with
            | pane p => rfl
            | container c =>
              have hsz : Smap.size (Smap.erase id s) + 1 = Smap.size s :=
                Smap.size_erase_of_find? hfind
              have hcong := gcChildren_congr (gcF retain f) (gcF retain g)
                (Smap.size s - 1) (fun v s c => gcF_size_le retain f v s c)
                (fun v' s' c' hB => ihf f (Nat.lt_succ_self f) g v' s' c'
                  (by omega) (by omega))
                c.children (id :: v) (Smap.erase id s) (by omega)
              show (Smap.insert id (Tile.container (c.withChildren
                  (gcChildren (gcF retain f) (id :: v) (Smap.erase id s)
                    c.children).2.2))
                  (gcChildren (gcF retain f) (id :: v) (Smap.erase id s)
                    c.children).1,
                  (gcChildren (gcF retain f) (id :: v) (Smap.erase id s)
                    c.children).2.1, GcAction.keep)
                = (Smap.insert id (Tile.container (c.withChildren
                  (gcChildren (gcF retain g) (id :: v) (Smap.erase id s)
                    c.children).2.2))
                  (gcChildren (gcF retain g) (id :: v) (Smap.erase id s)
                    c.children).1,
                  (gcChildren (gcF retain g) (id :: v) (Smap.erase id s)
                    c.children).2.1, GcAction.keep)
              rw [hcong]

/-- The simplify child walk never grows the arena, given that the visit
function does not. -/
theorem simpChildren_size_le
    (g : Arena → Nat → Arena × SimplifyAction)
    (hg : ∀ s c, Smap.size (g s c).1 ≤ Smap.size s) :
    ∀ (cs : List Nat) (s : Arena),
      Smap.size (simpChildren g s cs).1 ≤ Smap.size s := by
  intro cs
  induction cs with
  | nil => intro s; exact le_refl _
  | cons c cs ih =>
    intro s
    simp only [simpChildren]
    cases hgc : g s c with
    | mk s1 a =>
      have h1 : Smap.size s1 ≤ Smap.size s := by
        have := hg s c
        rw [hgc] at this
        exact this
      cases a with
      | keep => exact le_trans (ih s1) h1
      | remove => exact le_trans (ih s1) h1
      | replace r => exact le_trans (ih s1) h1

/-- The simplify policy either returns the arena unchanged or reinserts the
container at `it`. -/
theorem simplifyPolicy_fst (o : SimplificationOptions) (it : Nat)
    (c1 : Container) (s1 : Arena) :
    (simplifyPolicy o it c1 s1).1 = s1 ∨
    (simplifyPolicy o it c1 s1).1 = Smap.insert it (.container c1) s1 := by
  unfold simplifyPolicy
  split
  · split
    · exact Or.inl rfl
    · split
      · split
        · exact Or.inr rfl
        · exact Or.inl rfl
      · exact Or.inr rfl
  · split
    · exact Or.inl rfl
    · split
      · exact Or.inl rfl
      · exact Or.inr rfl

/-- `simplify` never grows the arena. -/
theorem simplifyF_size_le (o : SimplificationOptions) :
    ∀ (f : Nat) (s : Arena) (it : Nat),
      Smap.size (simplifyF o f s it).1 ≤ Smap.size s := by
  intro f
  induction f with
  | zero => intro s it; exact le_refl _
  | succ f ih =>
    intro s it
    unfold simplifyF
    cases hf : Smap.find? s it with
    | none => exact le_refl _
    | some tile =>
      have hsz : Smap.size (Smap.erase it s) + 1 = Smap.size s :=
        Smap.size_erase_of_find? hf
      cases tile with
      | pane p =>
        simp only
        have := Smap.size_insert_le it (Tile.pane p) (Smap.erase it s)
        omega
      | container c =>
        have h1 := simpChildren_size_le (simplifyF o f) (fun s c => ih s c)
          c.children (Smap.erase it s)
        show Smap.size (simplifyPolicy o it
          (c.withChildren (simpChildren (simplifyF o f) (Smap.erase it s)
            c.children).2)
          (simpChildren (simplifyF o f) (Smap.erase it s) c.children).1).1
          ≤ Smap.size s
        rcases simplifyPolicy_fst o it
            (c.withChildren (simpChildren (simplifyF o f) (Smap.erase it s)
              c.children).2)
            (simpChildren (simplifyF o f) (Smap.erase it s) c.children).1
          with h | h <;> rw [h]
        · omega
        · have h2 := Smap.size_insert_le it
            (Tile.container (c.withChildren
              (simpChildren (simplifyF o f) (Smap.erase it s) c.children).2))
            (simpChildren (simplifyF o f) (Smap.erase it s) c.children).1
          omega

/-- The simplify child walk only depends on the visit function's behavior
below a maintained size bound. -/
theorem simpChildren_congr
    (g1 g2 : Arena → Nat → Arena × SimplifyAction) (B : Nat)
    (hsz : ∀ s c, Smap.size (g1 s c).1 ≤ Smap.size s)
    (hcong : ∀ s c, Smap.size s ≤ B → g1 s c = g2 s c) :
    ∀ (cs : List Nat) (s : Arena), Smap.size s ≤ B →
      simpChildren g1 s cs = simpChildren g2 s cs := by
  intro cs
  induction cs with
  | nil => intro s _; rfl
  | cons c cs ih =>
    intro s hB
    simp only [simpChildren]
    rw [← hcong s c hB]
    have h1 : Smap.size (g1 s c).1 ≤ B := le_trans (hsz s c) hB
    cases hgc : g1 s c with
    | mk s1 a =>
      have h1' : Smap.size s1 ≤ B := by
        rw [hgc] at h1
        exact h1
      cases a with
      | keep => simp only [ih s1 h1']
      | remove => simp only [ih s1 h1']
      | replace r => simp only [ih s1 h1']

/-- `simplify` is independent of the fuel once it exceeds the arena size. -/
theorem simplifyF_fuel_irrelevant (o : SimplificationOptions) :
    ∀ (f g : Nat) (s : Arena) (it : Nat),
      Smap.size s < f → Smap.size s < g →
      simplifyF o f s it = simplifyF o g s it := by
  intro f
  induction f using Nat.strong_induction_on with
  | _ f ihf =>
    intro g s it hf hg
    match f, hf with
    | f + 1, hf =>
      match g, hg with
      | g + 1, hg =>
        unfold simplifyF
        cases hfind : Smap.find? s it with
        | none => rfl
        | some tile =>
          cases tile with
          | pane p => rfl
          | container c =>
            have hsz : Smap.size (Smap.erase it s) + 1 = Smap.size s :=
              Smap.size_erase_of_find? hfind
            have hcong := simpChildren_congr (simplifyF o f) (simplifyF o g)
              (Smap.size s - 1) (fun s c => simplifyF_size_le o f s c)
              (fun s' c' hB => ihf f (Nat.lt_succ_self f) g s' c'
                (by omega) (by omega))
              c.children (Smap.erase it s) (by omega)
            show simplifyPolicy o it
                (c.withChildren (simpChildren (simplifyF o f)
                  (Smap.erase it s) c.children).2)
                (simpChildren (simplifyF o f) (Smap.erase it s) c.children).1
              = simplifyPolicy o it
                (c.withChildren (simpChildren (simplifyF o g)
                  (Smap.erase it s) c.children).2)
                (simpChildren (simplifyF o g) (Smap.erase it s) c.children).1
            rw [hcong]

end TileTree

namespace TileTree

namespace Smap

variable {α : Type}

/-- Counting through `erase`: the first binding of the key is removed. -/
theorem countP_erase (p : Nat × α → Bool) {s : Smap α} {k : Nat} {a : α}
    (h : find? s k = some a) :
    (erase k s).countP p + (if p (k, a) = true then 1 else 0)
      = s.countP p := by
  induction s with
  | nil => simp [find?] at h
  | cons e t ih =>
    obtain ⟨k', b⟩ := e
    by_cases hk : k = k'
    · subst hk
      rw [find?_cons, if_pos rfl] at h
      cases h
      simp only [erase, if_pos rfl, List.countP_cons]
      by_cases hp : p (k, a) = true <;> simp [hp]
    · rw [find?_cons, if_neg hk] at h
      simp only [erase, if_neg hk, List.countP_cons]
      have := ih h
      omega

/-- Counting through `insert` at a key that is absent. -/
theorem countP_insert_new (p : Nat × α → Bool) {s : Smap α} {k : Nat}
    (h : find? s k = none) (a : α) :
    (insert k a s).countP p
      = s.countP p + (if p (k, a) = true then 1 else 0) := by
  induction s with
  | nil => simp [insert, List.countP_cons]
  | cons e t ih =>
    obtain ⟨k', b⟩ := e
    by_cases hk : k = k'
    · rw [find?_cons, if_pos hk] at h
      cases h
    · rw [find?_cons, if_neg hk] at h
      by_cases g1 : k < k'
      · rw [insert_cons, if_pos g1]
        simp only [List.countP_cons]
        try omega
      · rw [insert_cons, if_neg g1, if_neg hk]
        simp only [List.countP_cons]
        have := ih h
        omega

/-- `insert` at an absent key grows the map by exactly one binding. -/
theorem size_insert_new {s : Smap α} {k : Nat} (h : find? s k = none)
    (a : α) : size (insert k a s) = size s + 1 := by
  induction s with
  | nil => simp [insert, size]
  | cons e t ih =>
    obtain ⟨k', b⟩ := e
    by_cases hk : k = k'
    · rw [find?_cons, if_pos hk] at h
      cases h
    · rw [find?_cons, if_neg hk] at h
      by_cases g1 : k < k'
      · rw [insert_cons, if_pos g1]
        simp [size]
      · rw [insert_cons, if_neg g1, if_neg hk]
        simp only [size, List.length_cons]
        have := ih h
        simp only [size] at this
        omega

end Smap

end TileTree

namespace TileTree

open Tiles

/-- Pane test used by the tab-normalization potential. -/
def isPaneB : Tile → Bool
  | .pane _ => true
  | .container _ => false

/-- The potential of an arena for the tab-normalization walk, relative to the
id bound `N0` that all original references respect: the size plus the number
of pane entries at ids below `N0`.  A wrap grows the arena by one entry but
consumes one wrappable (below-`N0`) pane, so the potential never grows, and
it bounds the recursion. -/
def phi (N0 : Nat) (s : Arena) : Nat :=
  Smap.size s + s.countP (fun e => decide (e.1 < N0) && isPaneB e.2)

/-- Non-Tabs containers reference only ids below `N0` (true of an arena
whose ids all came from the allocator; the Tabs wrappers added by the walk
reference fresh ids, but a Tabs parent never triggers a wrap). -/
def NonTabsRefsBelow (T : Tile) (N0 : Nat) : Prop :=
  match T with
  | .pane _ => True
  | .container c => c.layout ≠ Layout.tabs → ∀ k ∈ c.children, k < N0

/-- An in-order child walk preserves an invariant and is pointwise determined
by the step function on invariant states. -/
theorem walkChildren_pres_congr {σ : Type} (g1 g2 : Nat → σ → σ)
    (P : σ → Prop) :
    ∀ (cs : List Nat),
      (∀ c ∈ cs, ∀ st, P st → P (g1 c st)) →
      (∀ c ∈ cs, ∀ st, P st → g1 c st = g2 c st) →
      ∀ st, P st →
        P (walkChildren g1 cs st) ∧
        walkChildren g1 cs st = walkChildren g2 cs st := by
  intro cs
  induction cs with
  | nil => intro _ _ st hst; exact ⟨hst, rfl⟩
  | cons c cs ih =>
    intro hpres hcong st hst
    simp only [walkChildren]
    have h1 := hpres c (List.mem_cons_self _ _) st hst
    obtain ⟨hP, heq⟩ :=
      ih (fun c' hc' => hpres c' (List.mem_cons_of_mem _ hc'))
        (fun c' hc' => hcong c' (List.mem_cons_of_mem _ hc')) (g1 c st) h1
    exact ⟨hP, by rw [heq, hcong c (List.mem_cons_self _ _) st hst]⟩

/-- Master invariant lemma for `make_all_panes_children_of_tabs`: the walk
preserves sortedness, the counter bound, the reference discipline and the
potential, produces only old or fresh keys, and its result is independent of
the fuel once the fuel exceeds the potential. -/
theorem makeAll_master (N0 : Nat) :
    ∀ (f : Nat) (flag : Bool) (it : Nat) (s : Arena) (n : Nat),
      Smap.Sorted s →
      (∀ k ∈ Smap.keys s, k < n) →
      N0 ≤ n →
      (∀ e ∈ s, NonTabsRefsBelow e.2 N0) →
      (flag = false → it < N0) →
      phi N0 s < f →
      Smap.Sorted (makeAllF f flag it (s, n)).1 ∧
      (∀ k ∈ Smap.keys (makeAllF f flag it (s, n)).1,
        k < (makeAllF f flag it (s, n)).2) ∧
      n ≤ (makeAllF f flag it (s, n)).2 ∧
      (∀ e ∈ (makeAllF f flag it (s, n)).1, NonTabsRefsBelow e.2 N0) ∧
      phi N0 (makeAllF f flag it (s, n)).1 ≤ phi N0 s ∧
      (∀ k ∈ Smap.keys (makeAllF f flag it (s, n)).1,
        k ∈ Smap.keys s ∨ n ≤ k) ∧
      (∀ g, phi N0 s < g →
        makeAllF g flag it (s, n) = makeAllF f flag it (s, n)) := by
  intro f
  induction f using Nat.strong_induction_on with
  | _ f ihf =>
    intro flag it s n hS hK hN hT hIT hf
    match f, hf with
    | f + 1, hf =>
      cases hfind : Smap.find? s it with
      | none =>
        have hres : makeAllF (f + 1) flag it (s, n) = (s, n) := by
          unfold makeAllF
          rw [hfind]
        rw [hres]
        refine ⟨hS, hK, le_refl _, hT, le_refl _, fun k hk => Or.inl hk, ?_⟩
        intro g hg
        match g, hg with
        | g + 1, hg =>
          unfold makeAllF
          rw [hfind]
      | some tile =>
        have hsz : Smap.size (Smap.erase it s) + 1 = Smap.size s :=
          Smap.size_erase_of_find? hfind
        cases tile with
        | pane p =>
          cases flag with
          | false =>
            have hitN : it < N0 := hIT rfl
            have hitn : it < n := hK it (Smap.mem_keys_of_find? hfind)
            have hmarket : Smap.find? (Smap.erase it s) n = none := by
              rw [Smap.find?_erase_ne it s n (by omega)]
              exact Smap.find?_eq_none_of_not_mem_keys
                (fun hm => lt_irrefl n (hK n hm))
            have hitgone : Smap.find?
                (Smap.insert n (Tile.pane p) (Smap.erase it s)) it = none := by
              rw [Smap.find?_insert, if_neg (by omega : ¬ it = n)]
              exact Smap.find?_erase_self hS
            have hres : makeAllF (f + 1) false it (s, n)
                = (Smap.insert it
                    (.container (Container.new_tabs [n]))
                    (Smap.insert n (Tile.pane p) (Smap.erase it s)), n + 1) := by
              unfold makeAllF
              rw [hfind]
              rfl
            rw [hres]
            have hcount : (Smap.erase it s).countP
                  (fun e => decide (e.1 < N0) && isPaneB e.2) + 1
                = s.countP (fun e => decide (e.1 < N0) && isPaneB e.2) := by
              have hc := Smap.countP_erase
                (fun e => decide (e.1 < N0) && isPaneB e.2) hfind
              rw [if_pos (show ((fun e => decide (e.1 < N0) && isPaneB e.2)
                  (it, Tile.pane p)) = true from by simp [isPaneB, hitN])] at hc
              omega
            have hphi : phi N0 (Smap.insert it
                (.container (Container.new_tabs [n]))
                (Smap.insert n (Tile.pane p) (Smap.erase it s))) = phi N0 s := by
              unfold phi
              rw [Smap.countP_insert_new _ hitgone,
                Smap.countP_insert_new _ hmarket,
                Smap.size_insert_new hitgone, Smap.size_insert_new hmarket]
              rw [if_neg (show ¬ ((fun e => decide (e.1 < N0) && isPaneB e.2)
                  (it, Tile.container (Container.new_tabs [n]))) = true from by
                simp [isPaneB])]
              rw [if_neg (show ¬ ((fun e => decide (e.1 < N0) && isPaneB e.2)
                  (n, Tile.pane p)) = true from by
                simp only [isPaneB, Bool.and_true, decide_eq_true_iff]
                omega)]
              omega
            refine ⟨((hS.erase).insert).insert, ?_, Nat.le_succ n, ?_,
              le_of_eq hphi, ?_, ?_⟩
            · show ∀ k ∈ Smap.keys (Smap.insert it
                (.container (Container.new_tabs [n]))
                (Smap.insert n (Tile.pane p) (Smap.erase it s))), k < n + 1
              intro k hk
              rcases Smap.mem_keys_insert hk with rfl | hk'
              · omega
              · rcases Smap.mem_keys_insert hk' with rfl | hk''
                · omega
                · have := hK k ((Smap.keys_erase_sublist it s).mem hk'')
                  omega
            · show ∀ e ∈ Smap.insert it
                (.container (Container.new_tabs [n]))
                (Smap.insert n (Tile.pane p) (Smap.erase it s)),
                NonTabsRefsBelow e.2 N0
              intro e he
              rcases Smap.mem_insert_elim he with rfl | he'
              · intro hnt
                exact absurd rfl hnt
              · rcases Smap.mem_insert_elim he' with rfl | he''
                · trivial
                · exact hT e ((Smap.erase_sublist it s).mem he'')
            · show ∀ k ∈ Smap.keys (Smap.insert it
                (.container (Container.new_tabs [n]))
                (Smap.insert n (Tile.pane p) (Smap.erase it s))),
                k ∈ Smap.keys s ∨ n ≤ k
              intro k hk
              rcases Smap.mem_keys_insert hk with rfl | hk'
              · exact Or.inl (Smap.mem_keys_of_find? hfind)
              · rcases Smap.mem_keys_insert hk' with rfl | hk''
                · exact Or.inr (le_refl _)
                · exact Or.inl ((Smap.keys_erase_sublist it s).mem hk'')
            · intro g hg
              match g, hg with
              | g + 1, hg =>
                unfold makeAllF
                rw [hfind]
                rfl
          | true =>
            have hres : makeAllF (f + 1) true it (s, n)
                = (Smap.insert it (Tile.pane p) (Smap.erase it s), n) := by
              unfold makeAllF
              rw [hfind]
              rfl
            rw [hres, Smap.insert_erase_self hS hfind]
            refine ⟨hS, hK, le_refl _, hT, le_refl _,
              fun k hk => Or.inl hk, ?_⟩
            intro g hg
            match g, hg with
            | g + 1, hg =>
              unfold makeAllF
              rw [hfind]
              show (Smap.insert it (Tile.pane p) (Smap.erase it s), n) = (s, n)
              rw [Smap.insert_erase_self hS hfind]
        | container c =>
          have hcount : (Smap.erase it s).countP
                (fun e => decide (e.1 < N0) && isPaneB e.2)
              = s.countP (fun e => decide (e.1 < N0) && isPaneB e.2) := by
            have hc := Smap.countP_erase
              (fun e => decide (e.1 < N0) && isPaneB e.2) hfind
            rw [if_neg (show ¬ ((fun e => decide (e.1 < N0) && isPaneB e.2)
                (it, Tile.container c)) = true from by simp [isPaneB])] at hc
            omega
          have hphi0 : phi N0 (Smap.erase it s) + 1 = phi N0 s := by
            unfold phi
            omega
          have hitn : it < n := hK it (Smap.mem_keys_of_find? hfind)
          -- the fold invariant
          set P : Arena × Nat → Prop := fun st =>
            Smap.Sorted st.1 ∧ (∀ k ∈ Smap.keys st.1, k < st.2) ∧
            n ≤ st.2 ∧ (∀ e ∈ st.1, NonTabsRefsBelow e.2 N0) ∧
            phi N0 st.1 ≤ phi N0 s - 1 ∧
            (∀ k ∈ Smap.keys st.1,
              k ∈ Smap.keys (Smap.erase it s) ∨ n ≤ k) with hP
          have hflagchild : ∀ c' ∈ c.children,
              (decide (c.layout = Layout.tabs) = false → c' < N0) := by
            intro c' hc' hlay
            have := hT (it, .container c) (Smap.find?_mem hfind)
            simp only [NonTabsRefsBelow] at this
            exact this (by simpa using hlay) c' hc'
          have hpres : ∀ c' ∈ c.children, ∀ st, P st →
              P (makeAllF f (decide (c.layout = Layout.tabs)) c' st) := by
            intro c' hc' st hst
            obtain ⟨s1, n1⟩ := st
            obtain ⟨h1, h2, h3, h4, h5, h6⟩ := hst
            replace h3 : n ≤ n1 := h3
            replace h5 : phi N0 s1 ≤ phi N0 s - 1 := h5
            obtain ⟨g1, g2, g3, g4, g5, g6, _⟩ :=
              ihf f (Nat.lt_succ_self f) (decide (c.layout = Layout.tabs)) c'
                s1 n1 h1 h2 (le_trans hN h3) h4 (hflagchild c' hc')
                (by omega)
            refine ⟨g1, g2, le_trans h3 g3, g4, by omega, ?_⟩
            intro k hk
            rcases g6 k hk with hk' | hk'
            · exact h6 k hk'
            · exact Or.inr (le_trans h3 hk')
          have hcongr : ∀ (g : Nat), phi N0 s < g + 1 →
              ∀ c' ∈ c.children, ∀ st, P st →
              makeAllF f (decide (c.layout = Layout.tabs)) c' st
                = makeAllF g (decide (c.layout = Layout.tabs)) c' st := by
            intro g hg c' hc' st hst
            obtain ⟨s1, n1⟩ := st
            obtain ⟨h1, h2, h3, h4, h5, h6⟩ := hst
            replace h3 : n ≤ n1 := h3
            replace h5 : phi N0 s1 ≤ phi N0 s - 1 := h5
            obtain ⟨_, _, _, _, _, _, h7⟩ :=
              ihf f (Nat.lt_succ_self f) (decide (c.layout = Layout.tabs)) c'
                s1 n1 h1 h2 (le_trans hN h3) h4 (hflagchild c' hc')
                (by omega)
            exact (h7 g (by omega)).symm
          have hP0 : P (Smap.erase it s, n) := by
            refine ⟨hS.erase, ?_, le_refl _, ?_,
              (show phi N0 (Smap.erase it s) ≤ phi N0 s - 1 by omega), ?_⟩
            · intro k hk
              exact hK k ((Smap.keys_erase_sublist it s).mem hk)
            · intro e he
              exact hT e ((Smap.erase_sublist it s).mem he)
            · intro k hk
              exact Or.inl hk
          obtain ⟨hPfin, _⟩ := walkChildren_pres_congr
            (fun child st => makeAllF f (decide (c.layout = Layout.tabs))
              child st)
            (fun child st => makeAllF f (decide (c.layout = Layout.tabs))
              child st)
            P c.children hpres (fun _ _ _ _ => rfl) (Smap.erase it s, n) hP0
          set st := walkChildren
            (fun child st => makeAllF f (decide (c.layout = Layout.tabs))
              child st) c.children (Smap.erase it s, n) with hstdef
          obtain ⟨q1, q2, q3, q4, q5, q6⟩ := hPfin
          have hitout : Smap.find? st.1 it = none := by
            refine Smap.find?_eq_none_of_not_mem_keys ?_
            intro hm
            rcases q6 it hm with hm' | hm'
            · obtain ⟨a, ha⟩ := Smap.find?_isSome_of_mem_keys hm'
              rw [Smap.find?_erase_self hS] at ha
              cases ha
            · omega
          have hres : makeAllF (f + 1) flag it (s, n)
              = (Smap.insert it (Tile.container c) st.1, st.2) := by
            unfold makeAllF
            rw [hfind]
          rw [hres]
          refine ⟨q1.insert, ?_, q3, ?_, ?_, ?_, ?_⟩
          · intro k hk
            rcases Smap.mem_keys_insert hk with rfl | hk'
            · omega
            · exact q2 k hk'
          · intro e he
            rcases Smap.mem_insert_elim he with rfl | he'
            · exact hT (it, .container c) (Smap.find?_mem hfind)
            · exact q4 e he'
          · unfold phi
            rw [Smap.size_insert_new hitout,
              Smap.countP_insert_new _ hitout]
            rw [if_neg (show ¬ ((fun e => decide (e.1 < N0) && isPaneB e.2)
                (it, Tile.container c)) = true from by simp [isPaneB])]
            unfold phi at q5 hphi0
            omega
          · intro k hk
            rcases Smap.mem_keys_insert hk with rfl | hk'
            · exact Or.inl (Smap.mem_keys_of_find? hfind)
            · rcases q6 k hk' with hk'' | hk''
              · exact Or.inl ((Smap.keys_erase_sublist it s).mem hk'')
              · exact Or.inr hk''
          · intro g hg
            match g, hg with
            | g + 1, hg =>
              obtain ⟨_, heq⟩ := walkChildren_pres_congr
                (fun child st => makeAllF f (decide (c.layout = Layout.tabs))
                  child st)
                (fun child st => makeAllF g (decide (c.layout = Layout.tabs))
                  child st)
                P c.children hpres
                (fun c' hc' st hst => hcongr g hg c' hc' st hst)
                (Smap.erase it s, n) hP0
              unfold makeAllF
              rw [hfind]
              show (Smap.insert it (Tile.container c)
                  (walkChildren (fun child st => makeAllF g
                    (decide (c.layout = Layout.tabs)) child st)
                    c.children (Smap.erase it s, n)).1,
                  (walkChildren (fun child st => makeAllF g
                    (decide (c.layout = Layout.tabs)) child st)
                    c.children (Smap.erase it s, n)).2)
                = (Smap.insert it (Tile.container c) st.1, st.2)
              rw [← heq]

end TileTree

namespace TileTree

open Tiles

/-- `layout_tile` never grows the tile arena. -/
theorem layoutF_size_le (childRect : Container → RectZ → Nat → RectZ) :
    ∀ (f : Nat) (r : RectZ) (id : Nat) (st : Arena × Smap RectZ),
      Smap.size (layoutF childRect f r id st).1 ≤ Smap.size st.1 := by
  intro f
  induction f with
  | zero => intro r id st; exact le_refl _
  | succ f ih =>
    intro r id st
    obtain ⟨s, rects⟩ := st
    unfold layoutF
    cases hfind : Smap.find? s id with
    | none => exact le_refl _
    | some tile =>
      have hsz : Smap.size (Smap.erase id s) + 1 = Smap.size s :=
        Smap.size_erase_of_find? hfind
      cases tile with
      | pane p =>
        show Smap.size (Smap.insert id (Tile.pane p) (Smap.erase id s))
          ≤ Smap.size s
        have := Smap.size_insert_le id (Tile.pane p) (Smap.erase id s)
        omega
      | container c =>
        show Smap.size (Smap.insert id (Tile.container c)
          (walkChildren (fun child st =>
            layoutF childRect f (childRect c r child) child st)
            c.children (Smap.erase id s, Smap.insert id r rects)).1)
          ≤ Smap.size s
        obtain ⟨hP, _⟩ := walkChildren_pres_congr
          (fun child st => layoutF childRect f (childRect c r child) child st)
          (fun child st => layoutF childRect f (childRect c r child) child st)
          (fun st => Smap.size st.1 ≤ Smap.size (Smap.erase id s))
          c.children
          (fun c' _ st hst => le_trans (ih (childRect c r c') c' st) hst)
          (fun _ _ _ _ => rfl)
          (Smap.erase id s, Smap.insert id r rects)
          (show Smap.size (Smap.erase id s) ≤ Smap.size (Smap.erase id s)
            from le_refl _)
        replace hP : Smap.size (walkChildren (fun child st =>
            layoutF childRect f (childRect c r child) child st)
            c.children (Smap.erase id s, Smap.insert id r rects)).1
            ≤ Smap.size (Smap.erase id s) := hP
        have h2 := Smap.size_insert_le id (Tile.container c)
          (walkChildren (fun child st =>
            layoutF childRect f (childRect c r child) child st)
            c.children (Smap.erase id s, Smap.insert id r rects)).1
        omega

/-- `layout_tile` is independent of the fuel once it exceeds the arena
size. -/
theorem layoutF_fuel_irrelevant (childRect : Container → RectZ → Nat → RectZ) :
    ∀ (f g : Nat) (r : RectZ) (id : Nat) (st : Arena × Smap RectZ),
      Smap.size st.1 < f → Smap.size st.1 < g →
      layoutF childRect f r id st = layoutF childRect g r id st := by
  intro f
  induction f using Nat.strong_induction_on with
  | _ f ihf =>
    intro g r id st hf hg
    obtain ⟨s, rects⟩ := st
    replace hf : Smap.size s < f := hf
    replace hg : Smap.size s < g := hg
    match f, hf with
    | f + 1, hf =>
      match g, hg with
      | g + 1, hg =>
        unfold layoutF
        cases hfind : Smap.find? s id with
        | none => rfl
        | some tile =>
          cases tile with
          | pane p => rfl
          | container c =>
            have hsz : Smap.size (Smap.erase id s) + 1 = Smap.size s :=
              Smap.size_erase_of_find? hfind
            obtain ⟨_, heq⟩ := walkChildren_pres_congr
              (fun child st => layoutF childRect f (childRect c r child)
                child st)
              (fun child st => layoutF childRect g (childRect c r child)
                child st)
              (fun st => Smap.size st.1 ≤ Smap.size s - 1)
              c.children
              (fun c' _ st hst =>
                le_trans (layoutF_size_le childRect f (childRect c r c') c' st)
                  hst)
              (fun c' _ st hst => ihf f (Nat.lt_succ_self f) g
                (childRect c r c') c' st (by omega) (by omega))
              (Smap.erase id s, Smap.insert id r rects)
              (show Smap.size (Smap.erase id s) ≤ Smap.size s - 1 by omega)
            show (Smap.insert id (Tile.container c)
                (walkChildren (fun child st =>
                  layoutF childRect f (childRect c r child) child st)
                  c.children (Smap.erase id s, Smap.insert id r rects)).1,
                (walkChildren (fun child st =>
                  layoutF childRect f (childRect c r child) child st)
                  c.children (Smap.erase id s, Smap.insert id r rects)).2)
              = (Smap.insert id (Tile.container c)
                (walkChildren (fun child st =>
                  layoutF childRect g (childRect c r child) child st)
                  c.children (Smap.erase id s, Smap.insert id r rects)).1,
                (walkChildren (fun child st =>
                  layoutF childRect g (childRect c r child) child st)
                  c.children (Smap.erase id s, Smap.insert id r rects)).2)
            rw [heq]

/-- The ui walk never grows the tile arena. -/
theorem tileUiF_size_le (rects : Smap RectZ) :
    ∀ (f : Nat) (s : Arena) (id : Nat),
      Smap.size (tileUiF rects f s id) ≤ Smap.size s := by
  intro f
  induction f with
  | zero => intro s id; exact le_refl _
  | succ f ih =>
    intro s id
    unfold tileUiF
    cases hr : try_rect rects id with
    | none => exact le_refl _
    | some r =>
      cases hfind : Smap.find? s id with
      | none => exact le_refl _
      | some tile =>
        have hsz : Smap.size (Smap.erase id s) + 1 = Smap.size s :=
          Smap.size_erase_of_find? hfind
        cases tile with
        | pane p =>
          show Smap.size (Smap.insert id (Tile.pane p) (Smap.erase id s))
            ≤ Smap.size s
          have := Smap.size_insert_le id (Tile.pane p) (Smap.erase id s)
          omega
        | container c =>
          show Smap.size (Smap.insert id (Tile.container c)
            (walkChildren (fun child s => tileUiF rects f s child)
              c.children (Smap.erase id s))) ≤ Smap.size s
          obtain ⟨hP, _⟩ := walkChildren_pres_congr
            (fun child s => tileUiF rects f s child)
            (fun child s => tileUiF rects f s child)
            (fun s' => Smap.size s' ≤ Smap.size (Smap.erase id s))
            c.children
            (fun c' _ s' hs' => le_trans (ih s' c') hs')
            (fun _ _ _ _ => rfl)
            (Smap.erase id s) (le_refl _)
          replace hP : Smap.size (walkChildren
              (fun child s => tileUiF rects f s child)
              c.children (Smap.erase id s)) ≤ Smap.size (Smap.erase id s) := hP
          have h2 := Smap.size_insert_le id (Tile.container c)
            (walkChildren (fun child s => tileUiF rects f s child)
              c.children (Smap.erase id s))
          omega

/-- The ui walk is independent of the fuel once it exceeds the arena size. -/
theorem tileUiF_fuel_irrelevant (rects : Smap RectZ) :
    ∀ (f g : Nat) (s : Arena) (id : Nat),
      Smap.size s < f → Smap.size s < g →
      tileUiF rects f s id = tileUiF rects g s id := by
  intro f
  induction f using Nat.strong_induction_on with
  | _ f ihf =>
    intro g s id hf hg
    match f, hf with
    | f + 1, hf =>
      match g, hg with
      | g + 1, hg =>
        unfold tileUiF
        cases hr : try_rect rects id with
        | none => rfl
        | some r =>
          cases hfind : Smap.find? s id with
          | none => rfl
          | some tile =>
            cases tile with
            | pane p => rfl
            | container c =>
              have hsz : Smap.size (Smap.erase id s) + 1 = Smap.size s :=
                Smap.size_erase_of_find? hfind
              obtain ⟨_, heq⟩ := walkChildren_pres_congr
                (fun child s => tileUiF rects f s child)
                (fun child s => tileUiF rects g s child)
                (fun s' => Smap.size s' ≤ Smap.size s - 1)
                c.children
                (fun c' _ s' hs' =>
                  le_trans (tileUiF_size_le rects f s' c') hs')
                (fun c' _ s' hs' => ihf f (Nat.lt_succ_self f) g s' c'
                  (by omega) (by omega))
                (Smap.erase id s) (by omega)
              show Smap.insert id (Tile.container c)
                  (walkChildren (fun child s => tileUiF rects f s child)
                    c.children (Smap.erase id s))
                = Smap.insert id (Tile.container c)
                  (walkChildren (fun child s => tileUiF rects g s child)
                    c.children (Smap.erase id s))
              rw [heq]

end TileTree

namespace TileTree

open Tiles

/-- Claim C8: every recursive tree walk (`gc_tile_id`/`gc_root`,
`layout_tile`, `tile_ui`, `simplify`, `make_all_panes_children_of_tabs`)
terminates on every arena, including arenas with missing, duplicate or
cyclic child references: each walk removes the visited tile before
recursing, so its result is independent of the fuel bound once the fuel
exceeds the arena size (for tab normalization, the potential `phi`, which
that walk never increases and which its canonical fuel `2·size+1` always
exceeds).  In particular `gc_tile_id` immediately returns Remove on an id
absent from the arena, and on an id already in the visited set (erasing the
tile without reinsertion), rather than recursing forever. -/
theorem C8_recursive_walks_terminate :
    (∀ (retain : Nat → Bool) (f g : Nat) (v : List Nat) (s : Arena)
      (id : Nat), Smap.size s < f → Smap.size s < g →
      Tiles.gcF retain f v s id = Tiles.gcF retain g v s id) ∧
    (∀ (retain : Nat → Bool) (f : Nat) (v : List Nat) (s : Arena) (id : Nat),
      Smap.find? s id = none →
      Tiles.gcF retain (f + 1) v s id = (s, v, .remove)) ∧
    (∀ (retain : Nat → Bool) (f : Nat) (v : List Nat) (s : Arena) (id : Nat)
      (T : Tile), Smap.find? s id = some T → id ∈ v →
      Tiles.gcF retain (f + 1) v s id = (Smap.erase id s, v, .remove)) ∧
    (∀ (o : SimplificationOptions) (f g : Nat) (s : Arena) (it : Nat),
      Smap.size s < f → Smap.size s < g →
      Tiles.simplifyF o f s it = Tiles.simplifyF o g s it) ∧
    (∀ (N0 f g : Nat) (flag : Bool) (it : Nat) (s : Arena) (n : Nat),
      Smap.Sorted s → (∀ k ∈ Smap.keys s, k < n) → N0 ≤ n →
      (∀ e ∈ s, NonTabsRefsBelow e.2 N0) → (flag = false → it < N0) →
      phi N0 s < f → phi N0 s < g →
      Tiles.makeAllF f flag it (s, n) = Tiles.makeAllF g flag it (s, n)) ∧
    (∀ (childRect : Container → RectZ → Nat → RectZ) (f g : Nat) (r : RectZ)
      (id : Nat) (st : Arena × Smap RectZ),
      Smap.size st.1 < f → Smap.size st.1 < g →
      Tiles.layoutF childRect f r id st
        = Tiles.layoutF childRect g r id st) ∧
    (∀ (rects : Smap RectZ) (f g : Nat) (s : Arena) (id : Nat),
      Smap.size s < f → Smap.size s < g →
      Tiles.tileUiF rects f s id = Tiles.tileUiF rects g s id) := by
  refine ⟨gcF_fuel_irrelevant, ?_, ?_, simplifyF_fuel_irrelevant, ?_,
    layoutF_fuel_irrelevant, tileUiF_fuel_irrelevant⟩
  · intro retain f v s id h
    unfold Tiles.gcF
    rw [h]
  · intro retain f v s id T h hv
    unfold Tiles.gcF
    rw [h]
    show (if id ∈ v then (Smap.erase id s, v, GcAction.remove)
      else _) = (Smap.erase id s, v, GcAction.remove)
    rw [if_pos hv]
  · intro N0 f g flag it s n h1 h2 h3 h4 h5 hf hg
    obtain ⟨_, _, _, _, _, _, h7⟩ :=
      makeAll_master N0 f flag it s n h1 h2 h3 h4 h5 hf
    exact (h7 g hg).symm

/-- Claim C8, witness: fuel irrelevance and the two gc equations at concrete
arenas (including an id already visited). -/
theorem C8_recursive_walks_terminate_witness :
    Tiles.gcF (fun _ => true) 2 [] [(1, .pane 0)] 1
      = Tiles.gcF (fun _ => true) 3 [] [(1, .pane 0)] 1 ∧
    Tiles.gcF (fun _ => true) 1 [] ([] : Arena) 5 = ([], [], .remove) ∧
    Tiles.gcF (fun _ => true) 1 [1] [(1, .pane 0)] 1
      = (Smap.erase 1 [(1, .pane 0)], [1], .remove) ∧
    Tiles.simplifyF ⟨true, true, true, true, true⟩ 2 [(1, .pane 0)] 1
      = Tiles.simplifyF ⟨true, true, true, true, true⟩ 3 [(1, .pane 0)] 1 ∧
    Tiles.makeAllF 3 false 1 ([(1, .pane 0)], 2)
      = Tiles.makeAllF 4 false 1 ([(1, .pane 0)], 2) ∧
    Tiles.layoutF (fun _ r _ => r) 2 ⟨⟨0, 0⟩, ⟨0, 0⟩⟩ 1 ([(1, .pane 0)], [])
      = Tiles.layoutF (fun _ r _ => r) 3 ⟨⟨0, 0⟩, ⟨0, 0⟩⟩ 1
        ([(1, .pane 0)], []) ∧
    Tiles.tileUiF [] 2 [(1, .pane 0)] 1
      = Tiles.tileUiF [] 3 [(1, .pane 0)] 1 :=
  ⟨C8_recursive_walks_terminate.1 (fun _ => true) 2 3 [] [(1, .pane 0)] 1
      (by decide) (by decide),
    C8_recursive_walks_terminate.2.1 (fun _ => true) 0 [] [] 5 rfl,
    C8_recursive_walks_terminate.2.2.1 (fun _ => true) 0 [1] [(1, .pane 0)] 1
      (.pane 0) rfl (by decide),
    C8_recursive_walks_terminate.2.2.2.1 ⟨true, true, true, true, true⟩ 2 3
      [(1, .pane 0)] 1 (by decide) (by decide),
    C8_recursive_walks_terminate.2.2.2.2.1 2 3 4 false 1 [(1, .pane 0)] 2
      (by decide) (by decide) (by decide)
      (by intro e he; cases List.mem_singleton.mp he; trivial)
      (fun _ => by decide) (by decide) (by decide),
    C8_recursive_walks_terminate.2.2.2.2.2.1 (fun _ r _ => r) 2 3
      ⟨⟨0, 0⟩, ⟨0, 0⟩⟩ 1 ([(1, .pane 0)], []) (by decide) (by decide),
    C8_recursive_walks_terminate.2.2.2.2.2.2 [] 2 3 [(1, .pane 0)] 1
      (by decide) (by decide)⟩

end TileTree

namespace TileTree

open Tiles

/-- The child edge relation of an arena: `b` is a direct child of the
container stored at `a`. -/
def Edge (s : Arena) (a b : Nat) : Prop :=
  ∃ C, Smap.find? s a = some (.container C) ∧ b ∈ C.children

/-- Reachability by following container children. -/
def Reach (s : Arena) : Nat → Nat → Prop :=
  Relation.ReflTransGen (Edge s)

/-- No pane is stored at the id. -/
def NotPaneAt (s : Arena) (k : Nat) : Prop :=
  ∀ p, Smap.find? s k ≠ some (.pane p)

/-- How an arena evolves under the tab-normalization walk, relative to the
bound `N0` that all original ids respect: containers are frozen, absent
small ids stay absent, small panes in the result were already there, large
panes persist, and every container in the result is either original or a
fresh single-child Tabs wrapper over a pane. -/
def Evo (N0 : Nat) (s s' : Arena) : Prop :=
  (∀ k C, Smap.find? s k = some (.container C) →
    Smap.find? s' k = some (.container C)) ∧
  (∀ k, k < N0 → Smap.find? s k = none → Smap.find? s' k = none) ∧
  (∀ k p, k < N0 → Smap.find? s' k = some (.pane p) →
    Smap.find? s k = some (.pane p)) ∧
  (∀ k p, N0 ≤ k → Smap.find? s k = some (.pane p) →
    Smap.find? s' k = some (.pane p)) ∧
  (∀ k C, Smap.find? s' k = some (.container C) →
    Smap.find? s k = some (.container C) ∨
    ∃ m p, C = Container.new_tabs [m] ∧ N0 ≤ m ∧
      Smap.find? s' m = some (.pane p))

theorem Evo_refl (N0 : Nat) (s : Arena) : Evo N0 s s :=
  ⟨fun _ _ h => h, fun _ _ h => h, fun _ _ _ h => h, fun _ _ _ h => h,
    fun _ _ h => Or.inl h⟩

theorem Evo_trans {N0 : Nat} {s t u : Arena}
    (h1 : Evo N0 s t) (h2 : Evo N0 t u) : Evo N0 s u := by
  obtain ⟨a1, a2, a3, a4, a5⟩ := h1
  obtain ⟨b1, b2, b3, b4, b5⟩ := h2
  refine ⟨fun k C h => b1 k C (a1 k C h),
    fun k hk h => b2 k hk (a2 k hk h),
    fun k p hk h => a3 k p hk (b3 k p hk h),
    fun k p hk h => b4 k p hk (a4 k p hk h), ?_⟩
  intro k C h
  rcases b5 k C h with h' | ⟨m, p, hC, hm, hp⟩
  · rcases a5 k C h' with h'' | ⟨m, p, hC, hm, hp⟩
    · exact Or.inl h''
    · exact Or.inr ⟨m, p, hC, hm, b4 m p hm hp⟩
  · exact Or.inr ⟨m, p, hC, hm, hp⟩

theorem Evo_notPane {N0 : Nat} {s s' : Arena} (h : Evo N0 s s')
    {k : Nat} (hk : k < N0) (hn : NotPaneAt s k) : NotPaneAt s' k := by
  intro p hp
  exact hn p (h.2.2.1 k p hk hp)

theorem reach_mono_of_evo {N0 : Nat} {s s' : Arena} (h : Evo N0 s s')
    {a b : Nat} (hr : Reach s a b) : Reach s' a b := by
  refine Relation.ReflTransGen.mono ?_ hr
  intro x y hxy
  obtain ⟨C, hC, hy⟩ := hxy
  exact ⟨C, h.1 x C hC, hy⟩

/-- A node holding no container has no outgoing edges, so reachability from
it stops there. -/
theorem reach_stop {s : Arena} {a k : Nat} (h : Reach s a k)
    (hnc : ∀ C, Smap.find? s a ≠ some (.container C)) : k = a := by
  rcases Relation.ReflTransGen.cases_head h with h' | ⟨b, hb, _⟩
  · exact h'.symm
  · obtain ⟨C, hC, _⟩ := hb
    exact absurd hC (hnc C)

/-- Path decomposition around a node: a path either avoids the node, ends at
it, or has a last exit from it followed by a path in the erased arena. -/
theorem reach_erase_aux (s : Arena) (it : Nat) :
    ∀ a k, Reach s a k →
      Reach (Smap.erase it s) a k ∨ k = it ∨
      ∃ b, Edge s it b ∧ Reach (Smap.erase it s) b k := by
  intro a k h
  induction h using Relation.ReflTransGen.head_induction_on with
  | refl => exact Or.inl Relation.ReflTransGen.refl
  | head h' _ ih =>
    rename_i x y _
    rcases ih with hp | hk | ⟨b, hb, hbp⟩
    · by_cases hx : x = it
      · subst hx
        exact Or.inr (Or.inr ⟨y, h', hp⟩)
      · obtain ⟨C, hC, hy⟩ := h'
        refine Or.inl (Relation.ReflTransGen.head ⟨C, ?_, hy⟩ hp)
        rw [Smap.find?_erase_ne it s x hx]
        exact hC
    · exact Or.inr (Or.inl hk)
    · exact Or.inr (Or.inr ⟨b, hb, hbp⟩)

end TileTree

namespace TileTree

open Tiles

/-- The child fold of the tab-normalization walk, given the per-call
evolution facts (the induction hypothesis at the inner fuel): the fold is an
evolution of its input, produces only old or fresh keys, leaves no pane at a
directly processed child (when the parent is not Tabs), and fixes every bad
non-Tabs parent reachable from a processed child. -/
theorem makeAll_fold_evo (N0 f : Nat) (flagB : Bool)
    (hIH : ∀ (flag : Bool) (it : Nat) (s1 : Arena) (n1 : Nat),
      Smap.Sorted s1 → (∀ k ∈ Smap.keys s1, k < n1) → N0 ≤ n1 →
      (∀ e ∈ s1, NonTabsRefsBelow e.2 N0) → (flag = false → it < N0) →
      phi N0 s1 < f →
      Evo N0 s1 (makeAllF f flag it (s1, n1)).1 ∧
      (flag = false → NotPaneAt (makeAllF f flag it (s1, n1)).1 it) ∧
      (∀ k, Reach s1 it k → ∀ C,
        Smap.find? s1 k = some (.container C) → C.layout ≠ Layout.tabs →
        ∀ ch ∈ C.children, NotPaneAt (makeAllF f flag it (s1, n1)).1 ch)) :
    ∀ (cs : List Nat) (s1 : Arena) (n1 : Nat),
      (∀ c' ∈ cs, flagB = false → c' < N0) →
      Smap.Sorted s1 → (∀ k ∈ Smap.keys s1, k < n1) → N0 ≤ n1 →
      (∀ e ∈ s1, NonTabsRefsBelow e.2 N0) →
      phi N0 s1 < f →
      Evo N0 s1 (walkChildren (fun child st => makeAllF f flagB child st) cs
        (s1, n1)).1 ∧
      (∀ k ∈ Smap.keys (walkChildren
          (fun child st => makeAllF f flagB child st) cs (s1, n1)).1,
        k ∈ Smap.keys s1 ∨ n1 ≤ k) ∧
      (∀ c' ∈ cs, flagB = false →
        NotPaneAt (walkChildren (fun child st => makeAllF f flagB child st)
          cs (s1, n1)).1 c') ∧
      (∀ c' ∈ cs, ∀ k, Reach s1 c' k → ∀ C,
        Smap.find? s1 k = some (.container C) → C.layout ≠ Layout.tabs →
        ∀ ch ∈ C.children,
        NotPaneAt (walkChildren (fun child st => makeAllF f flagB child st)
          cs (s1, n1)).1 ch) := by
  intro cs
  induction cs with
  | nil =>
    intro s1 n1 _ _ _ _ _ _
    exact ⟨Evo_refl N0 s1, fun k hk => Or.inl hk,
      fun c' hc' => absurd hc' (List.not_mem_nil c'),
      fun c' hc' => absurd hc' (List.not_mem_nil c')⟩
  | cons c cs ih =>
    intro s1 n1 hcs hS hK hN hT hf
    have hcmem := hcs c (List.mem_cons_self _ _)
    obtain ⟨e1, e2, e3⟩ := hIH flagB c s1 n1 hS hK hN hT hcmem hf
    obtain ⟨m1, m2, m3, m4, m5, m6, _⟩ :=
      makeAll_master N0 f flagB c s1 n1 hS hK hN hT hcmem hf
    rcases hres : makeAllF f flagB c (s1, n1) with ⟨s2, n2⟩
    rw [hres] at e1 e2 e3 m1 m2 m3 m4 m5 m6
    replace m3 : n1 ≤ n2 := m3
    replace m5 : phi N0 s2 ≤ phi N0 s1 := m5
    obtain ⟨E, KO, C2, D⟩ :=
      ih s2 n2 (fun c' hc' => hcs c' (List.mem_cons_of_mem _ hc'))
        m1 m2 (le_trans hN m3) m4 (lt_of_le_of_lt m5 hf)
    simp only [walkChildren]
    rw [hres]
    refine ⟨Evo_trans e1 E, ?_, ?_, ?_⟩
    · intro k hk
      rcases KO k hk with h | h
      · rcases m6 k h with h' | h'
        · exact Or.inl h'
        · exact Or.inr h'
      · exact Or.inr (le_trans m3 h)
    · intro c' hc' hflag
      rcases List.mem_cons.mp hc' with rfl | hc''
      · exact Evo_notPane E (hcmem hflag) (e2 hflag)
      · exact C2 c' hc'' hflag
    · intro c' hc' k hr C hC hlay ch hch
      rcases List.mem_cons.mp hc' with rfl | hc''
      · have hnp := e3 k hr C hC hlay ch hch
        have hT' := hT (k, Tile.container C) (Smap.find?_mem hC)
        simp only [NonTabsRefsBelow] at hT'
        exact Evo_notPane E (hT' hlay ch hch) hnp
      · exact D c' hc'' k (reach_mono_of_evo e1 hr) C (e1.1 k C hC) hlay ch
          hch

end TileTree

namespace TileTree

open Tiles

/-- Evolution lemma for `make_all_panes_children_of_tabs`: the walk is an
`Evo` of its input, leaves no pane at the visited id when the parent is not
Tabs, and after it no non-Tabs container reachable (in the input arena) from
the visited id has a pane child. -/
theorem makeAll_evolution (N0 : Nat) :
    ∀ (f : Nat) (flag : Bool) (it : Nat) (s : Arena) (n : Nat),
      Smap.Sorted s →
      (∀ k ∈ Smap.keys s, k < n) →
      N0 ≤ n →
      (∀ e ∈ s, NonTabsRefsBelow e.2 N0) →
      (flag = false → it < N0) →
      phi N0 s < f →
      Evo N0 s (makeAllF f flag it (s, n)).1 ∧
      (flag = false → NotPaneAt (makeAllF f flag it (s, n)).1 it) ∧
      (∀ k, Reach s it k → ∀ C,
        Smap.find? s k = some (.container C) → C.layout ≠ Layout.tabs →
        ∀ ch ∈ C.children, NotPaneAt (makeAllF f flag it (s, n)).1 ch) := by
  intro f
  induction f using Nat.strong_induction_on with
  | _ f ihf =>
    intro flag it s n hS hK hN hT hIT hf
    match f, hf with
    | f + 1, hf =>
      cases hfind : Smap.find? s it with
      | none =>
        have hres : makeAllF (f + 1) flag it (s, n) = (s, n) := by
          unfold makeAllF
          rw [hfind]
        have hres1 : (makeAllF (f + 1) flag it (s, n)).1 = s := by
          rw [hres]
        rw [hres1]
        refine ⟨Evo_refl N0 s, ?_, ?_⟩
        · intro _ q hq
          rw [hfind] at hq
          exact Option.noConfusion hq
        · intro k hr C hC _ ch _
          have hk : k = it := reach_stop hr (fun C' h => by
            rw [hfind] at h
            exact Option.noConfusion h)
          rw [hk, hfind] at hC
          exact Option.noConfusion hC
      | some tile =>
        cases tile with
        | pane p =>
          cases flag with
          | true =>
            have hres : makeAllF (f + 1) true it (s, n)
                = (Smap.insert it (Tile.pane p) (Smap.erase it s), n) := by
              unfold makeAllF
              rw [hfind]
              rfl
            have hres1 : (makeAllF (f + 1) true it (s, n)).1 = s := by
              rw [hres]
              show Smap.insert it (Tile.pane p) (Smap.erase it s) = s
              exact Smap.insert_erase_self hS hfind
            rw [hres1]
            refine ⟨Evo_refl N0 s, ?_, ?_⟩
            · intro hflag
              exact Bool.noConfusion hflag
            · intro k hr C hC _ ch _
              have hk : k = it := reach_stop hr (fun C' h => by
                rw [hfind] at h
                exact Tile.noConfusion (Option.some.inj h))
              rw [hk, hfind] at hC
              exact Tile.noConfusion (Option.some.inj hC)
          | false =>
            have hitN : it < N0 := hIT rfl
            have hitn : it < n := hK it (Smap.mem_keys_of_find? hfind)
            have hres : makeAllF (f + 1) false it (s, n)
                = (Smap.insert it (.container (Container.new_tabs [n]))
                    (Smap.insert n (Tile.pane p) (Smap.erase it s)),
                  n + 1) := by
              unfold makeAllF
              rw [hfind]
              rfl
            have hres1 : (makeAllF (f + 1) false it (s, n)).1
                = Smap.insert it (.container (Container.new_tabs [n]))
                    (Smap.insert n (Tile.pane p) (Smap.erase it s)) := by
              rw [hres]
            rw [hres1]
            have hfq : ∀ q, Smap.find? (Smap.insert it
                (.container (Container.new_tabs [n]))
                (Smap.insert n (Tile.pane p) (Smap.erase it s))) q
                = if q = it then some (.container (Container.new_tabs [n]))
                  else if q = n then some (Tile.pane p)
                  else Smap.find? s q := by
              intro q
              rw [Smap.find?_insert, Smap.find?_insert]
              by_cases h1 : q = it
              · rw [if_pos h1, if_pos h1]
              · rw [if_neg h1, if_neg h1]
                by_cases h2 : q = n
                · rw [if_pos h2, if_pos h2]
                · rw [if_neg h2, if_neg h2, Smap.find?_erase_ne _ _ _ h1]
            refine ⟨⟨?_, ?_, ?_, ?_, ?_⟩, ?_, ?_⟩
            · intro k C hc
              have hkit : k ≠ it := by
                intro h
                rw [h, hfind] at hc
                exact Tile.noConfusion (Option.some.inj hc)
              have hkn : k ≠ n := by
                have := hK k (Smap.mem_keys_of_find? hc)
                omega
              rw [hfq, if_neg hkit, if_neg hkn]
              exact hc
            · intro k hkN hnone
              have hkit : k ≠ it := by
                intro h
                rw [h, hfind] at hnone
                exact Option.noConfusion hnone
              have hkn : k ≠ n := by omega
              rw [hfq, if_neg hkit, if_neg hkn]
              exact hnone
            · intro k q hkN hp
              rw [hfq] at hp
              by_cases h1 : k = it
              · rw [if_pos h1] at hp
                exact Tile.noConfusion (Option.some.inj hp)
              · have hkn : k ≠ n := by omega
                rw [if_neg h1, if_neg hkn] at hp
                exact hp
            · intro m q hmN hq
              have hmit : m ≠ it := by omega
              have hmn : m ≠ n := by
                have := hK m (Smap.mem_keys_of_find? hq)
                omega
              rw [hfq, if_neg hmit, if_neg hmn]
              exact hq
            · intro k C hc
              rw [hfq] at hc
              by_cases h1 : k = it
              · rw [if_pos h1] at hc
                have hC' : Container.new_tabs [n] = C :=
                  Tile.container.inj (Option.some.inj hc)
                refine Or.inr ⟨n, p, hC'.symm, hN, ?_⟩
                rw [hfq, if_neg (show ¬ n = it by omega), if_pos rfl]
              · by_cases h2 : k = n
                · rw [if_neg h1, if_pos h2] at hc
                  exact Tile.noConfusion (Option.some.inj hc)
                · rw [if_neg h1, if_neg h2] at hc
                  exact Or.inl hc
            · intro _ q hq
              rw [hfq, if_pos rfl] at hq
              exact Tile.noConfusion (Option.some.inj hq)
            · intro k hr C hC _ ch _
              have hk : k = it := reach_stop hr (fun C' h => by
                rw [hfind] at h
                exact Tile.noConfusion (Option.some.inj h))
              rw [hk, hfind] at hC
              exact Tile.noConfusion (Option.some.inj hC)
        | container c =>
          have hitn : it < n := hK it (Smap.mem_keys_of_find? hfind)
          have hphi0 : phi N0 (Smap.erase it s) + 1 = phi N0 s := by
            unfold phi
            have hsz := Smap.size_erase_of_find? hfind
            have hc := Smap.countP_erase
              (fun e => decide (e.1 < N0) && isPaneB e.2) hfind
            rw [if_neg (show ¬ ((fun e => decide (e.1 < N0) && isPaneB e.2)
                (it, Tile.container c)) = true from by simp [isPaneB])] at hc
            omega
          have hflagchild : ∀ c' ∈ c.children,
              (decide (c.layout = Layout.tabs) = false → c' < N0) := by
            intro c' hc' hlay
            have := hT (it, .container c) (Smap.find?_mem hfind)
            simp only [NonTabsRefsBelow] at this
            exact this (by simpa using hlay) c' hc'
          obtain ⟨B, KO, C2, D⟩ := makeAll_fold_evo N0 f
            (decide (c.layout = Layout.tabs)) (ihf f (Nat.lt_succ_self f))
            c.children (Smap.erase it s) n hflagchild hS.erase
            (fun k hk => hK k ((Smap.keys_erase_sublist it s).mem hk)) hN
            (fun e he => hT e ((Smap.erase_sublist it s).mem he))
            (by omega)
          set st := walkChildren
            (fun child st => makeAllF f (decide (c.layout = Layout.tabs))
              child st) c.children (Smap.erase it s, n) with hstdef
          have hitout : Smap.find? st.1 it = none := by
            refine Smap.find?_eq_none_of_not_mem_keys ?_
            intro hm
            rcases KO it hm with hm' | hm'
            · obtain ⟨a, ha⟩ := Smap.find?_isSome_of_mem_keys hm'
              rw [Smap.find?_erase_self hS] at ha
              cases ha
            · omega
          have hres : makeAllF (f + 1) flag it (s, n)
              = (Smap.insert it (Tile.container c) st.1, st.2) := by
            unfold makeAllF
            rw [hfind]
          have hres1 : (makeAllF (f + 1) flag it (s, n)).1
              = Smap.insert it (Tile.container c) st.1 := by
            rw [hres]
          rw [hres1]
          have hfq : ∀ q, Smap.find? (Smap.insert it (Tile.container c)
              st.1) q
              = if q = it then some (Tile.container c)
                else Smap.find? st.1 q :=
            fun q => Smap.find?_insert _ _ _ q
          refine ⟨⟨?_, ?_, ?_, ?_, ?_⟩, ?_, ?_⟩
          · intro k C hc
            by_cases hk : k = it
            · have hcC : Tile.container c = Tile.container C := by
                rw [hk, hfind] at hc
                exact Option.some.inj hc
              rw [hfq, if_pos hk, hcC]
            · rw [hfq, if_neg hk]
              refine B.1 k C ?_
              rw [Smap.find?_erase_ne _ _ _ hk]
              exact hc
          · intro k hkN hnone
            have hk : k ≠ it := by
              intro h
              rw [h, hfind] at hnone
              exact Option.noConfusion hnone
            rw [hfq, if_neg hk]
            refine B.2.1 k hkN ?_
            rw [Smap.find?_erase_ne _ _ _ hk]
            exact hnone
          · intro k q hkN hp
            rw [hfq] at hp
            by_cases hk : k = it
            · rw [if_pos hk] at hp
              exact Tile.noConfusion (Option.some.inj hp)
            · rw [if_neg hk] at hp
              have := B.2.2.1 k q hkN hp
              rw [Smap.find?_erase_ne _ _ _ hk] at this
              exact this
          · intro m q hmN hq
            have hm : m ≠ it := by
              intro h
              rw [h, hfind] at hq
              exact Tile.noConfusion (Option.some.inj hq)
            rw [hfq, if_neg hm]
            refine B.2.2.2.1 m q hmN ?_
            rw [Smap.find?_erase_ne _ _ _ hm]
            exact hq
          · intro k C hc
            rw [hfq] at hc
            by_cases hk : k = it
            · refine Or.inl ?_
              rw [if_pos hk] at hc
              rw [hk, hfind]
              exact hc.symm ▸ rfl
            · rw [if_neg hk] at hc
              rcases B.2.2.2.2 k C hc with h' | ⟨m, q, hC, hm, hpm⟩
              · refine Or.inl ?_
                rw [Smap.find?_erase_ne _ _ _ hk] at h'
                exact h'
              · refine Or.inr ⟨m, q, hC, hm, ?_⟩
                have hmit : m ≠ it := by
                  intro h
                  rw [h, hitout] at hpm
                  exact Option.noConfusion hpm
                rw [hfq, if_neg hmit]
                exact hpm
          · intro _ q hq
            rw [hfq, if_pos rfl] at hq
            exact Tile.noConfusion (Option.some.inj hq)
          · intro k hr C hC hlay ch hch q hq
            rw [hfq] at hq
            by_cases hchit : ch = it
            · rw [if_pos hchit] at hq
              exact Tile.noConfusion (Option.some.inj hq)
            · rw [if_neg hchit] at hq
              by_cases hkit : k = it
              · have hcc : c = C := by
                  rw [hkit, hfind] at hC
                  exact Tile.container.inj (Option.some.inj hC)
                have hlayB : decide (c.layout = Layout.tabs) = false := by
                  rw [hcc]
                  exact decide_eq_false hlay
                exact C2 ch (by rw [hcc]; exact hch) hlayB q hq
              · rcases reach_erase_aux s it it k hr with hp | hk' | hlast
                · rcases Relation.ReflTransGen.cases_head hp with h' | hstep
                  · exact hkit h'.symm
                  · obtain ⟨x, hx, _⟩ := hstep
                    obtain ⟨C0, hC0, _⟩ := hx
                    rw [Smap.find?_erase_self hS] at hC0
                    exact Option.noConfusion hC0
                · exact hkit hk'
                · obtain ⟨b, hEdge, hRe⟩ := hlast
                  obtain ⟨C0, hC0, hbmem⟩ := hEdge
                  rw [hfind] at hC0
                  have hC0c : c = C0 :=
                    Tile.container.inj (Option.some.inj hC0)
                  have hbc : b ∈ c.children := by
                    rw [hC0c]
                    exact hbmem
                  have hCe : Smap.find? (Smap.erase it s) k
                      = some (Tile.container C) := by
                    rw [Smap.find?_erase_ne _ _ _ hkit]
                    exact hC
                  exact D b hbc k hRe C hCe hlay ch hch q hq

end TileTree

namespace TileTree

open Tiles

/-- In a final arena produced by an evolution, a path to a non-Tabs container
already existed in the initial arena with the same container at its end:
wrapper Tabs lead only to fresh panes, which have no further edges. -/
theorem reach_back {N0 : Nat} {s s' : Arena} (hE : Evo N0 s s') :
    ∀ a k, Reach s' a k → ∀ C, Smap.find? s' k = some (.container C) →
      C.layout ≠ Layout.tabs →
      Reach s a k ∧ Smap.find? s k = some (.container C) := by
  intro a k h
  induction h using Relation.ReflTransGen.head_induction_on with
  | refl =>
    intro C hC hlay
    rcases hE.2.2.2.2 k C hC with h' | ⟨m, q, hCw, _, _⟩
    · exact ⟨Relation.ReflTransGen.refl, h'⟩
    · exfalso
      apply hlay
      rw [hCw]
      rfl
  | head h' hrest ih =>
    rename_i x y
    intro C hC hlay
    obtain ⟨hr, hfk⟩ := ih C hC hlay
    obtain ⟨Ca, hCa, hymem⟩ := h'
    rcases hE.2.2.2.2 x Ca hCa with ho | ⟨m, q, hCw, _, hpm⟩
    · exact ⟨Relation.ReflTransGen.head ⟨Ca, ho, hymem⟩ hr, hfk⟩
    · exfalso
      have hym : y = m := by
        rw [hCw] at hymem
        simpa [Container.new_tabs, Tabs.new, Container.children]
          using hymem
      have hpy : Smap.find? s' y = some (Tile.pane q) := by
        rw [hym]
        exact hpm
      have hky : k = y := reach_stop hrest (fun C' hc => by
        rw [hpy] at hc
        exact Tile.noConfusion (Option.some.inj hc))
      rw [hky, hpy] at hC
      exact Tile.noConfusion (Option.some.inj hC)

end TileTree

namespace TileTree

open Tiles

/-- Claim C6, counterexample: tab normalization only walks tiles reachable
from its root, so an unreachable non-Tabs container keeps referencing a
reachable pane.  Here tile 3 (a horizontal Linear, unreachable from root 1)
has pane 2 as a child; the pass from root 1 leaves the arena unchanged, so
pane 2 is reachable from the root yet has an immediate parent that is not a
Tabs container — refuting the claim that after the pass every Pane reachable
from the root has a Tabs container as its immediate parent. -/
theorem C6_counterexample :
    (make_all_panes_children_of_tabs false 1
        [(1, Tile.container (Container.new_tabs [2])), (2, Tile.pane 0),
         (3, Tile.container (Container.new_linear .horizontal [2]))] 4).1
      = [(1, Tile.container (Container.new_tabs [2])), (2, Tile.pane 0),
         (3, Tile.container (Container.new_linear .horizontal [2]))] ∧
    Reach (make_all_panes_children_of_tabs false 1
        [(1, Tile.container (Container.new_tabs [2])), (2, Tile.pane 0),
         (3, Tile.container (Container.new_linear .horizontal [2]))] 4).1
      1 2 ∧
    Smap.find? (make_all_panes_children_of_tabs false 1
        [(1, Tile.container (Container.new_tabs [2])), (2, Tile.pane 0),
         (3, Tile.container (Container.new_linear .horizontal [2]))] 4).1 2
      = some (Tile.pane 0) ∧
    Smap.find? (make_all_panes_children_of_tabs false 1
        [(1, Tile.container (Container.new_tabs [2])), (2, Tile.pane 0),
         (3, Tile.container (Container.new_linear .horizontal [2]))] 4).1 3
      = some (Tile.container (Container.new_linear .horizontal [2])) ∧
    2 ∈ (Container.new_linear .horizontal [2]).children ∧
    (Container.new_linear .horizontal [2]).layout ≠ Layout.tabs := by
  have hF : (make_all_panes_children_of_tabs false 1
      [(1, Tile.container (Container.new_tabs [2])), (2, Tile.pane 0),
       (3, Tile.container (Container.new_linear .horizontal [2]))] 4).1
      = [(1, Tile.container (Container.new_tabs [2])), (2, Tile.pane 0),
         (3, Tile.container (Container.new_linear .horizontal [2]))] := by
    decide
  refine ⟨hF, ?_, by decide, by decide, by decide, by decide⟩
  rw [hF]
  exact Relation.ReflTransGen.single
    ⟨Container.new_tabs [2], rfl, by decide⟩

/-- Claim C6, amended: (1) a pane visited with `parent_is_tabs = false` is
wrapped in place — its original id is overwritten with a fresh single-child
Tabs container whose sole child is a new id holding the original pane, so the
external id is preserved; (2) after
`make_all_panes_children_of_tabs(false, root)` on an arena whose keys are
below the allocator counter and whose non-Tabs containers reference only ids
below a bound `N0 ≤ n`, every non-Tabs container that is itself reachable
from the root in the resulting arena has no pane children (panes can keep a
non-Tabs immediate parent only if that parent is unreachable from the
root). -/
theorem C6_amended_tab_normalization :
    (∀ (f : Nat) (s : Arena) (n it p : Nat),
      Smap.find? s it = some (.pane p) →
      makeAllF (f + 1) false it (s, n)
        = (Smap.insert it (.container (Container.new_tabs [n]))
            (Smap.insert n (.pane p) (Smap.erase it s)), n + 1)) ∧
    (∀ (s : Arena) (n N0 root : Nat),
      Smap.Sorted s →
      (∀ k ∈ Smap.keys s, k < n) →
      N0 ≤ n →
      (∀ e ∈ s, NonTabsRefsBelow e.2 N0) →
      root < N0 →
      ∀ k C,
        Reach (make_all_panes_children_of_tabs false root s n).1 root k →
        Smap.find? (make_all_panes_children_of_tabs false root s n).1 k
          = some (.container C) →
        C.layout ≠ Layout.tabs →
        ∀ ch ∈ C.children,
          NotPaneAt (make_all_panes_children_of_tabs false root s n).1 ch) := by
  constructor
  · intro f s n it p hfind
    unfold makeAllF
    rw [hfind]
    rfl
  · intro s n N0 root hS hK hN hT hroot
    have hcount := List.countP_le_length
      (p := fun e => decide (e.1 < N0) && isPaneB e.2) (l := s)
    have hfuel : phi N0 s < 2 * Smap.size s + 1 := by
      unfold phi Smap.size
      omega
    obtain ⟨hEvo, _, hfix⟩ := makeAll_evolution N0 (2 * Smap.size s + 1)
      false root s n hS hK hN hT (fun _ => hroot) hfuel
    intro k C hr hfind hlay ch hch
    have hrb := reach_back hEvo root k hr C hfind hlay
    exact hfix k hrb.1 C hrb.2 hlay ch hch

/-- Claim C6, amended, witness: the wrap equation at a concrete one-pane
arena, and the reachable-parent property applied to a concrete arena where a
horizontal container holds a pane (after the pass its child is no longer a
pane). -/
theorem C6_amended_tab_normalization_witness :
    makeAllF 1 false 1 ([(1, Tile.pane 7)], 5)
      = (Smap.insert 1 (.container (Container.new_tabs [5]))
          (Smap.insert 5 (.pane 7) (Smap.erase 1 [(1, Tile.pane 7)])),
        6) ∧
    Smap.find? (make_all_panes_children_of_tabs false 1
        [(1, Tile.container (Container.new_linear .horizontal [2])),
         (2, Tile.pane 0)] 3).1 2 ≠ some (Tile.pane 9) :=
  ⟨C6_amended_tab_normalization.1 0 [(1, Tile.pane 7)] 5 1 7 rfl,
    C6_amended_tab_normalization.2
      [(1, Tile.container (Container.new_linear .horizontal [2])),
       (2, Tile.pane 0)] 3 3 1 (by decide) (by decide) (by decide)
      (by
        intro e he
        rcases List.mem_cons.mp he with rfl | he'
        · intro _ k hk
          rcases List.mem_singleton.mp hk with rfl
          decide
        · rcases List.mem_singleton.mp he' with rfl
          trivial)
      (by decide) 1 (Container.new_linear .horizontal [2])
      Relation.ReflTransGen.refl (by decide) (by decide) 2 (by decide) 9⟩

end TileTree

namespace TileTree

open Tiles

/-- The child ids referenced by a tile. -/
def tileRefs : Tile → List Nat
  | .pane _ => []
  | .container c => c.children

/-- All child references of an arena, in storage order. -/
def allRefs : Arena → List Nat
  | [] => []
  | e :: t => tileRefs e.2 ++ allRefs t

/-- An explicit path witness: the list records the nodes after the start,
each a child of its predecessor, ending at the target. -/
def IsPath (s : Arena) : Nat → List Nat → Nat → Prop
  | a, [], b => a = b
  | a, c :: l, b => Edge s a c ∧ IsPath s c l b

theorem reach_of_isPath {s : Arena} :
    ∀ {l : List Nat} {a b : Nat}, IsPath s a l b → Reach s a b := by
  intro l
  induction l with
  | nil =>
    intro a b h
    exact h ▸ Relation.ReflTransGen.refl
  | cons c t ih =>
    intro a b h
    exact Relation.ReflTransGen.head h.1 (ih h.2)

theorem isPath_of_reach {s : Arena} {a b : Nat} (h : Reach s a b) :
    ∃ l, IsPath s a l b := by
  induction h using Relation.ReflTransGen.head_induction_on with
  | refl => exact ⟨[], rfl⟩
  | head h' hrest ih =>
    rename_i x y
    obtain ⟨l, hl⟩ := ih
    exact ⟨y :: l, h', hl⟩

theorem isPath_append {s : Arena} :
    ∀ {l1 : List Nat} {a b : Nat}, IsPath s a l1 b →
      ∀ {l2 c}, IsPath s b l2 c → IsPath s a (l1 ++ l2) c := by
  intro l1
  induction l1 with
  | nil =>
    intro a b h l2 c h2
    exact h ▸ h2
  | cons d t ih =>
    intro a b h l2 c h2
    exact ⟨h.1, ih h.2 h2⟩

/-- A nonempty path ends with an edge into its target. -/
theorem isPath_snoc {s : Arena} :
    ∀ {l : List Nat} {a b : Nat}, IsPath s a l b →
      l = [] ∨ ∃ l0 m, IsPath s a l0 m ∧ Edge s m b ∧ l = l0 ++ [b] := by
  intro l
  induction l with
  | nil => intro a b _; exact Or.inl rfl
  | cons c t ih =>
    intro a b h
    refine Or.inr ?_
    rcases ih h.2 with ht | ⟨l0, m, hp, he, hl⟩
    · subst ht
      have hcb : c = b := h.2
      subst hcb
      exact ⟨[], a, rfl, h.1, rfl⟩
    · exact ⟨c :: l0, m, ⟨h.1, hp⟩, he, by rw [hl]; rfl⟩

/-- A nontrivial reachability has a last edge. -/
theorem reach_last {s : Arena} {x y : Nat} (h : Reach s x y) (hxy : x ≠ y) :
    ∃ m, Reach s x m ∧ Edge s m y := by
  obtain ⟨l, hl⟩ := isPath_of_reach h
  rcases isPath_snoc hl with hnil | ⟨l0, m, hp, he, _⟩
  · subst hnil
    exact absurd hl hxy
  · exact ⟨m, reach_of_isPath hp, he⟩

end TileTree

namespace TileTree

open Tiles

/-- In an arena where every node has at most one referencing parent and the
root is referenced by nobody, no node reachable from the root lies on a
nontrivial cycle. -/
theorem no_cycle_aux (s : Arena) (root : Nat)
    (HUE : ∀ k m m', Edge s m k → Edge s m' k → m = m')
    (HRE : ∀ m, ¬ Edge s m root) :
    ∀ n (l : List Nat) (a : Nat) (l' : List Nat), l.length ≤ n →
      IsPath s root l a → IsPath s a l' a → l' = [] := by
  intro n
  induction n with
  | zero =>
    intro l a l' hlen hroot hcyc
    have hl : l = [] := List.eq_nil_of_length_eq_zero (Nat.le_zero.mp hlen)
    subst hl
    have ha : root = a := hroot
    rcases isPath_snoc hcyc with hnil | ⟨l0, m, _, he, _⟩
    · exact hnil
    · rw [← ha] at he
      exact absurd he (HRE m)
  | succ n ih =>
    intro l a l' hlen hroot hcyc
    rcases isPath_snoc hcyc with hnil | ⟨l0, m, hp0, he, _⟩
    · exact hnil
    · by_cases hra : root = a
      · rw [← hra] at he
        exact absurd he (HRE m)
      · rcases isPath_snoc hroot with hnil' | ⟨l1, q, hp1, he1, hl1⟩
        · subst hnil'
          exact absurd hroot hra
        · have hqm : q = m := HUE a q m he1 he
          subst hqm
          have hcyc' : IsPath s q (a :: l0) q := ⟨he, hp0⟩
          have hlen' : l1.length ≤ n := by
            rw [hl1] at hlen
            simp at hlen
            omega
          have := ih l1 q (a :: l0) hlen' hp1 hcyc'
          exact absurd this (by simp)

/-- No reachable node has an edge closing a cycle back to itself. -/
theorem no_cycle (s : Arena) (root : Nat)
    (HUE : ∀ k m m', Edge s m k → Edge s m' k → m = m')
    (HRE : ∀ m, ¬ Edge s m root) {a b : Nat}
    (hra : Reach s root a) (hab : Edge s a b) (hba : Reach s b a) :
    False := by
  obtain ⟨l, hl⟩ := isPath_of_reach hra
  obtain ⟨l', hl'⟩ := isPath_of_reach hba
  have hcyc : IsPath s a (b :: l') a := ⟨hab, hl'⟩
  have := no_cycle_aux s root HUE HRE l.length l a (b :: l') (le_refl _)
    hl hcyc
  exact absurd this (by simp)

/-- With unique parents, two nodes that reach a common node are
comparable. -/
theorem reach_comparable_aux (s : Arena)
    (HUE : ∀ k m m', Edge s m k → Edge s m' k → m = m') :
    ∀ n (l1 l2 : List Nat) (x y k : Nat),
      l1.length + l2.length ≤ n →
      IsPath s x l1 k → IsPath s y l2 k →
      Reach s x y ∨ Reach s y x := by
  intro n
  induction n with
  | zero =>
    intro l1 l2 x y k hlen h1 h2
    have e1 : l1 = [] := List.eq_nil_of_length_eq_zero (by omega)
    have e2 : l2 = [] := List.eq_nil_of_length_eq_zero (by omega)
    subst e1
    subst e2
    have hx : x = k := h1
    have hy : y = k := h2
    subst hx
    exact Or.inl (hy ▸ Relation.ReflTransGen.refl)
  | succ n ih =>
    intro l1 l2 x y k hlen h1 h2
    rcases isPath_snoc h2 with hnil | ⟨l0, m2, hp2, he2, hl2⟩
    · subst hnil
      have hy : y = k := h2
      subst hy
      exact Or.inl (reach_of_isPath h1)
    · rcases isPath_snoc h1 with hnil' | ⟨l0', m1, hp1, he1, hl1⟩
      · subst hnil'
        have hx : x = k := h1
        subst hx
        exact Or.inr (reach_of_isPath h2)
      · have hm : m1 = m2 := HUE k m1 m2 he1 he2
        subst hm
        have hlen' : l0'.length + l0.length ≤ n := by
          rw [hl1] at hlen
          rw [hl2] at hlen
          simp at hlen
          omega
        exact ih l0' l0 x y m1 hlen' hp1 hp2

theorem reach_comparable (s : Arena)
    (HUE : ∀ k m m', Edge s m k → Edge s m' k → m = m')
    {x y k : Nat} (h1 : Reach s x k) (h2 : Reach s y k) :
    Reach s x y ∨ Reach s y x := by
  obtain ⟨l1, hl1⟩ := isPath_of_reach h1
  obtain ⟨l2, hl2⟩ := isPath_of_reach h2
  exact reach_comparable_aux s HUE (l1.length + l2.length) l1 l2 x y k
    (le_refl _) hl1 hl2

/-- With unique parents and an unreferenced root, the descendant sets of two
distinct children of a reachable container are disjoint. -/
theorem sib_disjoint (s : Arena) (root : Nat)
    (HUE : ∀ k m m', Edge s m k → Edge s m' k → m = m')
    (HRE : ∀ m, ¬ Edge s m root)
    {id ci cj k : Nat} {C : Container}
    (hroot : Reach s root id)
    (hfind : Smap.find? s id = some (.container C))
    (hci : ci ∈ C.children) (hcj : cj ∈ C.children) (hij : ci ≠ cj)
    (hki : Reach s ci k) (hkj : Reach s cj k) : False := by
  have hEi : Edge s id ci := ⟨C, hfind, hci⟩
  have hEj : Edge s id cj := ⟨C, hfind, hcj⟩
  rcases reach_comparable s HUE hki hkj with hcc | hcc
  · rcases reach_last hcc (by exact fun h => hij h) with ⟨m, hm, hme⟩
    have : m = id := HUE cj m id hme hEj
    subst this
    exact no_cycle s root HUE HRE hroot hEi hm
  · rcases reach_last hcc (by exact fun h => hij h.symm) with ⟨m, hm, hme⟩
    have : m = id := HUE ci m id hme hEi
    subst this
    exact no_cycle s root HUE HRE hroot hEj hm

end TileTree

namespace TileTree

open Tiles

theorem mem_allRefs_of_mem :
    ∀ {s : Arena} {e : Nat × Tile}, e ∈ s →
      ∀ {k}, k ∈ tileRefs e.2 → k ∈ allRefs s := by
  intro s
  induction s with
  | nil => intro e he; cases he
  | cons e0 t ih =>
    intro e he k hk
    rcases List.mem_cons.mp he with rfl | he'
    · exact List.mem_append_left _ hk
    · exact List.mem_append_right _ (ih he' hk)

theorem nodup_refs_disjoint :
    ∀ {s : Arena}, (allRefs s).Nodup → Smap.Sorted s →
      ∀ {m m' : Nat} {T T' : Tile}, (m, T) ∈ s → (m', T') ∈ s → m ≠ m' →
      ∀ {k}, k ∈ tileRefs T → k ∈ tileRefs T' → False := by
  intro s
  induction s with
  | nil => intro _ _ _ _ _ _ h; cases h
  | cons e0 t ih =>
    intro hnd hS m m' T T' hm hm' hne k hk hk'
    have hdisj := List.disjoint_of_nodup_append (by
      show ((tileRefs e0.2) ++ allRefs t).Nodup
      exact hnd)
    have hnd' : (allRefs t).Nodup := by
      have : ((tileRefs e0.2) ++ allRefs t).Nodup := hnd
      exact this.of_append_right
    rcases List.mem_cons.mp hm with rfl | hmt
    · rcases List.mem_cons.mp hm' with heq | hmt'
      · exact hne (congrArg Prod.fst heq.symm)
      · exact hdisj hk (mem_allRefs_of_mem hmt' hk')
    · rcases List.mem_cons.mp hm' with rfl | hmt'
      · exact hdisj hk' (mem_allRefs_of_mem hmt hk)
      · exact ih hnd' hS.tail hmt hmt' hne hk hk'

/-- Duplicate-free references give unique parents. -/
theorem unique_parent {s : Arena} (hnd : (allRefs s).Nodup)
    (hS : Smap.Sorted s) :
    ∀ k m m', Edge s m k → Edge s m' k → m = m' := by
  intro k m m' hm hm'
  by_cases hne : m = m'
  · exact hne
  · obtain ⟨C, hC, hk⟩ := hm
    obtain ⟨C', hC', hk'⟩ := hm'
    exact absurd (nodup_refs_disjoint hnd hS (Smap.find?_mem hC)
      (Smap.find?_mem hC') hne hk hk') (by simp)

/-- Duplicate-free references make each child list duplicate-free. -/
theorem children_nodup :
    ∀ {s : Arena}, (allRefs s).Nodup →
      ∀ {e : Nat × Tile}, e ∈ s → (tileRefs e.2).Nodup := by
  intro s
  induction s with
  | nil => intro _ e he; cases he
  | cons e0 t ih =>
    intro hnd e he
    have hnd0 : ((tileRefs e0.2) ++ allRefs t).Nodup := hnd
    rcases List.mem_cons.mp he with rfl | he'
    · exact hnd0.of_append_left
    · exact ih hnd0.of_append_right he'

/-- An unreferenced root has no incoming edge. -/
theorem root_no_edge {s : Arena} {root : Nat} (h : root ∉ allRefs s) :
    ∀ m, ¬ Edge s m root := by
  intro m hm
  obtain ⟨C, hC, hk⟩ := hm
  exact h (mem_allRefs_of_mem (Smap.find?_mem hC) hk)

end TileTree

namespace TileTree

open Tiles

theorem Container.children_withChildren (c : Container) (l : List Nat) :
    (c.withChildren l).children = l := by
  cases c <;> rfl

theorem edge_erase {s : Arena} (hS : Smap.Sorted s) {id a b : Nat}
    (h : Edge (Smap.erase id s) a b) : Edge s a b := by
  obtain ⟨C, hC, hb⟩ := h
  by_cases ha : a = id
  · rw [ha, Smap.find?_erase_self hS] at hC
    exact Option.noConfusion hC
  · rw [Smap.find?_erase_ne _ _ _ ha] at hC
    exact ⟨C, hC, hb⟩

theorem gcF_eq_missing (retain : Nat → Bool) (f : Nat) (v : List Nat)
    (s : Arena) (id : Nat) (h : Smap.find? s id = none) :
    gcF retain (f + 1) v s id = (s, v, .remove) := by
  unfold gcF
  rw [h]

theorem gcF_eq_visited (retain : Nat → Bool) (f : Nat) (v : List Nat)
    (s : Arena) (id : Nat) {T : Tile} (h : Smap.find? s id = some T)
    (hv : id ∈ v) :
    gcF retain (f + 1) v s id = (Smap.erase id s, v, .remove) := by
  unfold gcF
  rw [h]
  show (if id ∈ v then (Smap.erase id s, v, GcAction.remove)
    else _) = (Smap.erase id s, v, GcAction.remove)
  rw [if_pos hv]

theorem gcF_eq_pane_keep (retain : Nat → Bool) (f : Nat) (v : List Nat)
    (s : Arena) (id : Nat) {p : Nat} (h : Smap.find? s id = some (.pane p))
    (hv : id ∉ v) (hret : retain p = true) :
    gcF retain (f + 1) v s id
      = ((Smap.erase id s).insert id (.pane p), id :: v, .keep) := by
  unfold gcF
  rw [h]
  show (if id ∈ v then (Smap.erase id s, v, GcAction.remove)
      else if retain p = true
        then ((Smap.erase id s).insert id (.pane p), id :: v, GcAction.keep)
        else (Smap.erase id s, id :: v, GcAction.remove))
    = ((Smap.erase id s).insert id (.pane p), id :: v, GcAction.keep)
  rw [if_neg hv, if_pos hret]

theorem gcF_eq_pane_drop (retain : Nat → Bool) (f : Nat) (v : List Nat)
    (s : Arena) (id : Nat) {p : Nat} (h : Smap.find? s id = some (.pane p))
    (hv : id ∉ v) (hret : retain p = false) :
    gcF retain (f + 1) v s id = (Smap.erase id s, id :: v, .remove) := by
  unfold gcF
  rw [h]
  show (if id ∈ v then (Smap.erase id s, v, GcAction.remove)
      else if retain p = true
        then ((Smap.erase id s).insert id (.pane p), id :: v, GcAction.keep)
        else (Smap.erase id s, id :: v, GcAction.remove))
    = (Smap.erase id s, id :: v, GcAction.remove)
  rw [if_neg hv, if_neg (by rw [hret]; exact Bool.false_ne_true)]

theorem gcF_eq_container (retain : Nat → Bool) (f : Nat) (v : List Nat)
    (s : Arena) (id : Nat) {c : Container}
    (h : Smap.find? s id = some (.container c)) (hv : id ∉ v) :
    gcF retain (f + 1) v s id
      = ((gcChildren (gcF retain f) (id :: v) (Smap.erase id s)
            c.children).1.insert id
          (.container (c.withChildren
            (gcChildren (gcF retain f) (id :: v) (Smap.erase id s)
              c.children).2.2)),
        (gcChildren (gcF retain f) (id :: v) (Smap.erase id s)
          c.children).2.1,
        .keep) := by
  unfold gcF
  rw [h]
  show (if id ∈ v then (Smap.erase id s, v, GcAction.remove) else _) = _
  rw [if_neg hv]

theorem gcChildren_cons
    (g : List Nat → Arena → Nat → Arena × List Nat × GcAction)
    (v : List Nat) (s : Arena) (c : Nat) (cs : List Nat)
    {s1 : Arena} {v1 : List Nat} {a : GcAction}
    (hres : g v s c = (s1, v1, a)) :
    gcChildren g v s (c :: cs)
      = ((gcChildren g v1 s1 cs).1, (gcChildren g v1 s1 cs).2.1,
          if a = .keep then c :: (gcChildren g v1 s1 cs).2.2
          else (gcChildren g v1 s1 cs).2.2) := by
  simp only [gcChildren]
  rw [hres]

end TileTree

namespace TileTree

open Tiles

/-- The per-child loop of GC, given the per-call facts at the inner fuel:
the loop preserves sortedness and size, only extends the visited set with
ids reachable from some child, touches no unvisited id, at most erases
already-visited ids, keeps new panes only when retained, only removes edges,
never adds keys, and keeps only listed children. -/
theorem gc_fold (retain : Nat → Bool) (f : Nat)
    (hIH : ∀ (v : List Nat) (s : Arena) (id : Nat),
      Smap.Sorted s → Smap.size s < f →
      Smap.Sorted (gcF retain f v s id).1 ∧
      Smap.size (gcF retain f v s id).1 ≤ Smap.size s ∧
      (∀ x ∈ v, x ∈ (gcF retain f v s id).2.1) ∧
      (∀ k ∈ (gcF retain f v s id).2.1,
        k ∈ v ∨ (k ∈ Smap.keys s ∧ Reach s id k)) ∧
      (∀ x, x ∉ (gcF retain f v s id).2.1 →
        Smap.find? (gcF retain f v s id).1 x = Smap.find? s x) ∧
      (∀ x ∈ v, Smap.find? (gcF retain f v s id).1 x = Smap.find? s x ∨
        Smap.find? (gcF retain f v s id).1 x = none) ∧
      (∀ k p, k ∈ (gcF retain f v s id).2.1 → k ∉ v →
        Smap.find? (gcF retain f v s id).1 k = some (.pane p) →
        retain p = true) ∧
      (∀ a b, Edge (gcF retain f v s id).1 a b → Edge s a b) ∧
      (∀ k ∈ Smap.keys (gcF retain f v s id).1, k ∈ Smap.keys s)) :
    ∀ (cs : List Nat) (v0 : List Nat) (s0 : Arena),
      Smap.Sorted s0 → Smap.size s0 < f →
      Smap.Sorted (gcChildren (gcF retain f) v0 s0 cs).1 ∧
      Smap.size (gcChildren (gcF retain f) v0 s0 cs).1 ≤ Smap.size s0 ∧
      (∀ x ∈ v0, x ∈ (gcChildren (gcF retain f) v0 s0 cs).2.1) ∧
      (∀ k ∈ (gcChildren (gcF retain f) v0 s0 cs).2.1,
        k ∈ v0 ∨ (k ∈ Smap.keys s0 ∧ ∃ c ∈ cs, Reach s0 c k)) ∧
      (∀ x, x ∉ (gcChildren (gcF retain f) v0 s0 cs).2.1 →
        Smap.find? (gcChildren (gcF retain f) v0 s0 cs).1 x
          = Smap.find? s0 x) ∧
      (∀ x ∈ v0,
        Smap.find? (gcChildren (gcF retain f) v0 s0 cs).1 x
          = Smap.find? s0 x ∨
        Smap.find? (gcChildren (gcF retain f) v0 s0 cs).1 x = none) ∧
      (∀ k p, k ∈ (gcChildren (gcF retain f) v0 s0 cs).2.1 → k ∉ v0 →
        Smap.find? (gcChildren (gcF retain f) v0 s0 cs).1 k
          = some (.pane p) → retain p = true) ∧
      (∀ a b, Edge (gcChildren (gcF retain f) v0 s0 cs).1 a b →
        Edge s0 a b) ∧
      (∀ k ∈ Smap.keys (gcChildren (gcF retain f) v0 s0 cs).1,
        k ∈ Smap.keys s0) ∧
      (∀ x ∈ (gcChildren (gcF retain f) v0 s0 cs).2.2, x ∈ cs) := by
  intro cs
  induction cs with
  | nil =>
    intro v0 s0 hS hsz
    refine ⟨hS, le_refl _, fun x hx => hx, fun k hk => Or.inl hk,
      fun x _ => rfl, fun x _ => Or.inl rfl,
      fun k p hk hnk _ => absurd hk hnk, fun a b h => h, fun k hk => hk,
      fun x hx => absurd hx (List.not_mem_nil x)⟩
  | cons c cs ih =>
    intro v0 s0 hS hsz
    rcases hres : gcF retain f v0 s0 c with ⟨s1, v1, act⟩
    have hc := hIH v0 s0 c hS hsz
    rw [hres] at hc
    obtain ⟨c1, c2, c3, c4, c5, c6, c7, c8, c9⟩ := hc
    replace c2 : Smap.size s1 ≤ Smap.size s0 := c2
    obtain ⟨F1, F2, F3, F4, F5, F6, F7, F8, F9, F10⟩ :=
      ih v1 s1 c1 (lt_of_le_of_lt c2 hsz)
    rw [gcChildren_cons (gcF retain f) v0 s0 c cs hres]
    refine ⟨F1, le_trans F2 c2, ?_, ?_, ?_, ?_, ?_, ?_, ?_, ?_⟩
    · intro x hx
      exact F3 x (c3 x hx)
    · intro k hk
      rcases F4 k hk with hk1 | ⟨hkk, c', hc', hr⟩
      · rcases c4 k hk1 with hk0 | ⟨hkk0, hr0⟩
        · exact Or.inl hk0
        · exact Or.inr ⟨hkk0, c, List.mem_cons_self _ _, hr0⟩
      · refine Or.inr ⟨c9 k hkk, c', List.mem_cons_of_mem _ hc', ?_⟩
        exact Relation.ReflTransGen.mono (fun x y h => c8 x y h) hr
    · intro x hx
      have hx1 : x ∉ v1 := fun h => hx (F3 x h)
      rw [F5 x hx]
      exact c5 x hx1
    · intro x hx
      have hx1 : x ∈ v1 := c3 x hx
      rcases F6 x hx1 with h | h
      · rcases c6 x hx with h' | h'
        · exact Or.inl (by rw [h, h'])
        · exact Or.inr (by rw [h, h'])
      · exact Or.inr h
    · intro k p hk hnk hp
      by_cases hk1 : k ∈ v1
      · have hpane1 : Smap.find? s1 k = some (Tile.pane p) := by
          rcases F6 k hk1 with h | h
          · rw [h] at hp
            exact hp
          · rw [h] at hp
            exact Option.noConfusion hp
        exact c7 k p hk1 hnk hpane1
      · exact F7 k p hk hk1 hp
    · intro x y h
      exact c8 x y (F8 x y h)
    · intro k hk
      exact c9 k (F9 k hk)
    · intro x hx
      replace hx : x ∈ (if act = GcAction.keep
          then c :: (gcChildren (gcF retain f) v1 s1 cs).2.2
          else (gcChildren (gcF retain f) v1 s1 cs).2.2) := hx
      by_cases ha : act = .keep
      · rw [if_pos ha] at hx
        rcases List.mem_cons.mp hx with rfl | hx'
        · exact List.mem_cons_self _ _
        · exact List.mem_cons_of_mem _ (F10 x hx')
      · rw [if_neg ha] at hx
        exact List.mem_cons_of_mem _ (F10 x hx)

end TileTree

namespace TileTree

open Tiles

/-- Universal per-call facts for `gc_tile_id` on sorted arenas: the walk
preserves sortedness and never grows the arena, extends the visited set only
with keys reachable from the visited id, leaves unvisited ids untouched, at
most erases previously visited ids, reinserts a newly visited pane only when
retained, only removes edges, and never adds keys. -/
theorem gc_master (retain : Nat → Bool) :
    ∀ (f : Nat) (v : List Nat) (s : Arena) (id : Nat),
      Smap.Sorted s → Smap.size s < f →
      Smap.Sorted (gcF retain f v s id).1 ∧
      Smap.size (gcF retain f v s id).1 ≤ Smap.size s ∧
      (∀ x ∈ v, x ∈ (gcF retain f v s id).2.1) ∧
      (∀ k ∈ (gcF retain f v s id).2.1,
        k ∈ v ∨ (k ∈ Smap.keys s ∧ Reach s id k)) ∧
      (∀ x, x ∉ (gcF retain f v s id).2.1 →
        Smap.find? (gcF retain f v s id).1 x = Smap.find? s x) ∧
      (∀ x ∈ v, Smap.find? (gcF retain f v s id).1 x = Smap.find? s x ∨
        Smap.find? (gcF retain f v s id).1 x = none) ∧
      (∀ k p, k ∈ (gcF retain f v s id).2.1 → k ∉ v →
        Smap.find? (gcF retain f v s id).1 k = some (.pane p) →
        retain p = true) ∧
      (∀ a b, Edge (gcF retain f v s id).1 a b → Edge s a b) ∧
      (∀ k ∈ Smap.keys (gcF retain f v s id).1, k ∈ Smap.keys s) := by
  intro f
  induction f using Nat.strong_induction_on with
  | _ f ihf =>
    intro v s id hS hsz
    match f, hsz with
    | f + 1, hsz =>
      cases hfind : Smap.find? s id with
      | none =>
        rw [gcF_eq_missing retain f v s id hfind]
        exact ⟨hS, le_refl _, fun x hx => hx, fun k hk => Or.inl hk,
          fun x _ => rfl, fun x _ => Or.inl rfl,
          fun k p hk hnk _ => absurd hk hnk, fun a b h => h,
          fun k hk => hk⟩
      | some T =>
        by_cases hv : id ∈ v
        · rw [gcF_eq_visited retain f v s id hfind hv]
          refine ⟨hS.erase, ?_, fun x hx => hx, fun k hk => Or.inl hk,
            ?_, ?_, fun k p hk hnk _ => absurd hk hnk,
            fun a b h => edge_erase hS h,
            fun k hk => (Smap.keys_erase_sublist id s).mem hk⟩
          · show Smap.size (Smap.erase id s) ≤ Smap.size s
            have := Smap.size_erase_of_find? hfind
            omega
          · intro x hx
            exact Smap.find?_erase_ne _ _ _ (fun h => hx (h ▸ hv))
          · intro x hx
            by_cases hxid : x = id
            · subst hxid
              exact Or.inr (Smap.find?_erase_self hS)
            · exact Or.inl (Smap.find?_erase_ne _ _ _ hxid)
        · cases T with
          | pane p =>
            cases hret : retain p with
            | true =>
              rw [gcF_eq_pane_keep retain f v s id hfind hv hret,
                Smap.insert_erase_self hS hfind]
              refine ⟨hS, le_refl _, fun x hx => List.mem_cons_of_mem _ hx,
                ?_, fun x _ => rfl, fun x _ => Or.inl rfl, ?_,
                fun a b h => h, fun k hk => hk⟩
              · intro k hk
                rcases List.mem_cons.mp hk with rfl | hk'
                · exact Or.inr ⟨Smap.mem_keys_of_find? hfind,
                    Relation.ReflTransGen.refl⟩
                · exact Or.inl hk'
              · intro k q hk hnk hp
                rcases List.mem_cons.mp hk with rfl | hk'
                · rw [hfind] at hp
                  have := Tile.pane.inj (Option.some.inj hp)
                  rw [← this]
                  exact hret
                · exact absurd hk' hnk
            | false =>
              rw [gcF_eq_pane_drop retain f v s id hfind hv hret]
              refine ⟨hS.erase, ?_, fun x hx => List.mem_cons_of_mem _ hx,
                ?_, ?_, ?_, ?_, fun a b h => edge_erase hS h,
                fun k hk => (Smap.keys_erase_sublist id s).mem hk⟩
              · show Smap.size (Smap.erase id s) ≤ Smap.size s
                have := Smap.size_erase_of_find? hfind
                omega
              · intro k hk
                rcases List.mem_cons.mp hk with rfl | hk'
                · exact Or.inr ⟨Smap.mem_keys_of_find? hfind,
                    Relation.ReflTransGen.refl⟩
                · exact Or.inl hk'
              · intro x hx
                have hxid : x ≠ id := by
                  intro h
                  exact hx (h ▸ List.mem_cons_self _ _)
                exact Smap.find?_erase_ne _ _ _ hxid
              · intro x hx
                have hxid : x ≠ id := fun h => hv (h ▸ hx)
                exact Or.inl (Smap.find?_erase_ne _ _ _ hxid)
              · intro k q hk hnk hp
                rcases List.mem_cons.mp hk with rfl | hk'
                · rw [Smap.find?_erase_self hS] at hp
                  exact Option.noConfusion hp
                · exact absurd hk' hnk
          | container c =>
            rw [gcF_eq_container retain f v s id hfind hv]
            have hsz1 : Smap.size (Smap.erase id s) < f := by
              have := Smap.size_erase_of_find? hfind
              omega
            obtain ⟨F1, F2, F3, F4, F5, F6, F7, F8, F9, F10⟩ :=
              gc_fold retain f (ihf f (Nat.lt_succ_self f)) c.children
                (id :: v) (Smap.erase id s) hS.erase hsz1
            set G := gcChildren (gcF retain f) (id :: v) (Smap.erase id s)
              c.children with hG
            have hidout : Smap.find? G.1 id = none := by
              refine Smap.find?_eq_none_of_not_mem_keys ?_
              intro hm
              obtain ⟨a, ha⟩ := Smap.find?_isSome_of_mem_keys (F9 id hm)
              rw [Smap.find?_erase_self hS] at ha
              cases ha
            refine ⟨F1.insert, ?_, ?_, ?_, ?_, ?_, ?_, ?_, ?_⟩
            · show Smap.size (G.1.insert id
                (.container (c.withChildren G.2.2))) ≤ Smap.size s
              have h1 := Smap.size_insert_new hidout
                (Tile.container (c.withChildren G.2.2))
              have h2 := Smap.size_erase_of_find? hfind
              omega
            · intro x hx
              exact F3 x (List.mem_cons_of_mem _ hx)
            · intro k hk
              rcases F4 k hk with hk1 | ⟨hkk, c', hc', hr⟩
              · rcases List.mem_cons.mp hk1 with rfl | hk'
                · exact Or.inr ⟨Smap.mem_keys_of_find? hfind,
                    Relation.ReflTransGen.refl⟩
                · exact Or.inl hk'
              · refine Or.inr ⟨(Smap.keys_erase_sublist id s).mem hkk, ?_⟩
                refine Relation.ReflTransGen.head ⟨c, hfind, hc'⟩ ?_
                exact Relation.ReflTransGen.mono
                  (fun x y h => edge_erase hS h) hr
            · intro x hx
              have hx1 : x ∉ id :: v := fun h => hx (F3 x h)
              have hxid : x ≠ id := fun h => hx1 (h ▸ List.mem_cons_self _ _)
              rw [Smap.find?_insert, if_neg hxid, F5 x hx,
                Smap.find?_erase_ne _ _ _ hxid]
            · intro x hx
              have hxid : x ≠ id := fun h => hv (h ▸ hx)
              rw [Smap.find?_insert, if_neg hxid]
              rcases F6 x (List.mem_cons_of_mem _ hx) with h | h
              · rw [h, Smap.find?_erase_ne _ _ _ hxid]
                exact Or.inl rfl
              · exact Or.inr h
            · intro k q hk hnk hp
              by_cases hkid : k = id
              · rw [Smap.find?_insert, if_pos hkid] at hp
                exact Tile.noConfusion (Option.some.inj hp)
              · rw [Smap.find?_insert, if_neg hkid] at hp
                refine F7 k q hk ?_ hp
                intro hmem
                rcases List.mem_cons.mp hmem with h | h
                · exact hkid h
                · exact hnk h
            · intro a b h
              obtain ⟨C, hC, hb⟩ := h
              rw [Smap.find?_insert] at hC
              by_cases ha : a = id
              · rw [if_pos ha] at hC
                have hCc : Container.withChildren c G.2.2 = C :=
                  Tile.container.inj (Option.some.inj hC)
                rw [← hCc, Container.children_withChildren] at hb
                rw [ha]
                exact ⟨c, hfind, F10 b hb⟩
              · rw [if_neg ha] at hC
                exact edge_erase hS (F8 a b ⟨C, hC, hb⟩)
            · intro k hk
              rcases Smap.mem_keys_insert hk with rfl | hk'
              · exact Smap.mem_keys_of_find? hfind
              · exact (Smap.keys_erase_sublist id s).mem (F9 k hk')

end TileTree

namespace TileTree

open Tiles

/-- The per-child GC loop on a duplicate-free arena: every id reachable from
a listed child and present in the original arena gets visited; ids reachable
from no listed child are untouched; reachable containers survive with a kept
child list, reachable retained panes survive verbatim, and reachable
non-retained panes are removed. -/
theorem gc_tree_fold (retain : Nat → Bool) (s0 : Arena) (root : Nat)
    (HUE : ∀ k m m', Edge s0 m k → Edge s0 m' k → m = m')
    (HRE : ∀ m, ¬ Edge s0 m root) (f : Nat)
    (hIH : ∀ (v : List Nat) (s : Arena) (id : Nat),
      Smap.Sorted s → Smap.size s < f →
      (∀ x, x ∉ v → Smap.find? s x = Smap.find? s0 x) →
      (∀ a b, Edge s a b → Edge s0 a b) →
      Reach s0 root id →
      (∀ k, Reach s0 id k → k ∉ v) →
      (∀ k, Reach s0 id k → k ∈ Smap.keys s0 →
        k ∈ (gcF retain f v s id).2.1) ∧
      (∀ x, ¬ Reach s0 id x →
        Smap.find? (gcF retain f v s id).1 x = Smap.find? s x) ∧
      (∀ k C, Reach s0 id k → Smap.find? s0 k = some (.container C) →
        ∃ kept, Smap.find? (gcF retain f v s id).1 k
          = some (.container (C.withChildren kept))) ∧
      (∀ k p, Reach s0 id k → Smap.find? s0 k = some (.pane p) →
        retain p = true →
        Smap.find? (gcF retain f v s id).1 k = some (.pane p)) ∧
      (∀ k p, Reach s0 id k → Smap.find? s0 k = some (.pane p) →
        retain p = false →
        Smap.find? (gcF retain f v s id).1 k = none))
    (id0 : Nat) (C0 : Container) (hroot0 : Reach s0 root id0)
    (hpar : Smap.find? s0 id0 = some (.container C0)) :
    ∀ (cs : List Nat) (v : List Nat) (s : Arena),
      Smap.Sorted s → Smap.size s < f →
      (∀ x, x ∉ v → Smap.find? s x = Smap.find? s0 x) →
      (∀ a b, Edge s a b → Edge s0 a b) →
      (∀ c' ∈ cs, c' ∈ C0.children) →
      cs.Nodup →
      (∀ c' ∈ cs, ∀ k, Reach s0 c' k → k ∉ v) →
      (∀ c' ∈ cs, ∀ k, Reach s0 c' k → k ∈ Smap.keys s0 →
        k ∈ (gcChildren (gcF retain f) v s cs).2.1) ∧
      (∀ x, (∀ c' ∈ cs, ¬ Reach s0 c' x) →
        Smap.find? (gcChildren (gcF retain f) v s cs).1 x
          = Smap.find? s x) ∧
      (∀ c' ∈ cs, ∀ k C, Reach s0 c' k →
        Smap.find? s0 k = some (.container C) →
        ∃ kept, Smap.find? (gcChildren (gcF retain f) v s cs).1 k
          = some (.container (C.withChildren kept))) ∧
      (∀ c' ∈ cs, ∀ k p, Reach s0 c' k →
        Smap.find? s0 k = some (.pane p) → retain p = true →
        Smap.find? (gcChildren (gcF retain f) v s cs).1 k
          = some (.pane p)) ∧
      (∀ c' ∈ cs, ∀ k p, Reach s0 c' k →
        Smap.find? s0 k = some (.pane p) → retain p = false →
        Smap.find? (gcChildren (gcF retain f) v s cs).1 k = none) := by
  intro cs
  induction cs with
  | nil =>
    intro v s hS hsz _ _ _ _ _
    exact ⟨fun c' hc' => absurd hc' (List.not_mem_nil c'),
      fun x _ => rfl,
      fun c' hc' => absurd hc' (List.not_mem_nil c'),
      fun c' hc' => absurd hc' (List.not_mem_nil c'),
      fun c' hc' => absurd hc' (List.not_mem_nil c')⟩
  | cons c cs ih =>
    intro v s hS hsz hagree hedge hcs hnd hdisj
    obtain ⟨hcnot, hndcs⟩ := List.nodup_cons.mp hnd
    have hEc : Edge s0 id0 c := ⟨C0, hpar, hcs c (List.mem_cons_self _ _)⟩
    have hrootc : Reach s0 root c := Relation.ReflTransGen.tail hroot0 hEc
    obtain ⟨V1, V2, V3a, V3b, V3c⟩ := hIH v s c hS hsz hagree hedge hrootc
      (hdisj c (List.mem_cons_self _ _))
    obtain ⟨U1, U2, U3, U4, U5, U6, U7, U8, U9⟩ :=
      gc_master retain f v s c hS hsz
    rcases hres : gcF retain f v s c with ⟨s1, v1, act⟩
    rw [hres] at V1 V2 V3a V3b V3c U1 U2 U3 U4 U5 U6 U7 U8 U9
    replace U1 : Smap.Sorted s1 := U1
    replace U2 : Smap.size s1 ≤ Smap.size s := U2
    have hsib : ∀ c' ∈ cs, ∀ k, Reach s0 c' k → ¬ Reach s0 c k := by
      intro c' hc' k hk hkc
      have hcc' : c ≠ c' := fun h => hcnot (h ▸ hc')
      exact sib_disjoint s0 root HUE HRE hroot0 hpar
        (hcs c (List.mem_cons_self _ _))
        (hcs c' (List.mem_cons_of_mem _ hc')) hcc' hkc hk
    have hagree1 : ∀ x, x ∉ v1 → Smap.find? s1 x = Smap.find? s0 x := by
      intro x hx
      rw [U5 x hx]
      exact hagree x (fun h => hx (U3 x h))
    have hedge1 : ∀ a b, Edge s1 a b → Edge s0 a b :=
      fun a b h => hedge a b (U8 a b h)
    have hdisj1 : ∀ c' ∈ cs, ∀ k, Reach s0 c' k → k ∉ v1 := by
      intro c' hc' k hk hkv1
      rcases U4 k hkv1 with hkv | ⟨_, hrk⟩
      · exact hdisj c' (List.mem_cons_of_mem _ hc') k hk hkv
      · exact hsib c' hc' k hk
          (Relation.ReflTransGen.mono (fun a b h => hedge a b h) hrk)
    obtain ⟨A, B, Cc, D, E⟩ := ih v1 s1 U1 (lt_of_le_of_lt U2 hsz) hagree1
      hedge1 (fun c' hc' => hcs c' (List.mem_cons_of_mem _ hc')) hndcs
      hdisj1
    obtain ⟨_, _, G3, _, _, _, _, _, _, _⟩ :=
      gc_fold retain f (fun v' s' id' hS' hsz' =>
        gc_master retain f v' s' id' hS' hsz') cs v1 s1 U1
        (lt_of_le_of_lt U2 hsz)
    rw [gcChildren_cons (gcF retain f) v s c cs hres]
    refine ⟨?_, ?_, ?_, ?_, ?_⟩
    · intro c' hc' k hk hkk
      rcases List.mem_cons.mp hc' with rfl | hc''
      · exact G3 k (V1 k hk hkk)
      · exact A c' hc'' k hk hkk
    · intro x hx
      rw [B x (fun c' hc' => hx c' (List.mem_cons_of_mem _ hc'))]
      exact V2 x (hx c (List.mem_cons_self _ _))
    · intro c' hc' k C hk hC
      rcases List.mem_cons.mp hc' with rfl | hc''
      · obtain ⟨kept, hkept⟩ := V3a k C hk hC
        refine ⟨kept, ?_⟩
        rw [B k (fun c'' hc'' hrk => hsib c'' hc'' k hrk hk)]
        exact hkept
      · exact Cc c' hc'' k C hk hC
    · intro c' hc' k q hk hq hret
      rcases List.mem_cons.mp hc' with rfl | hc''
      · rw [B k (fun c'' hc'' hrk => hsib c'' hc'' k hrk hk)]
        exact V3b k q hk hq hret
      · exact D c' hc'' k q hk hq hret
    · intro c' hc' k q hk hq hret
      rcases List.mem_cons.mp hc' with rfl | hc''
      · rw [B k (fun c'' hc'' hrk => hsib c'' hc'' k hrk hk)]
        exact V3c k q hk hq hret
      · exact E c' hc'' k q hk hq hret

end TileTree

namespace TileTree

open Tiles

/-- Per-call completeness of GC on duplicate-free arenas (unique parents,
children lists duplicate-free, root unreferenced): every id reachable from
the visited id and present in the original arena gets visited; unreachable
ids are untouched; reachable containers survive with a kept child list;
reachable panes survive iff retained. -/
theorem gc_tree_master (retain : Nat → Bool) (s0 : Arena) (root : Nat)
    (HUE : ∀ k m m', Edge s0 m k → Edge s0 m' k → m = m')
    (HCN : ∀ m C, Smap.find? s0 m = some (.container C) →
      C.children.Nodup)
    (HRE : ∀ m, ¬ Edge s0 m root) :
    ∀ (f : Nat) (v : List Nat) (s : Arena) (id : Nat),
      Smap.Sorted s → Smap.size s < f →
      (∀ x, x ∉ v → Smap.find? s x = Smap.find? s0 x) →
      (∀ a b, Edge s a b → Edge s0 a b) →
      Reach s0 root id →
      (∀ k, Reach s0 id k → k ∉ v) →
      (∀ k, Reach s0 id k → k ∈ Smap.keys s0 →
        k ∈ (gcF retain f v s id).2.1) ∧
      (∀ x, ¬ Reach s0 id x →
        Smap.find? (gcF retain f v s id).1 x = Smap.find? s x) ∧
      (∀ k C, Reach s0 id k → Smap.find? s0 k = some (.container C) →
        ∃ kept, Smap.find? (gcF retain f v s id).1 k
          = some (.container (C.withChildren kept))) ∧
      (∀ k p, Reach s0 id k → Smap.find? s0 k = some (.pane p) →
        retain p = true →
        Smap.find? (gcF retain f v s id).1 k = some (.pane p)) ∧
      (∀ k p, Reach s0 id k → Smap.find? s0 k = some (.pane p) →
        retain p = false →
        Smap.find? (gcF retain f v s id).1 k = none) := by
  intro f
  induction f using Nat.strong_induction_on with
  | _ f ihf =>
    intro v s id hS hsz hagree hedge hroot hdisj
    match f, hsz with
    | f + 1, hsz =>
      have hid_nv : id ∉ v := hdisj id Relation.ReflTransGen.refl
      have hfind0 : Smap.find? s id = Smap.find? s0 id := hagree id hid_nv
      cases hfind : Smap.find? s0 id with
      | none =>
        have hfindS : Smap.find? s id = none := by rw [hfind0, hfind]
        have hstop : ∀ k, Reach s0 id k → k = id := fun k hk =>
          reach_stop hk (fun C h => by
            rw [hfind] at h
            exact Option.noConfusion h)
        rw [gcF_eq_missing retain f v s id hfindS]
        refine ⟨?_, fun x _ => rfl, ?_, ?_, ?_⟩
        · intro k hk hkk
          rw [hstop k hk] at hkk
          obtain ⟨a, ha⟩ := Smap.find?_isSome_of_mem_keys hkk
          rw [hfind] at ha
          exact Option.noConfusion ha
        · intro k C hk hC
          rw [hstop k hk, hfind] at hC
          exact Option.noConfusion hC
        · intro k q hk hq _
          rw [hstop k hk, hfind] at hq
          exact Option.noConfusion hq
        · intro k q hk hq _
          rw [hstop k hk, hfind] at hq
          exact Option.noConfusion hq
      | some T =>
        cases T with
        | pane p =>
          have hfindS : Smap.find? s id = some (Tile.pane p) := by
            rw [hfind0, hfind]
          have hstop : ∀ k, Reach s0 id k → k = id := fun k hk =>
            reach_stop hk (fun C h => by
              rw [hfind] at h
              exact Tile.noConfusion (Option.some.inj h))
          cases hret : retain p with
          | true =>
            rw [gcF_eq_pane_keep retain f v s id hfindS hid_nv hret,
              Smap.insert_erase_self hS hfindS]
            refine ⟨?_, fun x _ => rfl, ?_, ?_, ?_⟩
            · intro k hk _
              rw [hstop k hk]
              exact List.mem_cons_self _ _
            · intro k C hk hC
              rw [hstop k hk, hfind] at hC
              exact Tile.noConfusion (Option.some.inj hC)
            · intro k q hk hq _
              have hkid := hstop k hk
              subst hkid
              rw [hfind] at hq
              have hpq := Tile.pane.inj (Option.some.inj hq)
              rw [hfindS, hpq]
            · intro k q hk hq hretq
              have hkid := hstop k hk
              subst hkid
              rw [hfind] at hq
              have hpq := Tile.pane.inj (Option.some.inj hq)
              rw [← hpq] at hretq
              rw [hretq] at hret
              exact Bool.noConfusion hret
          | false =>
            rw [gcF_eq_pane_drop retain f v s id hfindS hid_nv hret]
            refine ⟨?_, ?_, ?_, ?_, ?_⟩
            · intro k hk _
              rw [hstop k hk]
              exact List.mem_cons_self _ _
            · intro x hx
              have hxid : x ≠ id :=
                fun h => hx (h ▸ Relation.ReflTransGen.refl)
              exact Smap.find?_erase_ne _ _ _ hxid
            · intro k C hk hC
              rw [hstop k hk, hfind] at hC
              exact Tile.noConfusion (Option.some.inj hC)
            · intro k q hk hq hretq
              have hkid := hstop k hk
              subst hkid
              rw [hfind] at hq
              have hpq := Tile.pane.inj (Option.some.inj hq)
              rw [← hpq] at hretq
              rw [hretq] at hret
              exact Bool.noConfusion hret
            · intro k q hk hq _
              have hkid := hstop k hk
              subst hkid
              exact Smap.find?_erase_self hS
        | container c =>
          have hfindS : Smap.find? s id = some (.container c) := by
            rw [hfind0, hfind]
          rw [gcF_eq_container retain f v s id hfindS hid_nv]
          have hsz1 : Smap.size (Smap.erase id s) < f := by
            have := Smap.size_erase_of_find? hfindS
            omega
          have hagree1 : ∀ x, x ∉ id :: v →
              Smap.find? (Smap.erase id s) x = Smap.find? s0 x := by
            intro x hx
            have hxid : x ≠ id :=
              fun h => hx (h ▸ List.mem_cons_self _ _)
            rw [Smap.find?_erase_ne _ _ _ hxid]
            exact hagree x (fun h => hx (List.mem_cons_of_mem _ h))
          have hedge1 : ∀ a b, Edge (Smap.erase id s) a b → Edge s0 a b :=
            fun a b h => hedge a b (edge_erase hS h)
          have hdisj1 : ∀ c' ∈ c.children, ∀ k, Reach s0 c' k →
              k ∉ id :: v := by
            intro c' hc' k hk hkv
            rcases List.mem_cons.mp hkv with rfl | hkv'
            · exact no_cycle s0 root HUE HRE hroot ⟨c, hfind, hc'⟩ hk
            · exact hdisj k
                (Relation.ReflTransGen.head ⟨c, hfind, hc'⟩ hk) hkv'
          obtain ⟨A, B, Cc, D, E⟩ := gc_tree_fold retain s0 root HUE HRE f
            (ihf f (Nat.lt_succ_self f)) id c hroot hfind c.children
            (id :: v) (Smap.erase id s) hS.erase hsz1 hagree1 hedge1
            (fun c' h => h) (HCN id c hfind) hdisj1
          obtain ⟨_, _, G3, _, _, _, _, _, _, _⟩ :=
            gc_fold retain f (fun v' s' id' hS' hsz' =>
              gc_master retain f v' s' id' hS' hsz') c.children (id :: v)
              (Smap.erase id s) hS.erase hsz1
          refine ⟨?_, ?_, ?_, ?_, ?_⟩
          · intro k hk hkk
            by_cases hkid : k = id
            · subst hkid
              exact G3 k (List.mem_cons_self _ _)
            · rcases Relation.ReflTransGen.cases_head hk with h | ⟨x, hx, hxk⟩
              · exact absurd h.symm hkid
              · obtain ⟨C', hC', hxmem⟩ := hx
                rw [hfind] at hC'
                have hcC' : c = C' := Tile.container.inj (Option.some.inj hC')
                exact A x (hcC' ▸ hxmem) k hxk hkk
          · intro x hx
            have hxid : x ≠ id :=
              fun h => hx (h ▸ Relation.ReflTransGen.refl)
            rw [Smap.find?_insert, if_neg hxid]
            have hBx : ∀ c' ∈ c.children, ¬ Reach s0 c' x := by
              intro c' hc' hr
              exact hx (Relation.ReflTransGen.head ⟨c, hfind, hc'⟩ hr)
            rw [B x hBx]
            exact Smap.find?_erase_ne _ _ _ hxid
          · intro k C hk hC
            by_cases hkid : k = id
            · subst hkid
              rw [hfind] at hC
              have hcC : c = C := Tile.container.inj (Option.some.inj hC)
              refine ⟨(gcChildren (gcF retain f) (k :: v)
                (Smap.erase k s) c.children).2.2, ?_⟩
              rw [Smap.find?_insert, if_pos rfl, ← hcC]
            · rcases Relation.ReflTransGen.cases_head hk with h | ⟨x, hx, hxk⟩
              · exact absurd h.symm hkid
              · obtain ⟨C', hC', hxmem⟩ := hx
                rw [hfind] at hC'
                have hcC' : c = C' := Tile.container.inj (Option.some.inj hC')
                obtain ⟨kept, hkept⟩ := Cc x (hcC' ▸ hxmem) k C hxk hC
                refine ⟨kept, ?_⟩
                rw [Smap.find?_insert, if_neg hkid]
                exact hkept
          · intro k q hk hq hret
            by_cases hkid : k = id
            · rw [hkid, hfind] at hq
              exact Tile.noConfusion (Option.some.inj hq)
            · rcases Relation.ReflTransGen.cases_head hk with h | ⟨x, hx, hxk⟩
              · exact absurd h.symm hkid
              · obtain ⟨C', hC', hxmem⟩ := hx
                rw [hfind] at hC'
                have hcC' : c = C' := Tile.container.inj (Option.some.inj hC')
                rw [Smap.find?_insert, if_neg hkid]
                exact D x (hcC' ▸ hxmem) k q hxk hq hret
          · intro k q hk hq hret
            by_cases hkid : k = id
            · rw [hkid, hfind] at hq
              exact Tile.noConfusion (Option.some.inj hq)
            · rcases Relation.ReflTransGen.cases_head hk with h | ⟨x, hx, hxk⟩
              · exact absurd h.symm hkid
              · obtain ⟨C', hC', hxmem⟩ := hx
                rw [hfind] at hC'
                have hcC' : c = C' := Tile.container.inj (Option.some.inj hC')
                rw [Smap.find?_insert, if_neg hkid]
                exact E x (hcC' ▸ hxmem) k q hxk hq hret

end TileTree

namespace TileTree

open Tiles

/-- Claim C3, counterexample: a duplicate child reference makes `gc_root`
drop a reachable, retained tile.  Tabs tile 1 lists pane 2 twice; the second
visit of id 2 finds it already in the visited set, erases it and returns
Remove without reinsertion, so the result lacks pane 2 even though it is
reachable from the root and `retain_pane` keeps everything — the key set is
not the reachable-retained set. -/
theorem C3_counterexample :
    gc_root (fun _ => true)
      [(1, Tile.container (.tabs ⟨[2, 2], 2⟩)), (2, Tile.pane 0)] 1
      = [(1, Tile.container (.tabs ⟨[2], 2⟩))] ∧
    Reach [(1, Tile.container (.tabs ⟨[2, 2], 2⟩)), (2, Tile.pane 0)] 1 2 ∧
    Smap.find? [(1, Tile.container (.tabs ⟨[2, 2], 2⟩)), (2, Tile.pane 0)] 2
      = some (Tile.pane 0) ∧
    Smap.find? (gc_root (fun _ => true)
      [(1, Tile.container (.tabs ⟨[2, 2], 2⟩)), (2, Tile.pane 0)] 1) 2
      = none := by
  refine ⟨by decide, ?_, by decide, by decide⟩
  exact Relation.ReflTransGen.single ⟨.tabs ⟨[2, 2], 2⟩, rfl, by decide⟩

/-- Claim C3, amended: (soundness, for every arena) after `gc_root` every
remaining id was a key of the input arena and is reachable from the root by
following container children, and every remaining pane is retained; (key-set
equality) when the arena has no duplicate child references and nothing
references the root — so the reference structure is a forest — the remaining
key set is exactly the set of ids that were keys, are reachable from the
root, and hold no non-retained pane.  With duplicate or cyclic references
the equality can fail: a second visit of an already-kept id erases it
without reinsertion. -/
theorem C3_amended_gc_reachability :
    (∀ (retain : Nat → Bool) (s : Arena) (root : Nat),
      Smap.Sorted s →
      (∀ k ∈ Smap.keys (gc_root retain s root),
        k ∈ Smap.keys s ∧ Reach s root k) ∧
      (∀ k p, Smap.find? (gc_root retain s root) k = some (.pane p) →
        retain p = true)) ∧
    (∀ (retain : Nat → Bool) (s : Arena) (root : Nat),
      Smap.Sorted s →
      (allRefs s).Nodup →
      root ∉ allRefs s →
      ∀ k, k ∈ Smap.keys (gc_root retain s root) ↔
        (k ∈ Smap.keys s ∧ Reach s root k ∧
          ∀ p, Smap.find? s k = some (.pane p) → retain p = true)) := by
  have hgc : ∀ (retain : Nat → Bool) (s : Arena) (root : Nat),
      gc_root retain s root
        = (gcF retain (Smap.size s + 1) [] s root).1.filter
            (fun e => (gcF retain (Smap.size s + 1) [] s root).2.1.contains
              e.1) :=
    fun retain s root => rfl
  constructor
  · intro retain s root hS
    obtain ⟨U1, U2, U3, U4, U5, U6, U7, U8, U9⟩ :=
      gc_master retain (Smap.size s + 1) [] s root hS (Nat.lt_succ_self _)
    have hmem : ∀ k T, Smap.find? (gc_root retain s root) k = some T →
        Smap.find? (gcF retain (Smap.size s + 1) [] s root).1 k = some T ∧
        k ∈ (gcF retain (Smap.size s + 1) [] s root).2.1 := by
      intro k T hT
      rw [hgc, Smap.find?_filter U1] at hT
      cases hfind1 : Smap.find? (gcF retain (Smap.size s + 1) [] s
          root).1 k with
      | none =>
        rw [hfind1] at hT
        exact Option.noConfusion hT
      | some T' =>
        rw [hfind1] at hT
        replace hT : (if ((gcF retain (Smap.size s + 1) [] s
            root).2.1.contains k) = true then some T' else none)
            = some T := hT
        by_cases hc : ((gcF retain (Smap.size s + 1) [] s
            root).2.1.contains k) = true
        · rw [if_pos hc] at hT
          exact ⟨hT, List.mem_of_elem_eq_true hc⟩
        · rw [if_neg hc] at hT
          exact Option.noConfusion hT
    constructor
    · intro k hk
      obtain ⟨a, ha⟩ := Smap.find?_isSome_of_mem_keys hk
      obtain ⟨_, hv⟩ := hmem k a ha
      rcases U4 k hv with h | ⟨h1, h2⟩
      · exact absurd h (List.not_mem_nil k)
      · exact ⟨h1, h2⟩
    · intro k p hp
      obtain ⟨hfind1, hv⟩ := hmem k (.pane p) hp
      exact U7 k p hv (List.not_mem_nil k) hfind1
  · intro retain s root hS hnd hroot
    have HUE := unique_parent hnd hS
    have HCN : ∀ m C, Smap.find? s m = some (.container C) →
        C.children.Nodup :=
      fun m C h => children_nodup hnd (Smap.find?_mem h)
    have HRE := root_no_edge hroot
    obtain ⟨U1, U2, U3, U4, U5, U6, U7, U8, U9⟩ :=
      gc_master retain (Smap.size s + 1) [] s root hS (Nat.lt_succ_self _)
    obtain ⟨V1, V2, V3a, V3b, V3c⟩ :=
      gc_tree_master retain s root HUE HCN HRE (Smap.size s + 1) [] s root
        hS (Nat.lt_succ_self _) (fun x _ => rfl) (fun a b h => h)
        Relation.ReflTransGen.refl (fun k _ => List.not_mem_nil k)
    intro k
    constructor
    · intro hk
      obtain ⟨a, ha⟩ := Smap.find?_isSome_of_mem_keys hk
      have ha' := ha
      rw [hgc, Smap.find?_filter U1] at ha'
      cases hfind1 : Smap.find? (gcF retain (Smap.size s + 1) [] s
          root).1 k with
      | none =>
        rw [hfind1] at ha'
        exact Option.noConfusion ha'
      | some T' =>
        rw [hfind1] at ha'
        replace ha' : (if ((gcF retain (Smap.size s + 1) [] s
            root).2.1.contains k) = true then some T' else none)
            = some a := ha'
        by_cases hc : ((gcF retain (Smap.size s + 1) [] s
            root).2.1.contains k) = true
        · have hv := List.mem_of_elem_eq_true hc
          rcases U4 k hv with h | ⟨h1, h2⟩
          · exact absurd h (List.not_mem_nil k)
          · refine ⟨h1, h2, ?_⟩
            intro p hpane
            cases hret : retain p with
            | true => rfl
            | false =>
              have := V3c k p h2 hpane hret
              rw [this] at hfind1
              exact Option.noConfusion hfind1
        · rw [if_neg hc] at ha'
          exact Option.noConfusion ha'
    · intro ⟨hkk, hr, hpane⟩
      have hv : k ∈ (gcF retain (Smap.size s + 1) [] s root).2.1 :=
        V1 k hr hkk
      have hpres : ∃ T, Smap.find? (gcF retain (Smap.size s + 1) [] s
          root).1 k = some T := by
        obtain ⟨a, ha⟩ := Smap.find?_isSome_of_mem_keys hkk
        cases a with
        | pane p =>
          exact ⟨.pane p, V3b k p hr ha (hpane p ha)⟩
        | container C =>
          obtain ⟨kept, hkept⟩ := V3a k C hr ha
          exact ⟨.container (C.withChildren kept), hkept⟩
      obtain ⟨T, hT⟩ := hpres
      have hfinal : Smap.find? (gc_root retain s root) k = some T := by
        rw [hgc, Smap.find?_filter U1, hT]
        show (if ((gcF retain (Smap.size s + 1) [] s root).2.1.contains k)
            = true then some T else none) = some T
        rw [if_pos (show ((gcF retain (Smap.size s + 1) [] s
            root).2.1.contains k) = true
          from List.elem_eq_true_of_mem hv)]
      exact Smap.mem_keys_of_find? hfinal

/-- Claim C3, amended, witness: on a concrete duplicate-free arena (tabs
root over two panes, one not retained) the retained pane 2 survives, pane 3
is collected, and soundness reports pane 2 as reachable from the root. -/
theorem C3_amended_gc_reachability_witness :
    (2 ∈ Smap.keys [(1, Tile.container (.tabs ⟨[2, 3], 2⟩)),
        (2, Tile.pane 0), (3, Tile.pane 5)] ∧
      Reach [(1, Tile.container (.tabs ⟨[2, 3], 2⟩)), (2, Tile.pane 0),
        (3, Tile.pane 5)] 1 2) ∧
    2 ∈ Smap.keys (gc_root (fun p => decide (p = 0))
      [(1, Tile.container (.tabs ⟨[2, 3], 2⟩)), (2, Tile.pane 0),
       (3, Tile.pane 5)] 1) :=
  ⟨(C3_amended_gc_reachability.1 (fun p => decide (p = 0))
      [(1, Tile.container (.tabs ⟨[2, 3], 2⟩)), (2, Tile.pane 0),
       (3, Tile.pane 5)] 1 (by decide)).1 2 (by decide),
    ((C3_amended_gc_reachability.2 (fun p => decide (p = 0))
      [(1, Tile.container (.tabs ⟨[2, 3], 2⟩)), (2, Tile.pane 0),
       (3, Tile.pane 5)] 1 (by decide) (by decide) (by decide) 2).mpr
      ⟨by decide,
        Relation.ReflTransGen.single ⟨.tabs ⟨[2, 3], 2⟩, rfl, by decide⟩,
        fun p hp => by
          replace hp : (some (Tile.pane 0) : Option Tile)
              = some (Tile.pane p) := hp
          cases Tile.pane.inj (Option.some.inj hp)
          decide⟩)⟩

end TileTree

namespace TileTree

open Tiles

theorem bnot_eq_true {b : Bool} (h : ¬ b = true) : b = false := by
  cases b
  · rfl
  · exact absurd rfl h

/-- The simplify policy prefers Keep on this tile: none of the pruning rules
enabled in the options fires on it (for a single-child Tabs, the sole child
resolving to a pane under `all_panes_must_have_tabs` keeps the wrapper). -/
def policyKeep (o : SimplificationOptions) (s : Arena) : Tile → Prop
  | .pane _ => True
  | .container c =>
    (c.layout = Layout.tabs →
      (o.prune_empty_tabs && c.isEmpty) = false ∧
      ((o.prune_single_child_tabs && (c.children.length == 1)) = true →
        (o.all_panes_must_have_tabs
          && isPaneIn s (c.children.headD 0)) = true)) ∧
    (c.layout ≠ Layout.tabs →
      (o.prune_empty_layouts && c.isEmpty) = false ∧
      (o.prune_single_child_layouts && (c.children.length == 1)) = false)

/-- The subtree rooted at an id is fully simplified: every reachable id is
present and the policy keeps its tile. -/
def StableAt (o : SimplificationOptions) (s : Arena) (it : Nat) : Prop :=
  ∀ k, Reach s it k → ∃ T, Smap.find? s k = some T ∧ policyKeep o s T

/-- The subtree rooted at an id has no cycles: no reachable node has an edge
starting a path back to itself. -/
def NoRev (s : Arena) (it : Nat) : Prop :=
  ∀ k k', Reach s it k → Edge s k k' → ¬ Reach s k' k

theorem StableAt_inherit {o : SimplificationOptions} {s : Arena}
    {x y : Nat} (h : StableAt o s x) (hxy : Reach s x y) :
    StableAt o s y :=
  fun k hyk => h k (hxy.trans hyk)

theorem NoRev_inherit {s : Arena} {x y : Nat} (h : NoRev s x)
    (hxy : Reach s x y) : NoRev s y :=
  fun k k' hyk he hr => h k k' (hxy.trans hyk) he hr

theorem isPath_agree {s s' : Arena} {x : Nat}
    (hagree : ∀ k, Reach s x k → Smap.find? s' k = Smap.find? s k) :
    ∀ (l : List Nat) (a k : Nat), Reach s x a → IsPath s' a l k →
      Reach s x k := by
  intro l
  induction l with
  | nil =>
    intro a k ha h
    exact h ▸ ha
  | cons c t ih =>
    intro a k ha h
    obtain ⟨C, hC, hc⟩ := h.1
    rw [hagree a ha] at hC
    exact ih c k (ha.tail ⟨C, hC, hc⟩) h.2

/-- Reachability in an arena agreeing on the region is no larger. -/
theorem reach_agree {s s' : Arena} {x : Nat}
    (hagree : ∀ k, Reach s x k → Smap.find? s' k = Smap.find? s k)
    {k : Nat} (h : Reach s' x k) : Reach s x k := by
  obtain ⟨l, hl⟩ := isPath_of_reach h
  exact isPath_agree hagree l x k Relation.ReflTransGen.refl hl

theorem isPath_agree_mono {s s' : Arena} {x : Nat}
    (hagree : ∀ k, Reach s x k → Smap.find? s' k = Smap.find? s k) :
    ∀ (l : List Nat) (a k : Nat), Reach s x a → IsPath s a l k →
      IsPath s' a l k := by
  intro l
  induction l with
  | nil => intro a k _ h; exact h
  | cons c t ih =>
    intro a k ha h
    obtain ⟨C, hC, hc⟩ := h.1
    refine ⟨⟨C, ?_, hc⟩, ih c k (ha.tail ⟨C, hC, hc⟩) h.2⟩
    rw [hagree a ha]
    exact hC

/-- Reachability in an arena agreeing on the region is no smaller. -/
theorem reach_agree_mono {s s' : Arena} {x : Nat}
    (hagree : ∀ k, Reach s x k → Smap.find? s' k = Smap.find? s k)
    {k : Nat} (h : Reach s x k) : Reach s' x k := by
  obtain ⟨l, hl⟩ := isPath_of_reach h
  exact reach_of_isPath
    (isPath_agree_mono hagree l x k Relation.ReflTransGen.refl hl)

theorem policyKeep_local (o : SimplificationOptions) {s s' : Arena}
    {T : Tile}
    (hagree : ∀ y ∈ tileRefs T, Smap.find? s' y = Smap.find? s y)
    (h : policyKeep o s T) : policyKeep o s' T := by
  cases T with
  | pane p => trivial
  | container c =>
    obtain ⟨h1, h2⟩ := h
    refine ⟨?_, h2⟩
    intro hlay
    obtain ⟨ha, hb⟩ := h1 hlay
    refine ⟨ha, ?_⟩
    intro hsc
    have hlen : (c.children.length == 1) = true :=
      (Bool.and_eq_true _ _).mp hsc |>.2
    obtain ⟨y, hy⟩ := List.length_eq_one.mp (by simpa using hlen)
    have hmem : c.children.headD 0 ∈ c.children := by
      rw [hy]
      exact List.mem_singleton.mpr rfl
    have hfy := hagree (c.children.headD 0) hmem
    have hiso : isPaneIn s' (c.children.headD 0)
        = isPaneIn s (c.children.headD 0) := by
      unfold isPaneIn Tiles.get
      rw [hfy]
    rw [hiso]
    exact hb hsc

/-- Stability and cycle-freedom transfer along region agreement. -/
theorem stable_transfer (o : SimplificationOptions) {s s' : Arena} {x : Nat}
    (hst : StableAt o s x) (hnr : NoRev s x)
    (hagree : ∀ k, Reach s x k → Smap.find? s' k = Smap.find? s k) :
    StableAt o s' x ∧ NoRev s' x := by
  constructor
  · intro k hk
    have hk' := reach_agree hagree hk
    obtain ⟨T, hT, hP⟩ := hst k hk'
    refine ⟨T, by rw [hagree k hk']; exact hT, ?_⟩
    cases T with
    | pane p => trivial
    | container c =>
      refine policyKeep_local o ?_ hP
      intro y hy
      exact hagree y (hk'.tail ⟨c, hT, hy⟩)
  · intro k k' hk he hr
    have hkx := reach_agree hagree hk
    obtain ⟨C, hC, hc⟩ := he
    rw [hagree k hkx] at hC
    have hk'x : Reach s x k' := hkx.tail ⟨C, hC, hc⟩
    refine hnr k k' hkx ⟨C, hC, hc⟩ ?_
    exact reach_agree (fun q hq => hagree q (hk'x.trans hq)) hr

/-- Erasing an id outside the region preserves stability. -/
theorem stable_erase_out (o : SimplificationOptions) {s : Arena}
    {x it : Nat} (hst : StableAt o s x) (hnr : NoRev s x)
    (hnit : ¬ Reach s x it) :
    StableAt o (Smap.erase it s) x ∧ NoRev (Smap.erase it s) x := by
  refine stable_transfer o hst hnr ?_
  intro k hk
  exact Smap.find?_erase_ne _ _ _ (fun h => hnit (h ▸ hk))

/-- Inserting at an id absent from the arena preserves stability. -/
theorem stable_insert_out (o : SimplificationOptions) {s : Arena}
    {x it : Nat} {T : Tile} (hst : StableAt o s x) (hnr : NoRev s x)
    (habs : Smap.find? s it = none) :
    StableAt o (Smap.insert it T s) x ∧ NoRev (Smap.insert it T s) x := by
  refine stable_transfer o hst hnr ?_
  intro k hk
  obtain ⟨T', hT', _⟩ := hst k hk
  have hkit : k ≠ it := by
    intro h
    rw [h, habs] at hT'
    exact Option.noConfusion hT'
  rw [Smap.find?_insert, if_neg hkit]

end TileTree

namespace TileTree

open Tiles

theorem withChildren_self (c : Container) :
    c.withChildren c.children = c := by
  cases c <;> rfl

theorem simplifyF_eq_missing (o : SimplificationOptions) (f : Nat)
    (s : Arena) (it : Nat) (h : Smap.find? s it = none) :
    simplifyF o (f + 1) s it = (s, .remove) := by
  unfold simplifyF
  rw [h]

theorem simplifyF_eq_pane (o : SimplificationOptions) (f : Nat) (s : Arena)
    (it : Nat) {p : Nat} (h : Smap.find? s it = some (.pane p)) :
    simplifyF o (f + 1) s it
      = ((Smap.erase it s).insert it (.pane p), .keep) := by
  unfold simplifyF
  rw [h]

theorem simplifyF_eq_container (o : SimplificationOptions) (f : Nat)
    (s : Arena) (it : Nat) {c : Container}
    (h : Smap.find? s it = some (.container c)) :
    simplifyF o (f + 1) s it
      = simplifyPolicy o it
          (c.withChildren
            (simpChildren (simplifyF o f) (Smap.erase it s) c.children).2)
          (simpChildren (simplifyF o f) (Smap.erase it s) c.children).1 := by
  unfold simplifyF
  rw [h]

/-- Full case analysis of the pruning policy: Keep reinserts the tile and
certifies `policyKeep`; Remove returns the bare arena; Replace returns the
sole child. -/
theorem simplifyPolicy_cases (o : SimplificationOptions) (it : Nat)
    (c1 : Container) (s1 : Arena) :
    (simplifyPolicy o it c1 s1
        = (Smap.insert it (.container c1) s1, .keep) ∧
      policyKeep o s1 (.container c1)) ∨
    simplifyPolicy o it c1 s1 = (s1, .remove) ∨
    (∃ r, simplifyPolicy o it c1 s1 = (s1, .replace r) ∧
      c1.children = [r]) := by
  have hsingle : ∀ (b : Bool),
      (b && (c1.children.length == 1)) = true →
      c1.children = [c1.children.headD 0] := by
    intro b hb
    have hlen : (c1.children.length == 1) = true :=
      ((Bool.and_eq_true _ _).mp hb).2
    obtain ⟨y, hy⟩ := List.length_eq_one.mp (by simpa using hlen)
    rw [hy]
    rfl
  unfold simplifyPolicy
  split_ifs with h1 h2 h3 h4 h5 h6
  · exact Or.inr (Or.inl rfl)
  · refine Or.inl ⟨rfl, ?_, ?_⟩
    · intro _
      exact ⟨bnot_eq_true h2, fun _ => h4⟩
    · intro hlay
      exact absurd h1 hlay
  · exact Or.inr (Or.inr ⟨c1.children.headD 0, rfl, hsingle _ h3⟩)
  · refine Or.inl ⟨rfl, ?_, ?_⟩
    · intro _
      exact ⟨bnot_eq_true h2, fun h => absurd h h3⟩
    · intro hlay
      exact absurd h1 hlay
  · exact Or.inr (Or.inl rfl)
  · exact Or.inr (Or.inr ⟨c1.children.headD 0, rfl, hsingle _ h6⟩)
  · refine Or.inl ⟨rfl, ?_, ?_⟩
    · intro hlay
      exact absurd hlay h1
    · intro _
      exact ⟨bnot_eq_true h5, bnot_eq_true h6⟩

/-- `policyKeep` forces the Keep branch of the policy. -/
theorem simplifyPolicy_of_keep (o : SimplificationOptions) (it : Nat)
    (c1 : Container) (s1 : Arena)
    (h : policyKeep o s1 (.container c1)) :
    simplifyPolicy o it c1 s1
      = (Smap.insert it (.container c1) s1, .keep) := by
  obtain ⟨h1, h2⟩ := h
  unfold simplifyPolicy
  split_ifs with ha hb hc hd hf hg
  · exact absurd hb (by rw [(h1 ha).1]; exact Bool.false_ne_true)
  · rfl
  · exact absurd ((h1 ha).2 hc) hd
  · rfl
  · exact absurd hf (by rw [(h2 ha).1]; exact Bool.false_ne_true)
  · exact absurd hg (by rw [(h2 ha).2]; exact Bool.false_ne_true)
  · rfl

/-- A child loop whose calls are all identities returns the arena and the
child list unchanged. -/
theorem simpChildren_id (g : Arena → Nat → Arena × SimplifyAction)
    (s : Arena) :
    ∀ cs : List Nat, (∀ c' ∈ cs, g s c' = (s, .keep)) →
      simpChildren g s cs = (s, cs) := by
  intro cs
  induction cs with
  | nil => intro _; rfl
  | cons c cs ih =>
    intro h
    have hc := h c (List.mem_cons_self _ _)
    have hrest := ih (fun c' hc' => h c' (List.mem_cons_of_mem _ hc'))
    simp only [simpChildren]
    rw [hc]
    show ((simpChildren g s cs).1, c :: (simpChildren g s cs).2)
      = (s, c :: cs)
    rw [hrest]

end TileTree

namespace TileTree

open Tiles

/-- Running simplify on a fully simplified, cycle-free subtree is the
identity and returns Keep. -/
theorem stable_run_id (o : SimplificationOptions) :
    ∀ (f : Nat) (s : Arena) (it : Nat),
      Smap.Sorted s → Smap.size s < f →
      StableAt o s it → NoRev s it →
      simplifyF o f s it = (s, .keep) := by
  intro f
  induction f using Nat.strong_induction_on with
  | _ f ihf =>
    intro s it hS hsz hst hnr
    match f, hsz with
    | f + 1, hsz =>
      obtain ⟨T, hT, hP⟩ := hst it Relation.ReflTransGen.refl
      cases T with
      | pane p =>
        rw [simplifyF_eq_pane o f s it hT, Smap.insert_erase_self hS hT]
      | container c =>
        have hnchild : it ∉ c.children := by
          intro h
          exact hnr it it Relation.ReflTransGen.refl ⟨c, hT, h⟩
            Relation.ReflTransGen.refl
        have hchild : ∀ c' ∈ c.children,
            simplifyF o f (Smap.erase it s) c'
              = (Smap.erase it s, .keep) := by
          intro c' hc'
          have hE : Edge s it c' := ⟨c, hT, hc'⟩
          have hR : Reach s it c' := Relation.ReflTransGen.single hE
          have hnit : ¬ Reach s c' it :=
            hnr it c' Relation.ReflTransGen.refl hE
          obtain ⟨hst'', hnr''⟩ := stable_erase_out o
            (StableAt_inherit hst hR) (NoRev_inherit hnr hR) hnit
          have hsz' : Smap.size (Smap.erase it s) < f := by
            have := Smap.size_erase_of_find? hT
            omega
          exact ihf f (Nat.lt_succ_self f) (Smap.erase it s) c' hS.erase
            hsz' hst'' hnr''
        rw [simplifyF_eq_container o f s it hT,
          simpChildren_id (simplifyF o f) (Smap.erase it s) c.children
            hchild]
        show simplifyPolicy o it (c.withChildren c.children)
          (Smap.erase it s) = (s, .keep)
        rw [withChildren_self]
        have hPe : policyKeep o (Smap.erase it s) (.container c) := by
          refine policyKeep_local o ?_ hP
          intro y hy
          have hyne : y ≠ it := fun h => hnchild (h ▸ hy)
          exact Smap.find?_erase_ne _ _ _ hyne
        rw [simplifyPolicy_of_keep o it c (Smap.erase it s) hPe,
          Smap.insert_erase_self hS hT]

end TileTree

namespace TileTree

open Tiles

theorem simpChildren_cons_keep
    (g : Arena → Nat → Arena × SimplifyAction) (s : Arena) (c : Nat)
    (cs : List Nat) {s1 : Arena} (hres : g s c = (s1, .keep)) :
    simpChildren g s (c :: cs)
      = ((simpChildren g s1 cs).1, c :: (simpChildren g s1 cs).2) := by
  simp only [simpChildren]
  rw [hres]

theorem simpChildren_cons_remove
    (g : Arena → Nat → Arena × SimplifyAction) (s : Arena) (c : Nat)
    (cs : List Nat) {s1 : Arena} (hres : g s c = (s1, .remove)) :
    simpChildren g s (c :: cs) = simpChildren g s1 cs := by
  simp only [simpChildren]
  rw [hres]

theorem simpChildren_cons_replace
    (g : Arena → Nat → Arena × SimplifyAction) (s : Arena) (c : Nat)
    (cs : List Nat) {s1 : Arena} {r : Nat}
    (hres : g s c = (s1, .replace r)) :
    simpChildren g s (c :: cs)
      = ((simpChildren g s1 cs).1, r :: (simpChildren g s1 cs).2) := by
  simp only [simpChildren]
  rw [hres]

/-- The simplify child loop, given the per-call facts at the inner fuel:
it preserves sortedness, stability of already-simplified regions and the key
set, and every id in the rewritten child list is stable. -/
theorem simp_fold (o : SimplificationOptions) (f : Nat)
    (hIH : ∀ (s : Arena) (it : Nat),
      Smap.Sorted s → Smap.size s < f →
      Smap.Sorted (simplifyF o f s it).1 ∧
      (∀ k ∈ Smap.keys (simplifyF o f s it).1, k ∈ Smap.keys s) ∧
      ((simplifyF o f s it).2 = .keep →
        StableAt o (simplifyF o f s it).1 it ∧
        NoRev (simplifyF o f s it).1 it) ∧
      (∀ r, (simplifyF o f s it).2 = .replace r →
        Smap.find? (simplifyF o f s it).1 it = none ∧
        StableAt o (simplifyF o f s it).1 r ∧
        NoRev (simplifyF o f s it).1 r) ∧
      ((simplifyF o f s it).2 = .remove →
        Smap.find? (simplifyF o f s it).1 it = none) ∧
      (∀ x, StableAt o s x → NoRev s x →
        StableAt o (simplifyF o f s it).1 x ∧
        NoRev (simplifyF o f s it).1 x)) :
    ∀ (cs : List Nat) (s2 : Arena),
      Smap.Sorted s2 → Smap.size s2 < f →
      Smap.Sorted (simpChildren (simplifyF o f) s2 cs).1 ∧
      (∀ x, StableAt o s2 x → NoRev s2 x →
        StableAt o (simpChildren (simplifyF o f) s2 cs).1 x ∧
        NoRev (simpChildren (simplifyF o f) s2 cs).1 x) ∧
      (∀ x ∈ (simpChildren (simplifyF o f) s2 cs).2,
        StableAt o (simpChildren (simplifyF o f) s2 cs).1 x ∧
        NoRev (simpChildren (simplifyF o f) s2 cs).1 x) ∧
      (∀ k ∈ Smap.keys (simpChildren (simplifyF o f) s2 cs).1,
        k ∈ Smap.keys s2) := by
  intro cs
  induction cs with
  | nil =>
    intro s2 hS hsz
    exact ⟨hS, fun x h1 h2 => ⟨h1, h2⟩,
      fun x hx => absurd hx (List.not_mem_nil x), fun k hk => hk⟩
  | cons c cs ih =>
    intro s2 hS hsz
    rcases hres : simplifyF o f s2 c with ⟨sC, act⟩
    have hm := hIH s2 c hS hsz
    rw [hres] at hm
    obtain ⟨M1, M2, M3, M4, M5, M6⟩ := hm
    replace M1 : Smap.Sorted sC := M1
    have hszC : Smap.size sC ≤ Smap.size s2 := by
      have := simplifyF_size_le o f s2 c
      rw [hres] at this
      exact this
    obtain ⟨R1, R2, R3, R6⟩ := ih sC M1 (lt_of_le_of_lt hszC hsz)
    cases act with
    | keep =>
      rw [simpChildren_cons_keep (simplifyF o f) s2 c cs hres]
      refine ⟨R1, ?_, ?_, ?_⟩
      · intro x h1 h2
        obtain ⟨h1', h2'⟩ := M6 x h1 h2
        exact R2 x h1' h2'
      · intro x hx
        replace hx : x ∈ c :: (simpChildren (simplifyF o f) sC cs).2 := hx
        rcases List.mem_cons.mp hx with rfl | hx'
        · obtain ⟨ha, hb⟩ := M3 rfl
          exact R2 x ha hb
        · exact R3 x hx'
      · intro k hk
        exact M2 k (R6 k hk)
    | remove =>
      rw [simpChildren_cons_remove (simplifyF o f) s2 c cs hres]
      refine ⟨R1, ?_, R3, ?_⟩
      · intro x h1 h2
        obtain ⟨h1', h2'⟩ := M6 x h1 h2
        exact R2 x h1' h2'
      · intro k hk
        exact M2 k (R6 k hk)
    | replace r =>
      rw [simpChildren_cons_replace (simplifyF o f) s2 c cs hres]
      refine ⟨R1, ?_, ?_, ?_⟩
      · intro x h1 h2
        obtain ⟨h1', h2'⟩ := M6 x h1 h2
        exact R2 x h1' h2'
      · intro x hx
        replace hx : x ∈ r :: (simpChildren (simplifyF o f) sC cs).2 := hx
        rcases List.mem_cons.mp hx with rfl | hx'
        · obtain ⟨_, ha, hb⟩ := M4 x rfl
          exact R2 x ha hb
        · exact R3 x hx'
      · intro k hk
        exact M2 k (R6 k hk)

end TileTree

namespace TileTree

open Tiles

/-- Master lemma for `simplify`: the walk preserves sortedness, never adds
keys, establishes a fully simplified cycle-free subtree when it returns Keep
(or at the replacement id on Replace, where the visited id is gone), leaves
the visited id out on Remove, and preserves the stability of every already
simplified region. -/
theorem simp_master (o : SimplificationOptions) :
    ∀ (f : Nat) (s : Arena) (it : Nat),
      Smap.Sorted s → Smap.size s < f →
      Smap.Sorted (simplifyF o f s it).1 ∧
      (∀ k ∈ Smap.keys (simplifyF o f s it).1, k ∈ Smap.keys s) ∧
      ((simplifyF o f s it).2 = .keep →
        StableAt o (simplifyF o f s it).1 it ∧
        NoRev (simplifyF o f s it).1 it) ∧
      (∀ r, (simplifyF o f s it).2 = .replace r →
        Smap.find? (simplifyF o f s it).1 it = none ∧
        StableAt o (simplifyF o f s it).1 r ∧
        NoRev (simplifyF o f s it).1 r) ∧
      ((simplifyF o f s it).2 = .remove →
        Smap.find? (simplifyF o f s it).1 it = none) ∧
      (∀ x, StableAt o s x → NoRev s x →
        StableAt o (simplifyF o f s it).1 x ∧
        NoRev (simplifyF o f s it).1 x) := by
  intro f
  induction f using Nat.strong_induction_on with
  | _ f ihf =>
    intro s it hS hsz
    match f, hsz with
    | f + 1, hsz =>
      cases hfind : Smap.find? s it with
      | none =>
        rw [simplifyF_eq_missing o f s it hfind]
        exact ⟨hS, fun k hk => hk, fun h => SimplifyAction.noConfusion h,
          fun r h => SimplifyAction.noConfusion h, fun _ => hfind,
          fun x h1 h2 => ⟨h1, h2⟩⟩
      | some T =>
        cases T with
        | pane p =>
          rw [simplifyF_eq_pane o f s it hfind,
            Smap.insert_erase_self hS hfind]
          refine ⟨hS, fun k hk => hk, fun _ => ⟨?_, ?_⟩,
            fun r h => SimplifyAction.noConfusion h,
            fun h => SimplifyAction.noConfusion h,
            fun x h1 h2 => ⟨h1, h2⟩⟩
          · intro k hk
            have hk' : k = it := reach_stop hk (fun C h => by
              rw [hfind] at h
              exact Tile.noConfusion (Option.some.inj h))
            rw [hk']
            exact ⟨.pane p, hfind, trivial⟩
          · intro k k' hk he _
            have hk'' : k = it := reach_stop hk (fun C h => by
              rw [hfind] at h
              exact Tile.noConfusion (Option.some.inj h))
            obtain ⟨C, hC, _⟩ := he
            rw [hk'', hfind] at hC
            exact Tile.noConfusion (Option.some.inj hC)
        | container c =>
          have hsz1 : Smap.size (Smap.erase it s) < f := by
            have := Smap.size_erase_of_find? hfind
            omega
          rcases hsc : simpChildren (simplifyF o f) (Smap.erase it s)
            c.children with ⟨s3, l⟩
          obtain ⟨R1, R2, R3, R6⟩ := simp_fold o f
            (ihf f (Nat.lt_succ_self f)) c.children (Smap.erase it s)
            hS.erase hsz1
          rw [hsc] at R1 R2 R3 R6
          replace R1 : Smap.Sorted s3 := R1
          have S5 : Smap.find? s3 it = none := by
            refine Smap.find?_eq_none_of_not_mem_keys ?_
            intro hm
            obtain ⟨a, ha⟩ := Smap.find?_isSome_of_mem_keys (R6 it hm)
            rw [Smap.find?_erase_self hS] at ha
            cases ha
          have hEq : simplifyF o (f + 1) s it
              = simplifyPolicy o it (c.withChildren l) s3 := by
            rw [simplifyF_eq_container o f s it hfind, hsc]
          rw [hEq]
          have hchl : (c.withChildren l).children = l :=
            Container.children_withChildren c l
          rcases simplifyPolicy_cases o it (c.withChildren l) s3 with
            ⟨he, hPk⟩ | he | ⟨r, he, hr⟩
          · -- Keep branch
            rw [he]
            have hfq : ∀ q, Smap.find?
                (Smap.insert it (.container (c.withChildren l)) s3) q
                = if q = it then some (.container (c.withChildren l))
                  else Smap.find? s3 q :=
              fun q => Smap.find?_insert _ _ _ q
            have hagX : ∀ x, StableAt o s3 x → ∀ q, Reach s3 x q →
                Smap.find?
                  (Smap.insert it (.container (c.withChildren l)) s3) q
                  = Smap.find? s3 q := by
              intro x hx q hq
              obtain ⟨T, hT, _⟩ := hx q hq
              have hqit : q ≠ it := by
                intro h
                rw [h, S5] at hT
                exact Option.noConfusion hT
              rw [hfq, if_neg hqit]
            refine ⟨R1.insert, ?_, ?_,
              fun r h => SimplifyAction.noConfusion h,
              fun h => SimplifyAction.noConfusion h, ?_⟩
            · intro k hk
              rcases Smap.mem_keys_insert hk with rfl | hk'
              · exact Smap.mem_keys_of_find? hfind
              · exact (Smap.keys_erase_sublist it s).mem (R6 k hk')
            · intro _
              constructor
              · intro k hk
                by_cases hkit : k = it
                · refine ⟨.container (c.withChildren l),
                    by rw [hkit, hfq, if_pos rfl], ?_⟩
                  refine policyKeep_local o ?_ hPk
                  intro y hy
                  replace hy : y ∈ (c.withChildren l).children := hy
                  rw [hchl] at hy
                  obtain ⟨ha, _⟩ := R3 y hy
                  exact hagX y ha y Relation.ReflTransGen.refl
                · rcases Relation.ReflTransGen.cases_head hk with h |
                    ⟨x, hx, hxk⟩
                  · exact absurd h.symm hkit
                  · obtain ⟨C', hC', hxm⟩ := hx
                    rw [hfq, if_pos rfl] at hC'
                    have hCeq : c.withChildren l = C' :=
                      Tile.container.inj (Option.some.inj hC')
                    rw [← hCeq, hchl] at hxm
                    obtain ⟨ha, hb⟩ := R3 x hxm
                    obtain ⟨hsa, _⟩ := stable_transfer o ha hb (hagX x ha)
                    exact hsa k hxk
              · intro k k' hk he' hr'
                replace he' : Edge (Smap.insert it
                  (.container (c.withChildren l)) s3) k k' := he'
                replace hr' : Reach (Smap.insert it
                  (.container (c.withChildren l)) s3) k' k := hr'
                by_cases hkit : k = it
                · rw [hkit] at he' hr'
                  obtain ⟨C', hC', hk'm⟩ := he'
                  rw [hfq, if_pos rfl] at hC'
                  have hCeq : c.withChildren l = C' :=
                    Tile.container.inj (Option.some.inj hC')
                  rw [← hCeq, hchl] at hk'm
                  obtain ⟨ha, _⟩ := R3 k' hk'm
                  have hr3 : Reach s3 k' it := reach_agree (hagX k' ha) hr'
                  obtain ⟨T, hT, _⟩ := ha it hr3
                  rw [S5] at hT
                  exact Option.noConfusion hT
                · rcases Relation.ReflTransGen.cases_head hk with h |
                    ⟨x, hx, hxk⟩
                  · exact absurd h.symm hkit
                  · obtain ⟨C', hC', hxm⟩ := hx
                    rw [hfq, if_pos rfl] at hC'
                    have hCeq : c.withChildren l = C' :=
                      Tile.container.inj (Option.some.inj hC')
                    rw [← hCeq, hchl] at hxm
                    obtain ⟨ha, hb⟩ := R3 x hxm
                    have hxk3 : Reach s3 x k :=
                      reach_agree (hagX x ha) hxk
                    obtain ⟨C2, hC2, hc2⟩ := he'
                    rw [hfq, if_neg hkit] at hC2
                    have hE3 : Edge s3 k k' := ⟨C2, hC2, hc2⟩
                    have hk'3 : Reach s3 x k' := hxk3.tail hE3
                    refine hb k k' hxk3 hE3 ?_
                    exact reach_agree
                      (fun q hq => hagX x ha q (hk'3.trans hq)) hr'
            · intro x h1 h2
              by_cases hstab : StableAt o s it ∧ NoRev s it
              · have hid := stable_run_id o (f + 1) s it hS hsz hstab.1
                  hstab.2
                have hcomb : (Smap.insert it
                    (.container (c.withChildren l)) s3 : Arena) = s := by
                  have h1' := hEq.symm.trans hid
                  have h2' := he.symm.trans h1'
                  exact congrArg Prod.fst h2'
                rw [hcomb]
                exact ⟨h1, h2⟩
              · have hnx : ¬ Reach s x it := by
                  intro hR
                  exact hstab ⟨StableAt_inherit h1 hR,
                    NoRev_inherit h2 hR⟩
                obtain ⟨he1, he2⟩ := stable_erase_out o h1 h2 hnx
                obtain ⟨h31, h32⟩ := R2 x he1 he2
                exact stable_transfer o h31 h32 (hagX x h31)
          · -- Remove branch
            rw [he]
            refine ⟨R1, ?_, fun h => SimplifyAction.noConfusion h,
              fun r h => SimplifyAction.noConfusion h, fun _ => S5, ?_⟩
            · intro k hk
              exact (Smap.keys_erase_sublist it s).mem (R6 k hk)
            · intro x h1 h2
              by_cases hstab : StableAt o s it ∧ NoRev s it
              · have hid := stable_run_id o (f + 1) s it hS hsz hstab.1
                  hstab.2
                exact SimplifyAction.noConfusion
                  (congrArg Prod.snd (hid.symm.trans (hEq.trans he)))
              · have hnx : ¬ Reach s x it := by
                  intro hR
                  exact hstab ⟨StableAt_inherit h1 hR,
                    NoRev_inherit h2 hR⟩
                obtain ⟨he1, he2⟩ := stable_erase_out o h1 h2 hnx
                exact R2 x he1 he2
          · -- Replace branch
            rw [he]
            rw [hchl] at hr
            refine ⟨R1, ?_, fun h => SimplifyAction.noConfusion h, ?_,
              fun h => SimplifyAction.noConfusion h, ?_⟩
            · intro k hk
              exact (Smap.keys_erase_sublist it s).mem (R6 k hk)
            · intro r' h
              have hrr : r = r' := SimplifyAction.replace.inj h
              refine ⟨S5, ?_⟩
              rw [← hrr]
              exact R3 r (by rw [hr]; exact List.mem_singleton.mpr rfl)
            · intro x h1 h2
              by_cases hstab : StableAt o s it ∧ NoRev s it
              · have hid := stable_run_id o (f + 1) s it hS hsz hstab.1
                  hstab.2
                exact SimplifyAction.noConfusion
                  (congrArg Prod.snd (hid.symm.trans (hEq.trans he)))
              · have hnx : ¬ Reach s x it := by
                  intro hR
                  exact hstab ⟨StableAt_inherit h1 hR,
                    NoRev_inherit h2 hR⟩
                obtain ⟨he1, he2⟩ := stable_erase_out o h1 h2 hnx
                exact R2 x he1 he2

end TileTree

namespace TileTree

open Tiles

/-- Claim C4, counterexample: the resulting action is not idempotent.  On a
Tabs tile with a single pane child (without `all_panes_must_have_tabs`), the
first run returns Replace(2) and removes tile 1; the second run from the
same id finds it missing and returns Remove — with the claimed identical
results the two actions would be equal. -/
theorem C4_counterexample :
    simplify ⟨true, true, true, true, false⟩
      [(1, Tile.container (.tabs ⟨[2], 2⟩)), (2, Tile.pane 0)] 1
      = ([(2, Tile.pane 0)], .replace 2) ∧
    simplify ⟨true, true, true, true, false⟩ [(2, Tile.pane 0)] 1
      = ([(2, Tile.pane 0)], .remove) ∧
    SimplifyAction.replace 2 ≠ SimplifyAction.remove :=
  ⟨by decide, by decide, by decide⟩

/-- Claim C4, amended: running `simplify` twice in succession from the same
tile id with the same options produces an arena identical to running it
once, on every sorted arena (including duplicate and cyclic references).
The resulting action is reproduced only when the first run returned Keep;
after Remove or Replace the id is gone from the arena, so the second run
returns Remove. -/
theorem C4_amended_simplify_idempotent :
    ∀ (o : SimplificationOptions) (s : Arena) (it : Nat),
      Smap.Sorted s →
      (simplify o (simplify o s it).1 it).1 = (simplify o s it).1 ∧
      ((simplify o s it).2 = .keep →
        simplify o (simplify o s it).1 it = ((simplify o s it).1, .keep)) ∧
      ((simplify o s it).2 ≠ .keep →
        simplify o (simplify o s it).1 it
          = ((simplify o s it).1, .remove)) := by
  intro o s it hS
  obtain ⟨M1, M2, M3, M4, M5, M6⟩ :=
    simp_master o (Smap.size s + 1) s it hS (Nat.lt_succ_self _)
  have hkeep : (simplify o s it).2 = .keep →
      simplify o (simplify o s it).1 it
        = ((simplify o s it).1, .keep) := by
    intro h
    obtain ⟨hst, hnr⟩ := M3 h
    exact stable_run_id o (Smap.size (simplify o s it).1 + 1)
      (simplify o s it).1 it M1 (Nat.lt_succ_self _) hst hnr
  have hnotkeep : (simplify o s it).2 ≠ .keep →
      simplify o (simplify o s it).1 it
        = ((simplify o s it).1, .remove) := by
    intro h
    have hnone : Smap.find? (simplify o s it).1 it = none := by
      cases hact : (simplify o s it).2 with
      | keep => exact absurd hact h
      | remove => exact M5 hact
      | replace r => exact (M4 r hact).1
    exact simplifyF_eq_missing o (Smap.size (simplify o s it).1)
      (simplify o s it).1 it hnone
  refine ⟨?_, hkeep, hnotkeep⟩
  by_cases h : (simplify o s it).2 = .keep
  · rw [hkeep h]
  · rw [hnotkeep h]

/-- Claim C4, amended, witness: both action regimes at concrete inputs — a
kept single-pane Tabs (with `all_panes_must_have_tabs`) reruns to Keep with
the same arena, and a replaced Tabs wrapper (without it) reruns to
Remove with the same arena. -/
theorem C4_amended_simplify_idempotent_witness :
    simplify ⟨true, true, true, true, true⟩
      (simplify ⟨true, true, true, true, true⟩
        [(1, Tile.container (.tabs ⟨[2], 2⟩)), (2, Tile.pane 0)] 1).1 1
      = ((simplify ⟨true, true, true, true, true⟩
          [(1, Tile.container (.tabs ⟨[2], 2⟩)), (2, Tile.pane 0)] 1).1,
        .keep) ∧
    simplify ⟨true, true, true, true, false⟩
      (simplify ⟨true, true, true, true, false⟩
        [(1, Tile.container (.tabs ⟨[2], 2⟩)), (2, Tile.pane 0)] 1).1 1
      = ((simplify ⟨true, true, true, true, false⟩
          [(1, Tile.container (.tabs ⟨[2], 2⟩)), (2, Tile.pane 0)] 1).1,
        .remove) :=
  ⟨(C4_amended_simplify_idempotent ⟨true, true, true, true, true⟩
      [(1, Tile.container (.tabs ⟨[2], 2⟩)), (2, Tile.pane 0)] 1
      (by decide)).2.1 (by decide),
    (C4_amended_simplify_idempotent ⟨true, true, true, true, false⟩
      [(1, Tile.container (.tabs ⟨[2], 2⟩)), (2, Tile.pane 0)] 1
      (by decide)).2.2 (by decide)⟩

end TileTree

namespace TileTree

open Tiles

/-- Claim C5: the pruning policy of `Tiles::simplify` on a Tabs container
(children already simplified).  With `prune_empty_tabs` and zero children the
result is Remove.  With `prune_single_child_tabs` and exactly one child:
if `all_panes_must_have_tabs` is set and the sole child resolves to a Pane
in the arena, the result is Keep and the arena is left as it was; otherwise
— the child resolves to a Container, or `all_panes_must_have_tabs` is unset
(whatever the child is) — the result is Replace with that child's id and the
wrapper is left out of the arena.  The last conjunct states the Replace rule
at the policy itself, covering also a sole child id absent from the arena:
Replace fires whenever the `all_panes_must_have_tabs`-and-pane guard
fails. -/
theorem C5_simplify_tabs_policy :
    (∀ (o : SimplificationOptions) (s : Arena) (it : Nat) (t : Tabs),
      Smap.find? s it = some (.container (.tabs t)) → t.children = [] →
      o.prune_empty_tabs = true →
      Tiles.simplify o s it = (Smap.erase it s, .remove)) ∧
    (∀ (o : SimplificationOptions) (s : Arena) (it p q : Nat) (t : Tabs),
      s.Sorted → Smap.find? s it = some (.container (.tabs t)) →
      t.children = [p] → p ≠ it → Smap.find? s p = some (.pane q) →
      o.prune_single_child_tabs = true → o.all_panes_must_have_tabs = true →
      Tiles.simplify o s it = (s, .keep)) ∧
    (∀ (o : SimplificationOptions) (s : Arena) (it d : Nat) (t : Tabs),
      Smap.find? s it = some (.container (.tabs t)) →
      t.children = [d] → d ≠ it →
      o.prune_single_child_tabs = true →
      Tiles.simplifyF o s.size (Smap.erase it s) d
        = (Smap.erase it s, .keep) →
      (o.all_panes_must_have_tabs
        && Tiles.isPaneIn (Smap.erase it s) d) = false →
      Tiles.simplify o s it = (Smap.erase it s, .replace d)) ∧
    (∀ (o : SimplificationOptions) (it : Nat) (t : Tabs) (s1 : Arena)
      (d : Nat),
      t.children = [d] →
      o.prune_single_child_tabs = true →
      (o.all_panes_must_have_tabs && Tiles.isPaneIn s1 d) = false →
      Tiles.simplifyPolicy o it (.tabs t) s1 = (s1, .replace d)) := by
  have hpol : ∀ (o : SimplificationOptions) (it : Nat) (t : Tabs)
      (s1 : Arena) (d : Nat),
      t.children = [d] →
      o.prune_single_child_tabs = true →
      (o.all_panes_must_have_tabs && Tiles.isPaneIn s1 d) = false →
      Tiles.simplifyPolicy o it (.tabs t) s1 = (s1, .replace d) := by
    intro o it t s1 d hch hopt hpane
    simp only [Tiles.simplifyPolicy, Container.layout, Container.isEmpty,
      Container.children, hch, List.isEmpty_cons, List.length_cons,
      List.length_nil, List.headD_cons, hopt, hpane, Bool.true_and,
      Bool.and_false, Bool.and_true, Bool.false_eq_true, beq_self_eq_true,
      if_true, if_false, reduceIte]
  refine ⟨?_, ?_, ?_, hpol⟩
  · intro o s it t hfind hch hopt
    unfold Tiles.simplify
    unfold Tiles.simplifyF
    rw [hfind]
    simp only [Tiles.simpChildren, Tiles.simplifyPolicy, hch,
      Container.withChildren, Container.layout, Container.isEmpty,
      Container.children, List.isEmpty_nil, hopt, Bool.true_and, if_pos rfl,
      reduceIte]
  · intro o s it p q t hs hfind hch hpit hp hopt hall
    have hm : ∃ m, s.size = m + 1 := by
      cases s with
      | nil => simp [Smap.find?] at hfind
      | cons e r => exact ⟨r.length, rfl⟩
    obtain ⟨m, hm⟩ := hm
    have hs0 : Smap.find? (Smap.erase it s) p = some (.pane q) := by
      rw [Smap.find?_erase_ne it s p hpit, hp]
    have hchildstep : Tiles.simplifyF o s.size (Smap.erase it s) p
        = (Smap.erase it s, .keep) := by
      rw [hm]
      unfold Tiles.simplifyF
      rw [hs0]
      simp only
      rw [Smap.insert_erase_self hs.erase hs0]
    unfold Tiles.simplify
    unfold Tiles.simplifyF
    rw [hfind]
    simp only [Container.children, hch, Tiles.simpChildren,
      Tiles.simplifyPolicy, hchildstep, Container.withChildren,
      Container.layout, Container.isEmpty, List.isEmpty_cons,
      List.length_cons, List.length_nil, List.headD_cons, Tiles.isPaneIn,
      Tiles.get, hs0, hopt, hall, Bool.true_and, Bool.and_false,
      Bool.and_true, Bool.false_eq_true, beq_self_eq_true, if_true, if_false,
      reduceIte]
    have heta : ({ children := [p], active := t.active } : Tabs) = t := by
      cases t with
      | mk ch a =>
        simp only at hch
        rw [hch]
    rw [heta, Smap.insert_erase_self hs hfind]
  · intro o s it d t hfind hch hdit hopt hstep hpane
    show Tiles.simplifyF o (s.size + 1) s it
      = (Smap.erase it s, .replace d)
    rw [simplifyF_eq_container o s.size s it hfind]
    have hch' : (Container.tabs t).children = [d] := hch
    rw [hch']
    rw [simpChildren_cons_keep (Tiles.simplifyF o s.size)
      (Smap.erase it s) d [] hstep]
    show Tiles.simplifyPolicy o it ((Container.tabs t).withChildren [d])
      (Smap.erase it s) = (Smap.erase it s, .replace d)
    exact hpol o it { t with children := [d] } (Smap.erase it s) d rfl
      hopt hpane

/-- Claim C5, witness: the policy outcomes at concrete arenas — an empty
Tabs is removed; a Tabs holding one pane is kept under
`all_panes_must_have_tabs`; a Tabs holding one pane is replaced by it when
`all_panes_must_have_tabs` is unset; a Tabs holding one (already simplified)
Tabs container is replaced by it even under `all_panes_must_have_tabs`; and
the policy replaces a sole dangling child under `all_panes_must_have_tabs`
as well. -/
theorem C5_simplify_tabs_policy_witness :
    Tiles.simplify ⟨true, true, true, true, true⟩
      [(1, .container (.tabs ⟨[], 0⟩))] 1
      = (Smap.erase 1 [(1, .container (.tabs ⟨[], 0⟩))], .remove) ∧
    Tiles.simplify ⟨true, true, true, true, true⟩
      [(1, .container (.tabs ⟨[2], 2⟩)), (2, .pane 7)] 1
      = ([(1, .container (.tabs ⟨[2], 2⟩)), (2, .pane 7)], .keep) ∧
    Tiles.simplify ⟨true, true, true, true, false⟩
      [(1, .container (.tabs ⟨[2], 2⟩)), (2, .pane 7)] 1
      = (Smap.erase 1 [(1, .container (.tabs ⟨[2], 2⟩)), (2, .pane 7)],
        .replace 2) ∧
    Tiles.simplify ⟨true, true, true, true, true⟩
      [(1, .container (.tabs ⟨[2], 2⟩)),
       (2, .container (.tabs ⟨[3, 4], 3⟩)),
       (3, .pane 0), (4, .pane 1)] 1
      = (Smap.erase 1
          [(1, .container (.tabs ⟨[2], 2⟩)),
           (2, .container (.tabs ⟨[3, 4], 3⟩)),
           (3, .pane 0), (4, .pane 1)], .replace 2) ∧
    Tiles.simplifyPolicy ⟨true, true, true, true, true⟩ 1 (.tabs ⟨[5], 5⟩)
      [(2, .pane 0)]
      = ([(2, .pane 0)], .replace 5) :=
  ⟨C5_simplify_tabs_policy.1 ⟨true, true, true, true, true⟩
      [(1, .container (.tabs ⟨[], 0⟩))] 1 ⟨[], 0⟩ rfl rfl rfl,
    C5_simplify_tabs_policy.2.1 ⟨true, true, true, true, true⟩
      [(1, .container (.tabs ⟨[2], 2⟩)), (2, .pane 7)] 1 2 7 ⟨[2], 2⟩
      (by decide) rfl rfl (by decide) rfl rfl rfl,
    C5_simplify_tabs_policy.2.2.1 ⟨true, true, true, true, false⟩
      [(1, .container (.tabs ⟨[2], 2⟩)), (2, .pane 7)] 1 2 ⟨[2], 2⟩
      rfl rfl (by decide) rfl (by decide) (by decide),
    C5_simplify_tabs_policy.2.2.1 ⟨true, true, true, true, true⟩
      [(1, .container (.tabs ⟨[2], 2⟩)),
       (2, .container (.tabs ⟨[3, 4], 3⟩)),
       (3, .pane 0), (4, .pane 1)] 1 2 ⟨[2], 2⟩
      rfl rfl (by decide) rfl (by decide) (by decide),
    C5_simplify_tabs_policy.2.2.2 ⟨true, true, true, true, true⟩ 1
      ⟨[5], 5⟩ [(2, .pane 0)] 5 rfl rfl (by decide)⟩

end TileTree
